import Mathlib

/-!
bt: the file-tree model (`tree.go`) and the key state machine (`internal/state/state.go`).

Shallow embedding.  Go pointers `*Node` are addresses (`Nat`) into an explicit node
store (`Heap`); the Go `nil` pointer is `none`.  A Go slice `[]*Node` that may be `nil`
is `Option (List Nat)`: `none` is the nil slice, `some []` the empty non-nil slice.
Run-time panics of Go (nil dereference, index out of range, `panic(err)`) are the
`Fault` results; an `error` return value is an `Option GoError`.
-/

namespace Bt

/-- Go `error` values (only the message is observable). -/
structure GoError where
  msg : String
deriving DecidableEq, Repr

/-- Run-time panics of the Go program. -/
inductive Fault where
  | nilDeref
  | indexOutOfRange
  | panicErr (e : GoError)
deriving DecidableEq, Repr

/-- The part of `fs.FileInfo` that the program can observe. -/
structure FileInfo where
  name : String
  isDir : Bool
  size : Nat
  mode : Nat
  modTime : Nat
deriving DecidableEq, Repr

/-- `type Node struct` of tree.go. -/
structure Node where
  Path : String
  Info : FileInfo
  Children : Option (List Nat)
  Parent : Option Nat
  selectedChildIdx : Int
deriving DecidableEq, Repr

/-- The node store: node `p` lives at position `p`. -/
abbrev Heap := List Node

/-- `type Tree struct` of tree.go, together with the store its pointers refer into. -/
structure Tree where
  nodes : Heap
  Root : Option Nat
  CurrentDir : Option Nat
  Marked : Option Nat
deriving DecidableEq, Repr

/-- A directory entry as returned by `os.ReadDir`; `info` is the result of `ch.Info()`. -/
structure DirEntry where
  info : Except GoError FileInfo

/-- The operating system as seen by one call of a tree operation:
`os.Lstat`, `os.ReadDir` and the exit status of `exec.Command(name, args...).Run()`. -/
structure OS where
  Lstat : String → Except GoError FileInfo
  ReadDir : String → Except GoError (List DirEntry)
  Run : String → List String → Option GoError
  /-- Modelled from the spec: the external recursive-delete primitive `delete(path)`. -/
  Remove : String → Option GoError
  /-- Modelled from the spec: the external primitive `rename(path, new_leaf_name)`. -/
  Rename : String → String → Option GoError
  /-- Modelled from the spec: the external primitive `create-empty-file(dir, name)`. -/
  CreateFile : String → String → Option GoError
  /-- Modelled from the spec: the external primitive `create-directory(dir, name)`. -/
  CreateDir : String → String → Option GoError

/-- Go `len` of a possibly nil slice. -/
def sliceLen (s : Option (List Nat)) : Nat :=
  match s with
  | none => 0
  | some cs => cs.length

/-- The elements of a possibly nil slice (what `range` iterates over). -/
def sliceElems (s : Option (List Nat)) : List Nat :=
  match s with
  | none => []
  | some cs => cs

/-- Go slice indexing `s[i]` with an `int` index: panics outside `0 ≤ i < len s`. -/
def sliceIndex (s : Option (List Nat)) (i : Int) : Except Fault Nat :=
  if i < 0 then .error .indexOutOfRange
  else match (sliceElems s)[i.toNat]? with
    | none => .error .indexOutOfRange
    | some p => .ok p

/-- Dereference of a possibly nil pointer. -/
def deref (h : Heap) (p : Option Nat) : Except Fault Node :=
  match p with
  | none => .error .nilDeref
  | some a =>
    match h[a]? with
    | none => .error .nilDeref
    | some nd => .ok nd

/-- The elements of a path between its separators `/`; `cur` is the element being read,
last character first. -/
def splitSlash : List Char → List Char → List (List Char)
  | [], cur => [cur.reverse]
  | c :: cs, cur =>
    if c = '/' then cur.reverse :: splitSlash cs [] else splitSlash cs (c :: cur)

/-- One step of the scan of `filepath.Clean` (Go library, separator `/`): `kept` holds the
elements written so far, last first.  Empty and `.` elements are dropped; `..` removes the
last kept element when there is one that is not itself `..`, is dropped at the root, and
is kept otherwise. -/
def cleanStep (rooted : Bool) (kept : List (List Char)) (e : List Char) : List (List Char) :=
  if e = [] ∨ e = ['.'] then kept
  else if e = ['.', '.'] then
    match kept with
    | top :: rest => if top = ['.', '.'] then e :: kept else rest
    | [] => if rooted then [] else [e]
  else e :: kept

/-- `filepath.Clean` of the Go library for the separator `/`: the shortest equivalent
path; the empty result is `.`, the root stays `/`. -/
def filepathClean (path : String) : String :=
  if path = "" then "."
  else
    let rooted : Bool := decide (path.toList.head? = some '/')
    let kept := (splitSlash path.toList []).foldl (cleanStep rooted) []
    let body := String.mk (List.intercalate ['/'] kept.reverse)
    if rooted then "/" ++ body
    else if body = "" then "." else body

/-- `filepath.Join(a, b)` of the Go library for the separator `/`: the elements from the
first non-empty one on are joined by `/` and the result is cleaned; two empty elements
give the empty string. -/
def filepathJoin (a b : String) : String :=
  if a ≠ "" then filepathClean (a ++ "/" ++ b)
  else if b ≠ "" then filepathClean b
  else ""

/-- The inner loop of `ReadChildren` (tree.go 175-180): the first existing child whose
`Info.Name()` equals `name`, or nil. -/
def findChild (h : Heap) (name : String) : List Nat → Except Fault (Option Nat)
  | [] => .ok none
  | ech :: rest =>
    match h[ech]? with
    | none => .error .nilDeref
    | some e => if e.Info.name = name then .ok (some ech) else findChild h name rest

/-- The `childToAdd` lookup of `ReadChildren` (tree.go 173-181), guarded by `n.Children != nil`. -/
def lookupChild (h : Heap) (old : Option (List Nat)) (name : String) : Except Fault (Option Nat) :=
  match old with
  | none => .ok none
  | some cs => findChild h name cs

/-- The literal `&Node{Path: filepath.Join(n.Path, chInfo.Name()), Info: chInfo,
Children: nil, Parent: n}` of `ReadChildren` (tree.go 183-188); `selectedChildIdx` has
its zero value. -/
def freshNode (n : Nat) (path : String) (chInfo : FileInfo) : Node :=
  { Path := filepathJoin path chInfo.name, Info := chInfo, Children := none,
    Parent := some n, selectedChildIdx := 0 }

/-- The outer loop of `ReadChildren` (tree.go 166-191).  `path` and `old` are `n.Path`
and `n.Children`, which the loop never assigns; `acc` is `chNodes`.  A fresh `&Node{...}`
is stored at the next free address.  The result carries the store and either the
error returned from inside the loop or the final `chNodes`. -/
def readLoop (n : Nat) (path : String) (old : Option (List Nat)) :
    Heap → List DirEntry → List Nat → Except Fault (Heap × Except GoError (List Nat))
  | h, [], acc => .ok (h, .ok acc)
  | h, ch :: rest, acc =>
    match ch.info with
    | .error e => .ok (h, .error e)
    | .ok chInfo =>
      match lookupChild h old chInfo.name with
      | .error f => .error f
      | .ok (some c) => readLoop n path old h rest (acc ++ [c])
      | .ok none =>
        readLoop n path old (h ++ [freshNode n path chInfo]) rest (acc ++ [h.length])

/-- `func (n *Node) ReadChildren() error` (tree.go 156-197). -/
def ReadChildren (os : OS) (h : Heap) (n : Option Nat) : Except Fault (Heap × Option GoError) :=
  match n with
  | none => .error .nilDeref
  | some a =>
    match h[a]? with
    | none => .error .nilDeref
    | some nd =>
      if !nd.Info.isDir then .ok (h, none)
      else
        match os.ReadDir nd.Path with
        | .error e => .ok (h, some e)
        | .ok children =>
          match readLoop a nd.Path nd.Children h children [] with
          | .error f => .error f
          | .ok (h1, .error e) => .ok (h1, some e)
          | .ok (h1, .ok chNodes) =>
            .ok (h1.set a { nd with
                    Children := some chNodes
                    selectedChildIdx :=
                      max (min nd.selectedChildIdx ((chNodes.length : Int) - 1)) 0 },
                 none)

/-- `func (n *Node) orphanChildren()` (tree.go 198-200). -/
def orphanChildren (h : Heap) (n : Option Nat) : Except Fault Heap :=
  match n with
  | none => .error .nilDeref
  | some a =>
    match h[a]? with
    | none => .error .nilDeref
    | some nd => .ok (h.set a { nd with Children := none })

/-- `slices.IndexFunc(s, func(n *Node) bool { return n.Info.Name() == name })`, scanning
from position `i`: the first index whose node has that name, or -1. -/
def indexFunc (h : Heap) (name : String) : List Nat → Nat → Except Fault Int
  | [], _ => .ok (-1)
  | c :: rest, i =>
    match h[c]? with
    | none => .error .nilDeref
    | some cn => if cn.Info.name = name then .ok (i : Int) else indexFunc h name rest (i + 1)

namespace Tree

/-- `func (t *Tree) GetSelectedChild() *Node` (tree.go 18-23). -/
def GetSelectedChild (t : Tree) : Except Fault (Option Nat) :=
  match deref t.nodes t.CurrentDir with
  | .error f => .error f
  | .ok d =>
    if sliceLen d.Children > 0 then
      match sliceIndex d.Children d.selectedChildIdx with
      | .error f => .error f
      | .ok c => .ok (some c)
    else .ok none

/-- `func (t *Tree) SelectNextChild()` (tree.go 24-28). -/
def SelectNextChild (t : Tree) : Except Fault Tree :=
  match t.CurrentDir with
  | none => .error .nilDeref
  | some a =>
    match t.nodes[a]? with
    | none => .error .nilDeref
    | some d =>
      if d.selectedChildIdx < (sliceLen d.Children : Int) - 1 then
        .ok { t with nodes := t.nodes.set a { d with selectedChildIdx := d.selectedChildIdx + 1 } }
      else .ok t

/-- `func (t *Tree) SelectPreviousChild()` (tree.go 29-33). -/
def SelectPreviousChild (t : Tree) : Except Fault Tree :=
  match t.CurrentDir with
  | none => .error .nilDeref
  | some a =>
    match t.nodes[a]? with
    | none => .error .nilDeref
    | some d =>
      if d.selectedChildIdx > 0 then
        .ok { t with nodes := t.nodes.set a { d with selectedChildIdx := d.selectedChildIdx - 1 } }
      else .ok t

/-- `func (t *Tree) SetSelectedChildAsCurrent() error` (tree.go 34-50). -/
def SetSelectedChildAsCurrent (os : OS) (t : Tree) : Except Fault (Tree × Option GoError) :=
  match t.GetSelectedChild with
  | .error f => .error f
  | .ok none => .ok (t, none)
  | .ok (some c) =>
    match t.nodes[c]? with
    | none => .error .nilDeref
    | some cn =>
      if !cn.Info.isDir then .ok (t, none)
      else if cn.Children.isNone then
        match ReadChildren os t.nodes (some c) with
        | .error f => .error f
        | .ok (h, some e) => .ok ({ t with nodes := h }, some e)
        | .ok (h, none) => .ok ({ t with nodes := h, CurrentDir := some c }, none)
      else .ok ({ t with CurrentDir := some c }, none)

/-- `func (t *Tree) SetParentAsCurrent()` (tree.go 51-60). -/
def SetParentAsCurrent (t : Tree) : Except Fault Tree :=
  match deref t.nodes t.CurrentDir with
  | .error f => .error f
  | .ok d =>
    match d.Parent with
    | none => .ok t
    | some p =>
      match t.nodes[p]? with
      | none => .error .nilDeref
      | some pn =>
        match indexFunc t.nodes d.Info.name (sliceElems pn.Children) 0 with
        | .error f => .error f
        | .ok newParentIdx =>
          .ok { t with nodes := t.nodes.set p { pn with selectedChildIdx := newParentIdx }
                       CurrentDir := some p }

/-- `func (t *Tree) MarkSelectedChild()` (tree.go 61-65). -/
def MarkSelectedChild (t : Tree) : Except Fault Tree :=
  match t.GetSelectedChild with
  | .error f => .error f
  | .ok none => .ok t
  | .ok (some c) => .ok { t with Marked := some c }

/-- `func (t *Tree) CopyMarkedToCurrentDir() error` (tree.go 66-83). -/
def CopyMarkedToCurrentDir (os : OS) (t : Tree) : Except Fault (Tree × Option GoError) :=
  match t.Marked with
  | none => .ok (t, none)
  | some m =>
    match deref t.nodes t.CurrentDir with
    | .error f => .error f
    | .ok d =>
      match t.nodes[m]? with
      | none => .error .nilDeref
      | some mn =>
        match os.Run "cp" [mn.Path, d.Path] with
        | some e => .ok (t, some e)
        | none =>
          match ReadChildren os t.nodes t.CurrentDir with
          | .error f => .error f
          | .ok (h, some e) => .ok ({ t with nodes := h }, some e)
          | .ok (h, none) => .ok ({ t with nodes := h, Marked := none }, none)

/-- `func (t *Tree) MoveMarkedToCurrentDir() error` (tree.go 84-104). -/
def MoveMarkedToCurrentDir (os : OS) (t : Tree) : Except Fault (Tree × Option GoError) :=
  match t.Marked with
  | none => .ok (t, none)
  | some m =>
    match deref t.nodes t.CurrentDir with
    | .error f => .error f
    | .ok d =>
      match t.nodes[m]? with
      | none => .error .nilDeref
      | some mn =>
        match os.Run "mv" [mn.Path, d.Path] with
        | some e => .ok (t, some e)
        | none =>
          match ReadChildren os t.nodes t.CurrentDir with
          | .error f => .error f
          | .ok (h, some e) => .ok ({ t with nodes := h }, some e)
          | .ok (h, none) =>
            match h[m]? with
            | none => .error .nilDeref
            | some mn1 =>
              match ReadChildren os h mn1.Parent with
              | .error f => .error f
              | .ok (h1, some e) => .ok ({ t with nodes := h1 }, some e)
              | .ok (h1, none) => .ok ({ t with nodes := h1, Marked := none }, none)

/-- `func (t *Tree) CollapseOrExpandSelected() error` (tree.go 105-119). -/
def CollapseOrExpandSelected (os : OS) (t : Tree) : Except Fault (Tree × Option GoError) :=
  match t.GetSelectedChild with
  | .error f => .error f
  | .ok none => .ok (t, none)
  | .ok (some c) =>
    match t.nodes[c]? with
    | none => .error .nilDeref
    | some cn =>
      if cn.Children.isSome then
        match orphanChildren t.nodes (some c) with
        | .error f => .error f
        | .ok h => .ok ({ t with nodes := h }, none)
      else
        match ReadChildren os t.nodes (some c) with
        | .error f => .error f
        | .ok (h, e) => .ok ({ t with nodes := h }, e)

end Tree

instance {ε α : Type} [DecidableEq ε] [DecidableEq α] : DecidableEq (Except ε α) :=
  fun x y =>
    match x, y with
    | .ok a, .ok b => if h : a = b then isTrue (by rw [h]) else isFalse (fun e => h (by cases e; rfl))
    | .error a, .error b =>
      if h : a = b then isTrue (by rw [h]) else isFalse (fun e => h (by cases e; rfl))
    | .ok _, .error _ => isFalse (fun e => by cases e)
    | .error _, .ok _ => isFalse (fun e => by cases e)

/-- The zero value `var tree Tree`. -/
def zeroTree : Tree := { nodes := [], Root := none, CurrentDir := none, Marked := none }

/-- `func InitTree(dir string) (Tree, error)` (tree.go 121-146); the root is the first
node of a fresh store. -/
def InitTree (os : OS) (dir : String) : Except Fault (Tree × Option GoError) :=
  match os.Lstat dir with
  | .error e => .ok (zeroTree, some e)
  | .ok rootInfo =>
    if !rootInfo.isDir then .ok (zeroTree, some ⟨dir ++ " is not a directory"⟩)
    else
      match ReadChildren os
          [{ Path := dir, Info := rootInfo, Children := some [], Parent := none,
             selectedChildIdx := 0 }] (some 0) with
      | .error f => .error f
      | .ok (_, some e) => .ok (zeroTree, some e)
      | .ok (h, none) =>
        match h[0]? with
        | none => .error .nilDeref
        | some root =>
          if sliceLen root.Children = 0 then
            .ok (zeroTree, some ⟨"Can't initialize on empty directory '" ++ dir ++ "'"⟩)
          else .ok ({ nodes := h, Root := some 0, CurrentDir := some 0, Marked := none }, none)

/-! ## The operations of package `internal/tree` that `state.go` calls and `tree.go` lacks -/

namespace InternalTree

/-- Modelled from the spec: `mark_selected()` as called by state.go (`if ok :=
s.Tree.MarkSelectedChild(); ok`); tree.go has the same method without the result.
"Sets `marked` to the currently selected child; returns whether a selection existed
(false if `current_dir` is empty)". -/
def MarkSelectedChild (t : Tree) : Except Fault (Tree × Bool) :=
  match t.GetSelectedChild with
  | .error f => .error f
  | .ok none => .ok (t, false)
  | .ok (some c) => .ok ({ t with Marked := some c }, true)

/-- Modelled from the spec: `drop_mark()`, absent from tree.go: "clears `marked`
unconditionally; always safe". -/
def DropMark (t : Tree) : Tree := { t with Marked := none }

/-- Modelled from the spec: `select_first()`, absent from tree.go: "jump to index 0". -/
def SelectFirst (h : Heap) (n : Option Nat) : Except Fault Heap :=
  match n with
  | none => .error .nilDeref
  | some a =>
    match h[a]? with
    | none => .error .nilDeref
    | some nd => .ok (h.set a { nd with selectedChildIdx := 0 })

/-- Modelled from the spec: `select_last()`, absent from tree.go: "jump to index
`len(children)-1`". -/
def SelectLast (h : Heap) (n : Option Nat) : Except Fault Heap :=
  match n with
  | none => .error .nilDeref
  | some a =>
    match h[a]? with
    | none => .error .nilDeref
    | some nd => .ok (h.set a { nd with selectedChildIdx := (sliceLen nd.Children : Int) - 1 })

/-- Modelled from the spec: the common shape of `delete_marked()` and `rename_marked()`,
both absent from tree.go: run the primitive, refresh `marked.parent`, clear `marked`;
errors are propagated with the mark left set, as in `CopyMarkedToCurrentDir` of tree.go. -/
def consumeMarked (os : OS) (t : Tree) (prim : Node → Option GoError) :
    Except Fault (Tree × Option GoError) :=
  match t.Marked with
  | none => .ok (t, none)
  | some m =>
    match t.nodes[m]? with
    | none => .error .nilDeref
    | some mn =>
      match prim mn with
      | some e => .ok (t, some e)
      | none =>
        match ReadChildren os t.nodes mn.Parent with
        | .error f => .error f
        | .ok (h, some e) => .ok ({ t with nodes := h }, some e)
        | .ok (h, none) => .ok ({ t with nodes := h, Marked := none }, none)

/-- Modelled from the spec: `delete_marked()`, absent from tree.go: "no-op if `marked`
is none; otherwise invokes the external recursive-delete primitive on `marked.path`,
then refreshes `marked.parent`'s children and clears `marked`. Propagates `IOError`
on primitive failure". -/
def DeleteMarked (os : OS) (t : Tree) : Except Fault (Tree × Option GoError) :=
  consumeMarked os t (fun mn => os.Remove mn.Path)

/-- Modelled from the spec: `rename_marked(new_name)`, absent from tree.go: "no-op if
`marked` is none; otherwise invokes the external rename primitive (same directory, new
leaf name), then refreshes `marked.parent`'s children and clears `marked`. Propagates
`IOError` on failure". -/
def RenameMarked (os : OS) (t : Tree) (newName : String) : Except Fault (Tree × Option GoError) :=
  consumeMarked os t (fun mn => os.Rename mn.Path newName)

/-- Modelled from the spec: the common shape of `create_file_in_current` and
`create_dir_in_current`, both absent from tree.go: run the primitive under
`current_dir.path`, then refresh `current_dir`. -/
def createInCurrent (os : OS) (t : Tree) (prim : String → Option GoError) :
    Except Fault (Tree × Option GoError) :=
  match deref t.nodes t.CurrentDir with
  | .error f => .error f
  | .ok d =>
    match prim d.Path with
    | some e => .ok (t, some e)
    | none =>
      match ReadChildren os t.nodes t.CurrentDir with
      | .error f => .error f
      | .ok (h, e) => .ok ({ t with nodes := h }, e)

/-- Modelled from the spec: `create_file_in_current(name)`, absent from tree.go: "invokes
the external create primitive under `current_dir.path`, then refreshes `current_dir`.
Propagates `IOError` on failure". -/
def CreateFileInCurrent (os : OS) (t : Tree) (name : String) : Except Fault (Tree × Option GoError) :=
  createInCurrent os t (fun dir => os.CreateFile dir name)

/-- Modelled from the spec: `create_dir_in_current(name)`, absent from tree.go; see
`CreateFileInCurrent`. -/
def CreateDirectoryInCurrent (os : OS) (t : Tree) (name : String) :
    Except Fault (Tree × Option GoError) :=
  createInCurrent os t (fun dir => os.CreateDir dir name)

end InternalTree

/-! ## `internal/state/state.go` -/

/-- `type Operation int` (state.go 9-21). -/
inductive Operation where
  | Noop | Move | Copy | Delete | Go | Insert | InsertFile | InsertDir | Rename
deriving DecidableEq, Repr

/-- `func (o Operation) IsInput() bool` (state.go 36-43). -/
def Operation.IsInput (o : Operation) : Bool :=
  match o with
  | .InsertDir | .InsertFile | .Rename => true
  | _ => false

/-- A `tea.KeyMsg` as far as state.go looks at it: `str` is `msg.String()` and `Runes`
is `msg.Runes`.  For a key of runes, `msg.String()` is the text of the runes; the two
fields are kept independent here. -/
structure KeyMsg where
  str : String
  Runes : List Char
deriving DecidableEq, Repr

/-- The non-nil `tea.Cmd` values that `ProcessKey` returns. -/
inductive Cmd where
  | Quit
deriving DecidableEq, Repr

/-- `type State struct` (state.go 45-50); `watcher` records the paths passed to
`watcher.Add`, most recent first. -/
structure State where
  Tree : Bt.Tree
  OpBuf : Operation
  InputBuf : List Char
  watcher : List String
deriving DecidableEq, Repr

namespace State

/-- The `err != nil { panic(err) }` idiom of state.go: continue with `k` on success. -/
def orPanic (r : Except Fault (Bt.Tree × Option GoError))
    (k : Bt.Tree → Except Fault (State × Option Cmd)) : Except Fault (State × Option Cmd) :=
  match r with
  | .error f => .error f
  | .ok (_, some e) => .error (.panicErr e)
  | .ok (t, none) => k t

/-- The `if ok := s.Tree.MarkSelectedChild(); ok { ... }` idiom of state.go. -/
def markThen (s : State) (k : State → State) : Except Fault (State × Option Cmd) :=
  match InternalTree.MarkSelectedChild s.Tree with
  | .error f => .error f
  | .ok (t, true) => .ok (k { s with Tree := t }, none)
  | .ok (t, false) => .ok ({ s with Tree := t }, none)

/-- `func (s *State) processKeyDefault(msg tea.KeyMsg) tea.Cmd` (state.go 228-281). -/
def processKeyDefault (os : OS) (s : State) (msg : KeyMsg) : Except Fault (State × Option Cmd) :=
  if msg.str = "esc" then
    .ok ({ s with Tree := InternalTree.DropMark s.Tree, OpBuf := .Noop }, none)
  else if msg.str = "ctrl+c" ∨ msg.str = "q" then
    .ok (s, some .Quit)
  else if msg.str = "j" ∨ msg.str = "down" then
    match s.Tree.SelectNextChild with
    | .error f => .error f
    | .ok t => .ok ({ s with Tree := t }, none)
  else if msg.str = "k" ∨ msg.str = "up" then
    match s.Tree.SelectPreviousChild with
    | .error f => .error f
    | .ok t => .ok ({ s with Tree := t }, none)
  else if msg.str = "l" ∨ msg.str = "right" then
    match s.Tree.GetSelectedChild with
    | .error f => .error f
    | .ok none =>
      orPanic (s.Tree.SetSelectedChildAsCurrent os) (fun t => .ok ({ s with Tree := t }, none))
    | .ok (some sel) =>
      match s.Tree.nodes[sel]? with
      | none => .error .nilDeref
      | some seln =>
        orPanic (s.Tree.SetSelectedChildAsCurrent os)
          (fun t => .ok ({ s with Tree := t, watcher := seln.Path :: s.watcher }, none))
  else if msg.str = "h" ∨ msg.str = "left" then
    match s.Tree.SetParentAsCurrent with
    | .error f => .error f
    | .ok t => .ok ({ s with Tree := t }, none)
  else if msg.str = "y" then
    markThen s (fun s1 => { s1 with OpBuf := .Copy })
  else if msg.str = "d" then
    markThen s (fun s1 => { s1 with OpBuf := .Move })
  else if msg.str = "D" then
    markThen s (fun s1 => { s1 with OpBuf := .Delete })
  else if msg.str = "g" then
    .ok ({ s with OpBuf := .Go }, none)
  else if msg.str = "G" then
    match InternalTree.SelectLast s.Tree.nodes s.Tree.CurrentDir with
    | .error f => .error f
    | .ok h => .ok ({ s with Tree := { s.Tree with nodes := h } }, none)
  else if msg.str = "i" then
    .ok ({ s with Tree := InternalTree.DropMark s.Tree, OpBuf := .Insert }, none)
  else if msg.str = "r" then
    match InternalTree.MarkSelectedChild s.Tree with
    | .error f => .error f
    | .ok (t, false) => .ok ({ s with Tree := t }, none)
    | .ok (t, true) =>
      match deref t.nodes t.Marked with
      | .error f => .error f
      | .ok mn => .ok ({ s with Tree := t, InputBuf := mn.Info.name.toList, OpBuf := .Rename }, none)
  else if msg.str = "enter" then
    orPanic (s.Tree.CollapseOrExpandSelected os) (fun t => .ok ({ s with Tree := t }, none))
  else .ok (s, none)

/-- `func (s *State) processKeyAnyInput(msg tea.KeyMsg) tea.Cmd` (state.go 160-175). -/
def processKeyAnyInput (s : State) (msg : KeyMsg) : Except Fault (State × Option Cmd) :=
  if msg.str = "ctrl+c" ∨ msg.str = "esc" then
    .ok ({ s with OpBuf := .Noop, InputBuf := [], Tree := InternalTree.DropMark s.Tree }, none)
  else if msg.str = "backspace" then
    if s.InputBuf.length > 0 then
      .ok ({ s with InputBuf := s.InputBuf.take (s.InputBuf.length - 1) }, none)
    else .ok (s, none)
  else .ok ({ s with InputBuf := s.InputBuf ++ msg.Runes }, none)

/-- `func (s *State) processKeyRename(msg tea.KeyMsg) tea.Cmd` (state.go 106-119). -/
def processKeyRename (os : OS) (s : State) (msg : KeyMsg) : Except Fault (State × Option Cmd) :=
  if msg.str = "enter" then
    orPanic (InternalTree.RenameMarked os s.Tree (String.mk s.InputBuf))
      (fun t => .ok ({ s with Tree := t, OpBuf := .Noop, InputBuf := [] }, none))
  else processKeyAnyInput s msg

/-- `func (s *State) processKeyInsert(msg tea.KeyMsg) tea.Cmd` (state.go 120-131). -/
def processKeyInsert (os : OS) (s : State) (msg : KeyMsg) : Except Fault (State × Option Cmd) :=
  if msg.str = "f" then .ok ({ s with OpBuf := .InsertFile }, none)
  else if msg.str = "d" then .ok ({ s with OpBuf := .InsertDir }, none)
  else processKeyDefault os { s with OpBuf := .Noop } msg

/-- `func (s *State) processKeyInsertFile(msg tea.KeyMsg) tea.Cmd` (state.go 132-145). -/
def processKeyInsertFile (os : OS) (s : State) (msg : KeyMsg) : Except Fault (State × Option Cmd) :=
  if msg.str = "enter" then
    orPanic (InternalTree.CreateFileInCurrent os s.Tree (String.mk s.InputBuf))
      (fun t => .ok ({ s with Tree := t, OpBuf := .Noop, InputBuf := [] }, none))
  else processKeyAnyInput s msg

/-- `func (s *State) processKeyInsertDir(msg tea.KeyMsg) tea.Cmd` (state.go 146-159). -/
def processKeyInsertDir (os : OS) (s : State) (msg : KeyMsg) : Except Fault (State × Option Cmd) :=
  if msg.str = "enter" then
    orPanic (InternalTree.CreateDirectoryInCurrent os s.Tree (String.mk s.InputBuf))
      (fun t => .ok ({ s with Tree := t, OpBuf := .Noop, InputBuf := [] }, none))
  else processKeyAnyInput s msg

/-- `func (s *State) processKeyGo(msg tea.KeyMsg) tea.Cmd` (state.go 176-186). -/
def processKeyGo (os : OS) (s : State) (msg : KeyMsg) : Except Fault (State × Option Cmd) :=
  if msg.str = "g" then
    match InternalTree.SelectFirst s.Tree.nodes s.Tree.CurrentDir with
    | .error f => .error f
    | .ok h => .ok ({ s with OpBuf := .Noop, Tree := { s.Tree with nodes := h } }, none)
  else processKeyDefault os { s with OpBuf := .Noop } msg

/-- `func (s *State) processKeyDelete(msg tea.KeyMsg) tea.Cmd` (state.go 187-201). -/
def processKeyDelete (os : OS) (s : State) (msg : KeyMsg) : Except Fault (State × Option Cmd) :=
  if msg.str = "y" then
    orPanic (InternalTree.DeleteMarked os s.Tree)
      (fun t => .ok ({ s with Tree := t, OpBuf := .Noop }, none))
  else processKeyDefault os { s with OpBuf := .Noop, Tree := InternalTree.DropMark s.Tree } msg

/-- `func (s *State) processKeyMove(msg tea.KeyMsg) tea.Cmd` (state.go 202-214). -/
def processKeyMove (os : OS) (s : State) (msg : KeyMsg) : Except Fault (State × Option Cmd) :=
  if msg.str = "p" then
    orPanic (s.Tree.MoveMarkedToCurrentDir os)
      (fun t => .ok ({ s with Tree := t, OpBuf := .Noop }, none))
  else processKeyDefault os s msg

/-- `func (s *State) processKeyCopy(msg tea.KeyMsg) tea.Cmd` (state.go 215-227). -/
def processKeyCopy (os : OS) (s : State) (msg : KeyMsg) : Except Fault (State × Option Cmd) :=
  if msg.str = "p" then
    orPanic (s.Tree.CopyMarkedToCurrentDir os)
      (fun t => .ok ({ s with Tree := t, OpBuf := .Noop }, none))
  else processKeyDefault os s msg

/-- `func (s *State) ProcessKey(msg tea.KeyMsg) tea.Cmd` (state.go 82-105). -/
def ProcessKey (os : OS) (s : State) (msg : KeyMsg) : Except Fault (State × Option Cmd) :=
  match s.OpBuf with
  | .Noop => processKeyDefault os s msg
  | .Move => processKeyMove os s msg
  | .Delete => processKeyDelete os s msg
  | .Copy => processKeyCopy os s msg
  | .Go => processKeyGo os s msg
  | .Insert => processKeyInsert os s msg
  | .InsertFile => processKeyInsertFile os s msg
  | .InsertDir => processKeyInsertDir os s msg
  | .Rename => processKeyRename os s msg

end State

/-! ## Vocabulary of the statements -/

/-- One selection move: `SelectNextChild` or `SelectPreviousChild`. -/
inductive SelMove where
  | next
  | prev
deriving DecidableEq, Repr

/-- Run one selection move. -/
def applySel (m : SelMove) (t : Tree) : Except Fault Tree :=
  match m with
  | .next => t.SelectNextChild
  | .prev => t.SelectPreviousChild

/-- Run a sequence of selection moves, left to right. -/
def runSel : List SelMove → Tree → Except Fault Tree
  | [], t => .ok t
  | m :: ms, t =>
    match applySel m t with
    | .error f => .error f
    | .ok t1 => runSel ms t1

/-- The selected index `i` is in `[0, len-1]`. -/
def selInRange (d : Node) : Prop :=
  0 ≤ d.selectedChildIdx ∧ d.selectedChildIdx ≤ (sliceLen d.Children : Int) - 1

instance (d : Node) : Decidable (selInRange d) := by
  unfold selInRange; infer_instance

/-- A directory entry whose `Info()` succeeds with `i`. -/
def mkEntry (i : FileInfo) : DirEntry := ⟨.ok i⟩

/-- The cached name of the node at address `c`, if there is such a node. -/
def nameAt (h : Heap) (c : Nat) : Option String := (h[c]?).map (fun nd => nd.Info.name)

/-- The first of the addresses `old` whose node is named `name`. -/
def firstNamed (h : Heap) (old : List Nat) (name : String) : Option Nat :=
  old.find? (fun c => decide (nameAt h c = some name))

/-- Every address in `cs` refers to a node of the store. -/
def allValid (h : Heap) (cs : List Nat) : Prop := ∀ c ∈ cs, c < h.length

instance (h : Heap) (cs : List Nat) : Decidable (allValid h cs) := by
  unfold allValid; infer_instance

/-- A two-entry directory with the cursor on the last entry. -/
def exDirTree : Tree :=
  { nodes := [ { Path := "/r", Info := ⟨"r", true, 0, 0, 0⟩, Children := some [1, 2],
                 Parent := none, selectedChildIdx := 1 },
               { Path := "/r/a", Info := ⟨"a", false, 0, 0, 0⟩, Children := none,
                 Parent := some 0, selectedChildIdx := 0 },
               { Path := "/r/b", Info := ⟨"b", true, 0, 0, 0⟩, Children := none,
                 Parent := some 0, selectedChildIdx := 0 } ],
    Root := some 0, CurrentDir := some 0, Marked := none }

/-- An operating system whose every listing is `ls` and whose commands all end with `run`. -/
def exOS (ls : Except GoError (List DirEntry)) (run : Option GoError) : OS :=
  { Lstat := fun _ => .error ⟨"lstat"⟩
    ReadDir := fun _ => ls
    Run := fun _ _ => run
    Remove := fun _ => run
    Rename := fun _ _ => run
    CreateFile := fun _ _ => run
    CreateDir := fun _ _ => run }

/-- A listing in which `a` has vanished, `b` is still there and `c` is new. -/
def exListing : List FileInfo :=
  [⟨"b", true, 7, 0, 0⟩, ⟨"c", false, 0, 0, 0⟩]

/-- A listing whose third entry cannot be inspected. -/
def exFailEntries : List DirEntry :=
  exListing.map mkEntry ++ [⟨.error ⟨"EIO"⟩⟩]

/-- The listing that `exDirTree` was read from. -/
def exSameListing : List FileInfo :=
  [⟨"a", false, 0, 0, 0⟩, ⟨"b", true, 0, 0, 0⟩]

/-- The root node of `exDirTree`. -/
def exRoot : Node :=
  { Path := "/r", Info := ⟨"r", true, 0, 0, 0⟩, Children := some [1, 2],
    Parent := none, selectedChildIdx := 1 }

/-- The directory `b` of `exDirTree`. -/
def exB : Node :=
  { Path := "/r/b", Info := ⟨"b", true, 0, 0, 0⟩, Children := none,
    Parent := some 0, selectedChildIdx := 0 }

/-- The tree `exDirTree` after descending into `b`, whose listing is `exListing`. -/
def exDescended : Tree :=
  { nodes := [ exRoot,
               { Path := "/r/a", Info := ⟨"a", false, 0, 0, 0⟩, Children := none,
                 Parent := some 0, selectedChildIdx := 0 },
               { exB with Children := some [3, 4] },
               { Path := "/r/b/b", Info := ⟨"b", true, 7, 0, 0⟩, Children := none,
                 Parent := some 2, selectedChildIdx := 0 },
               { Path := "/r/b/c", Info := ⟨"c", false, 0, 0, 0⟩, Children := none,
                 Parent := some 2, selectedChildIdx := 0 } ],
    Root := some 0, CurrentDir := some 2, Marked := none }

/-- A tree whose current directory `b` is read and empty. -/
def exEmptyTree : Tree :=
  { nodes := [ { exRoot with Children := some [1], selectedChildIdx := 0 },
               { exB with Children := some [] } ],
    Root := some 0, CurrentDir := some 1, Marked := none }

/-- The resting state of the key machine over `exEmptyTree`. -/
def exEmptyState : State :=
  { Tree := exEmptyTree, OpBuf := .Noop, InputBuf := [], watcher := [] }

/-- The tree `exDirTree` with the file `a` marked and `b` (read, empty) as current directory. -/
def exMarkedTree : Tree :=
  { nodes := [ exRoot,
               { Path := "/r/a", Info := ⟨"a", false, 0, 0, 0⟩, Children := none,
                 Parent := some 0, selectedChildIdx := 0 },
               { exB with Children := some [] } ],
    Root := some 0, CurrentDir := some 2, Marked := some 1 }

/-- An operating system in which `/r` is a directory listing `a` and `b`. -/
def exInitOS : OS :=
  { exOS (.ok (exSameListing.map mkEntry)) none with
    Lstat := fun _ => .ok ⟨"r", true, 0, 0, 0⟩ }

/-- The tree that `InitTree` builds against `exInitOS`: `exDirTree` with the cursor on
the first entry. -/
def exInitTree : Tree :=
  { exDirTree with nodes := exDirTree.nodes.set 0 { exRoot with selectedChildIdx := 0 } }

/-- The selected index is a resting value for the children list: within its bounds, or 0
when the list is empty. -/
def selOk (d : Node) : Prop :=
  0 ≤ d.selectedChildIdx ∧ (d.selectedChildIdx < (sliceLen d.Children : Int) ∨ d.selectedChildIdx = 0)

instance (d : Node) : Decidable (selOk d) := by
  unfold selOk; infer_instance

/-- One call of a `Tree` operation of tree.go, with the operating system it runs against. -/
inductive TreeOp where
  | selectNext
  | selectPrev
  | descend (os : OS)
  | ascend
  | mark
  | copy (os : OS)
  | move (os : OS)
  | toggle (os : OS)

/-- The tree left by a call that returned, whether its `error` result is nil or not. -/
def afterCall (r : Except Fault (Tree × Option GoError)) : Except Fault Tree :=
  match r with
  | .error f => .error f
  | .ok (t, _) => .ok t

/-- Run one `Tree` operation. -/
def applyOp (op : TreeOp) (t : Tree) : Except Fault Tree :=
  match op with
  | .selectNext => t.SelectNextChild
  | .selectPrev => t.SelectPreviousChild
  | .descend os => afterCall (t.SetSelectedChildAsCurrent os)
  | .ascend => t.SetParentAsCurrent
  | .mark => t.MarkSelectedChild
  | .copy os => afterCall (t.CopyMarkedToCurrentDir os)
  | .move os => afterCall (t.MoveMarkedToCurrentDir os)
  | .toggle os => afterCall (t.CollapseOrExpandSelected os)

/-- The trees reachable from a successful `InitTree` by `Tree` operations that return
(with or without an error), under arbitrary behaviour of the operating system. -/
inductive Reachable : Tree → Prop where
  | init (os : OS) (dir : String) (t : Tree) : InitTree os dir = .ok (t, none) → Reachable t
  | step (t t1 : Tree) (op : TreeOp) : Reachable t → applyOp op t = .ok t1 → Reachable t1

/-- `Anc h x b`: following `Parent` pointers from `b` zero or more times leads to `x`. -/
inductive Anc (h : Heap) (x : Nat) : Nat → Prop where
  | self : Anc h x x
  | up (b p : Nat) (nd : Node) : h[b]? = some nd → nd.Parent = some p → Anc h x p → Anc h x b

/-- Structural invariant of the store: the children of a node are existing nodes at larger
addresses that point back at it, and a parent lives at a smaller address than its child. -/
def HInv (h : Heap) : Prop :=
  ∀ (p : Nat) (nd : Node), h[p]? = some nd →
    (∀ c ∈ sliceElems nd.Children, p < c ∧ ∃ cn, h[c]? = some cn ∧ cn.Parent = some p) ∧
    (∀ q, nd.Parent = some q → q < p)

/-- Invariant of the path to the root: `b` and all its ancestors are directories whose
children are read. -/
def PInv (h : Heap) (b : Nat) : Prop :=
  ∀ x, Anc h x b → ∃ nd, h[x]? = some nd ∧ nd.Info.isDir = true ∧ nd.Children ≠ none

/-- The invariant of reachable trees. -/
def TreeInv (t : Tree) : Prop :=
  HInv t.nodes ∧ ∃ a, t.CurrentDir = some a ∧ PInv t.nodes a

/-- An operating system in which every call fails. -/
def exFailOS : OS := exOS (.error ⟨"permission denied"⟩) (some ⟨"exit status 1"⟩)

/-- The key machine waiting for the confirmation of a delete of `a`, over `exDirTree` with
the cursor on the first entry. -/
def exDeleteState : State :=
  { Tree := { exInitTree with Marked := some 1 }, OpBuf := .Delete, InputBuf := [],
    watcher := [] }

/-- The resting state of the key machine over `exDirTree` (cursor on `b`), with a stale
input buffer. -/
def exNoopState : State :=
  { Tree := exDirTree, OpBuf := .Noop, InputBuf := ['x'], watcher := [] }

/-- The key machine with the file `a` marked for copying, over `exDirTree` with the cursor
on the first entry. -/
def exCopyState : State :=
  { Tree := { exInitTree with Marked := some 1 }, OpBuf := .Copy, InputBuf := [],
    watcher := [] }

/-- The initial state of the key machine over the tree built by `InitTree`: `Noop`, no
mark, empty input buffer. -/
def exInitState : State :=
  { Tree := exInitTree, OpBuf := .Noop, InputBuf := [], watcher := [] }

/-- The keys that `processKeyDefault` lists (state.go 229-279). -/
def defaultKeys : List String :=
  ["esc", "ctrl+c", "q", "j", "down", "k", "up", "l", "right", "h", "left", "y", "d", "D",
   "g", "G", "i", "r", "enter"]

/-- The named keys that the input states handle before appending runes (state.go 108,
134, 148, 163, 167). -/
def inputControlKeys : List String := ["enter", "ctrl+c", "esc", "backspace"]

/-- Feed a sequence of key presses to the machine, each against its own operating system
snapshot; a returned `tea.Quit` is left to the caller. -/
def runKeys : List (OS × KeyMsg) → State → Except Fault State
  | [], s => .ok s
  | (os, msg) :: rest, s =>
    match State.ProcessKey os s msg with
    | .error f => .error f
    | .ok (s1, _) => runKeys rest s1

/-- The key machine entering a file name, `ab` typed so far, over `exDirTree`. -/
def exInsertState : State :=
  { Tree := exDirTree, OpBuf := .InsertFile, InputBuf := ['a', 'b'], watcher := [] }

/-- A listing of `/r` in which `a` has become a directory and `b` has grown. -/
def exChangedListing : List FileInfo :=
  [⟨"a", true, 4096, 1, 5⟩, ⟨"b", true, 7, 0, 9⟩]

/-- An operating system after a successful `mv`, in which `/r/b` lists the moved `a` and
`/r` lists only an entry `c`: `b` itself is no longer listed. -/
def exLostOS : OS :=
  { exOS (.ok []) none with
    ReadDir := fun p =>
      if p = "/r/b" then .ok [mkEntry ⟨"a", false, 0, 0, 0⟩]
      else .ok [mkEntry ⟨"c", false, 0, 0, 0⟩] }

/-- The tree after marking `a`, descending into `b`, moving `a` there against `exLostOS`
and ascending again: the root's selected index is -1. -/
def exLostTree : Tree :=
  { nodes := [ { exRoot with Children := some [4], selectedChildIdx := -1 },
               { Path := "/r/a", Info := ⟨"a", false, 0, 0, 0⟩, Children := none,
                 Parent := some 0, selectedChildIdx := 0 },
               { exB with Children := some [3] },
               { Path := "/r/b/a", Info := ⟨"a", false, 0, 0, 0⟩, Children := none,
                 Parent := some 2, selectedChildIdx := 0 },
               { Path := "/r/c", Info := ⟨"c", false, 0, 0, 0⟩, Children := none,
                 Parent := some 0, selectedChildIdx := 0 } ],
    Root := some 0, CurrentDir := some 0, Marked := none }

/-- Run a sequence of `Tree` operations, left to right. -/
def runOps : List TreeOp → Tree → Except Fault Tree
  | [], t => .ok t
  | op :: ops, t =>
    match applyOp op t with
    | .error f => .error f
    | .ok t1 => runOps ops t1

/-- The states of the key machine reachable from an initial state (`Noop`, empty input
buffer, any tree) by key presses that `ProcessKey` handles without a panic, under arbitrary
behaviour of the operating system. -/
inductive KeyReachable : State → Prop where
  | init (s : State) : s.OpBuf = .Noop → s.InputBuf = [] → KeyReachable s
  | step (s s1 : State) (os : OS) (msg : KeyMsg) (c : Option Cmd) :
      KeyReachable s → State.ProcessKey os s msg = .ok (s1, c) → KeyReachable s1

/-- Feed key presses that all run against the same operating system. -/
def typeKeys (os : OS) (keys : List KeyMsg) (s : State) : Except Fault State :=
  runKeys (keys.map (fun k => (os, k))) s

/-- The input buffer is empty unless the pending operation is an input operation. -/
def BufInv (s : State) : Prop := s.OpBuf.IsInput = false → s.InputBuf = []

/-- The key machine after `i` in the initial state over `exDirTree`. -/
def exInsertMenuState : State :=
  { Tree := exInitTree, OpBuf := .Insert, InputBuf := [], watcher := [] }

/-! ## Theorems -/

theorem set_same {α : Type} (l : List α) (a : Nat) (x : α) (h : l[a]? = some x) :
    l.set a x = l := by
  apply List.ext_getElem?
  intro i
  rw [List.getElem?_set]
  split
  · subst_vars
    split
    · exact h.symm
    · rename_i hlt
      exact (List.getElem?_eq_none (Nat.le_of_not_lt hlt)).symm
  · rfl

theorem lt_of_getElem?_some {α : Type} {l : List α} {a : Nat} {x : α} (h : l[a]? = some x) :
    a < l.length := by
  rcases List.getElem?_eq_some.mp h with ⟨hlt, _⟩
  exact hlt

theorem selectNext_eq (t : Tree) (a : Nat) (d : Node)
    (hcur : t.CurrentDir = some a) (hd : t.nodes[a]? = some d) :
    t.SelectNextChild = .ok { t with nodes := t.nodes.set a { d with selectedChildIdx :=
        if d.selectedChildIdx < (sliceLen d.Children : Int) - 1 then d.selectedChildIdx + 1
        else d.selectedChildIdx } } := by
  obtain ⟨nodes, root, cur, marked⟩ := t
  simp only at hcur hd
  subst hcur
  unfold Tree.SelectNextChild
  simp only [hd]
  split
  · rfl
  · rw [set_same _ _ _ hd]

theorem selectPrev_eq (t : Tree) (a : Nat) (d : Node)
    (hcur : t.CurrentDir = some a) (hd : t.nodes[a]? = some d) :
    t.SelectPreviousChild = .ok { t with nodes := t.nodes.set a { d with selectedChildIdx :=
        if d.selectedChildIdx > 0 then d.selectedChildIdx - 1 else d.selectedChildIdx } } := by
  obtain ⟨nodes, root, cur, marked⟩ := t
  simp only at hcur hd
  subst hcur
  unfold Tree.SelectPreviousChild
  simp only [hd]
  split
  · rfl
  · rw [set_same _ _ _ hd]

theorem runSel_inRange (ms : List SelMove) : ∀ (t : Tree) (a : Nat) (d : Node),
    t.CurrentDir = some a → t.nodes[a]? = some d → selInRange d →
    ∃ t1 d1, runSel ms t = .ok t1 ∧ t1.CurrentDir = some a ∧ t1.Root = t.Root ∧
      t1.Marked = t.Marked ∧ t1.nodes[a]? = some d1 ∧
      d1.Children = d.Children ∧ selInRange d1 := by
  induction ms with
  | nil =>
    intro t a d hcur hd hr
    exact ⟨t, d, rfl, hcur, rfl, rfl, hd, rfl, hr⟩
  | cons m ms ih =>
    intro t a d hcur hd hr
    have hlt := lt_of_getElem?_some hd
    cases m with
    | next =>
      simp only [runSel, applySel, selectNext_eq t a d hcur hd]
      obtain ⟨t1, d1, h1, h2, h3, h4, h5, h6, h7⟩ := ih
        { t with nodes := t.nodes.set a { d with selectedChildIdx :=
            if d.selectedChildIdx < (sliceLen d.Children : Int) - 1 then d.selectedChildIdx + 1
            else d.selectedChildIdx } } a _ hcur (List.getElem?_set_self hlt)
        (by
          unfold selInRange at hr ⊢
          simp only
          split <;> omega)
      exact ⟨t1, d1, h1, h2, h3, h4, h5, h6, h7⟩
    | prev =>
      simp only [runSel, applySel, selectPrev_eq t a d hcur hd]
      obtain ⟨t1, d1, h1, h2, h3, h4, h5, h6, h7⟩ := ih
        { t with nodes := t.nodes.set a { d with selectedChildIdx :=
            if d.selectedChildIdx > 0 then d.selectedChildIdx - 1 else d.selectedChildIdx } }
        a _ hcur (List.getElem?_set_self hlt)
        (by
          unfold selInRange at hr ⊢
          simp only
          split <;> omega)
      exact ⟨t1, d1, h1, h2, h3, h4, h5, h6, h7⟩

/-- C1: with a selected index in `[0, len-1]` (so the children list is non-empty), every finite
sequence of `SelectNextChild` / `SelectPreviousChild` calls returns and keeps the selected
index of the (unchanged) current directory in `[0, len-1]`; a single `SelectNextChild`
leaves the index unchanged at `len-1` and adds one otherwise, a single
`SelectPreviousChild` leaves it unchanged at `0` and subtracts one otherwise, and neither
touches anything else. -/
theorem C1_selection_saturates (t : Tree) (a : Nat) (d : Node)
    (hcur : t.CurrentDir = some a) (hd : t.nodes[a]? = some d) (hr : selInRange d) :
    (∀ ms : List SelMove, ∃ t1 d1, runSel ms t = .ok t1 ∧ t1.CurrentDir = some a ∧
        t1.nodes[a]? = some d1 ∧ d1.Children = d.Children ∧
        0 ≤ d1.selectedChildIdx ∧ d1.selectedChildIdx ≤ (sliceLen d1.Children : Int) - 1) ∧
    t.SelectNextChild = .ok { t with nodes := t.nodes.set a { d with selectedChildIdx :=
        if d.selectedChildIdx = (sliceLen d.Children : Int) - 1 then d.selectedChildIdx
        else d.selectedChildIdx + 1 } } ∧
    t.SelectPreviousChild = .ok { t with nodes := t.nodes.set a { d with selectedChildIdx :=
        if d.selectedChildIdx = 0 then d.selectedChildIdx else d.selectedChildIdx - 1 } } := by
  refine ⟨?_, ?_, ?_⟩
  · intro ms
    obtain ⟨t1, d1, h1, h2, _, _, h5, h6, h7⟩ := runSel_inRange ms t a d hcur hd hr
    exact ⟨t1, d1, h1, h2, h5, h6, h7.1, h7.2⟩
  · rw [selectNext_eq t a d hcur hd]
    have : (if d.selectedChildIdx < (sliceLen d.Children : Int) - 1 then d.selectedChildIdx + 1
        else d.selectedChildIdx) = (if d.selectedChildIdx = (sliceLen d.Children : Int) - 1
        then d.selectedChildIdx else d.selectedChildIdx + 1) := by
      unfold selInRange at hr
      split <;> split <;> omega
    rw [this]
  · rw [selectPrev_eq t a d hcur hd]
    have : (if d.selectedChildIdx > 0 then d.selectedChildIdx - 1 else d.selectedChildIdx) =
        (if d.selectedChildIdx = 0 then d.selectedChildIdx else d.selectedChildIdx - 1) := by
      unfold selInRange at hr
      split <;> split <;> omega
    rw [this]

theorem C1_selection_saturates_witness :
    exDirTree.SelectNextChild = .ok exDirTree ∧
    (∃ t1, exDirTree.SelectPreviousChild = .ok t1 ∧
      (t1.nodes[0]?).map (fun d => d.selectedChildIdx) = some 0) := by
  have h := C1_selection_saturates exDirTree 0
    { Path := "/r", Info := ⟨"r", true, 0, 0, 0⟩, Children := some [1, 2],
      Parent := none, selectedChildIdx := 1 } rfl rfl (by decide)
  refine ⟨?_, ?_⟩
  · rw [h.2.1]; decide
  · exact ⟨_, h.2.2, by decide⟩

/-! ### `ReadChildren` -/

theorem filepathJoin_cleans :
    filepathJoin "." "a" = "a" ∧ filepathJoin "/" "a" = "/a" ∧
    filepathJoin "/tmp/r/" "a" = "/tmp/r/a" ∧ filepathJoin "/r/b" "b" = "/r/b/b" ∧
    filepathJoin "" "a" = "a" ∧ filepathJoin "r" ".." = "." ∧
    filepathJoin "../x" "../a" = "../a" ∧ filepathJoin "/" ".." = "/" := by
  decide

theorem nameAt_append (h ext : Heap) (c : Nat) (hc : c < h.length) :
    nameAt (h ++ ext) c = nameAt h c := by
  unfold nameAt
  rw [List.getElem?_append_left hc]

theorem firstNamed_append (h ext : Heap) (name : String) (cs : List Nat)
    (hv : allValid h cs) : firstNamed (h ++ ext) cs name = firstNamed h cs name := by
  induction cs with
  | nil => rfl
  | cons c rest ih =>
    have hc : c < h.length := hv c (List.mem_cons_self _ _)
    have hrest : allValid h rest := fun x hx => hv x (List.mem_cons_of_mem _ hx)
    unfold firstNamed at ih ⊢
    simp only [List.find?_cons, nameAt_append h ext c hc, ih hrest]

theorem findChild_eq (h : Heap) (name : String) : ∀ cs : List Nat, allValid h cs →
    findChild h name cs = .ok (firstNamed h cs name) := by
  intro cs
  induction cs with
  | nil => intro _; rfl
  | cons c rest ih =>
    intro hv
    have hc : c < h.length := hv c (List.mem_cons_self _ _)
    have hrest : allValid h rest := fun x hx => hv x (List.mem_cons_of_mem _ hx)
    have hnd : h[c]? = some h[c] := List.getElem?_eq_getElem hc
    unfold findChild
    simp only [hnd]
    by_cases hname : h[c].Info.name = name
    · simp [firstNamed, nameAt, hnd, hname]
    · rw [if_neg hname, ih hrest]
      simp [firstNamed, nameAt, hnd, hname]

theorem lookupChild_eq (h : Heap) (old : Option (List Nat)) (name : String)
    (hv : allValid h (sliceElems old)) :
    lookupChild h old name = .ok (firstNamed h (sliceElems old) name) := by
  cases old with
  | none => rfl
  | some cs => exact findChild_eq h name cs hv

theorem allValid_append (h ext : Heap) (cs : List Nat) (hv : allValid h cs) :
    allValid (h ++ ext) cs := by
  intro c hc
  have h1 : c < h.length := hv c hc
  have h2 : (h ++ ext).length = h.length + ext.length := List.length_append h ext
  omega

theorem readLoop_cons_found (n : Nat) (path : String) (old : Option (List Nat)) (h : Heap)
    (info : FileInfo) (rest : List DirEntry) (acc : List Nat) (e : Nat)
    (hv : allValid h (sliceElems old))
    (hf : firstNamed h (sliceElems old) info.name = some e) :
    readLoop n path old h (mkEntry info :: rest) acc = readLoop n path old h rest (acc ++ [e]) := by
  rw [readLoop]
  simp only [mkEntry, lookupChild_eq h old info.name hv, hf]

theorem readLoop_cons_fresh (n : Nat) (path : String) (old : Option (List Nat)) (h : Heap)
    (info : FileInfo) (rest : List DirEntry) (acc : List Nat)
    (hv : allValid h (sliceElems old))
    (hf : firstNamed h (sliceElems old) info.name = none) :
    readLoop n path old h (mkEntry info :: rest) acc =
      readLoop n path old (h ++ [freshNode n path info]) rest (acc ++ [h.length]) := by
  rw [readLoop]
  simp only [mkEntry, lookupChild_eq h old info.name hv, hf]

theorem readLoop_ok (n : Nat) (path : String) (old : Option (List Nat)) :
    ∀ (L : List FileInfo) (h : Heap) (acc : List Nat), allValid h (sliceElems old) →
    ∃ ext cs, readLoop n path old h (L.map mkEntry) acc = .ok (h ++ ext, .ok (acc ++ cs)) ∧
      cs.length = L.length ∧
      ∀ (i : Nat) (info : FileInfo), L[i]? = some info →
        (∀ e, firstNamed h (sliceElems old) info.name = some e → cs[i]? = some e) ∧
        (firstNamed h (sliceElems old) info.name = none →
          ∃ c, cs[i]? = some c ∧ h.length ≤ c ∧
            (h ++ ext)[c]? = some (freshNode n path info)) := by
  intro L
  induction L with
  | nil =>
    intro h acc _
    refine ⟨[], [], ?_, rfl, ?_⟩
    · simp [readLoop]
    · intro i info hi
      simp at hi
  | cons info L ih =>
    intro h acc hv
    rw [List.map_cons]
    cases hf : firstNamed h (sliceElems old) info.name with
    | some e =>
      obtain ⟨ext, cs, hrun, hlen, hidx⟩ := ih h (acc ++ [e]) hv
      refine ⟨ext, e :: cs, ?_, ?_, ?_⟩
      · rw [readLoop_cons_found n path old h info _ acc e hv hf, hrun]
        simp
      · simp [hlen]
      · intro i info1 hi
        cases i with
        | zero =>
          simp only [List.getElem?_cons_zero, Option.some.injEq] at hi
          subst hi
          refine ⟨?_, ?_⟩
          · intro e1 he1
            rw [hf] at he1
            simpa using he1
          · intro hnone
            rw [hf] at hnone
            cases hnone
        | succ j =>
          simp only [List.getElem?_cons_succ] at hi ⊢
          exact hidx j info1 hi
    | none =>
      have hv1 : allValid (h ++ [freshNode n path info]) (sliceElems old) :=
        allValid_append h _ _ hv
      obtain ⟨ext, cs, hrun, hlen, hidx⟩ :=
        ih (h ++ [freshNode n path info]) (acc ++ [h.length]) hv1
      refine ⟨freshNode n path info :: ext, h.length :: cs, ?_, ?_, ?_⟩
      · rw [readLoop_cons_fresh n path old h info _ acc hv hf, hrun]
        simp
      · simp [hlen]
      · intro i info1 hi
        cases i with
        | zero =>
          simp only [List.getElem?_cons_zero, Option.some.injEq] at hi
          subst hi
          refine ⟨?_, ?_⟩
          · intro e1 he1
            rw [hf] at he1
            cases he1
          · intro _
            refine ⟨h.length, by simp, Nat.le_refl _, ?_⟩
            rw [List.getElem?_append_right (Nat.le_refl _)]
            simp
        | succ j =>
          simp only [List.getElem?_cons_succ] at hi ⊢
          obtain ⟨h1, h2⟩ := hidx j info1 hi
          rw [firstNamed_append h _ info1.name _ hv] at h1 h2
          refine ⟨h1, ?_⟩
          intro hnone
          obtain ⟨c, hc1, hc2, hc3⟩ := h2 hnone
          refine ⟨c, hc1, ?_, ?_⟩
          · simp only [List.length_append, List.length_singleton] at hc2
            omega
          · rw [← hc3]
            simp

theorem ReadChildren_ok (os : OS) (h : Heap) (a : Nat) (nd : Node) (L : List FileInfo)
    (hnd : h[a]? = some nd) (hdir : nd.Info.isDir = true)
    (hls : os.ReadDir nd.Path = .ok (L.map mkEntry))
    (hv : allValid h (sliceElems nd.Children)) :
    ∃ ext cs, ReadChildren os h (some a) =
        .ok ((h ++ ext).set a { nd with
                Children := some cs
                selectedChildIdx := max (min nd.selectedChildIdx ((L.length : Int) - 1)) 0 },
             none) ∧
      cs.length = L.length ∧
      ∀ (i : Nat) (info : FileInfo), L[i]? = some info →
        (∀ e, firstNamed h (sliceElems nd.Children) info.name = some e → cs[i]? = some e) ∧
        (firstNamed h (sliceElems nd.Children) info.name = none →
          ∃ c, cs[i]? = some c ∧ h.length ≤ c ∧
            (h ++ ext)[c]? = some (freshNode a nd.Path info)) := by
  obtain ⟨ext, cs, hrun, hlen, hidx⟩ := readLoop_ok a nd.Path nd.Children L h [] hv
  refine ⟨ext, cs, ?_, hlen, hidx⟩
  unfold ReadChildren
  simp only [hnd, hdir, hls, hrun, List.nil_append, hlen]
  rfl

/-- C2: `ReadChildren` on a directory node with a successful listing `L` returns success;
afterwards the node has one child per entry of `L`, in listing order: the first former
child with the entry's name, itself unchanged, when there is one, and otherwise a node
that did not exist before, with `Children` nil, selected index 0, `Parent` the node and
`Path = filepath.Join(n.Path, name)`.  Former children whose name is not listed are not
among the new children, and no other existing node is modified. -/
theorem C2_ReadChildren_reconciles (os : OS) (h : Heap) (a : Nat) (nd : Node)
    (L : List FileInfo)
    (hnd : h[a]? = some nd) (hdir : nd.Info.isDir = true)
    (hls : os.ReadDir nd.Path = .ok (L.map mkEntry))
    (hv : allValid h (sliceElems nd.Children)) (hself : a ∉ sliceElems nd.Children) :
    ∃ h1 nd1 cs, ReadChildren os h (some a) = .ok (h1, none) ∧
      h1[a]? = some nd1 ∧ nd1.Children = some cs ∧ cs.length = L.length ∧
      nd1.Path = nd.Path ∧ nd1.Info = nd.Info ∧ nd1.Parent = nd.Parent ∧
      (∀ (i : Nat) (info : FileInfo), L[i]? = some info →
        (∀ e, firstNamed h (sliceElems nd.Children) info.name = some e →
          cs[i]? = some e ∧ h1[e]? = h[e]?) ∧
        (firstNamed h (sliceElems nd.Children) info.name = none →
          ∃ c, cs[i]? = some c ∧ h.length ≤ c ∧
            h1[c]? = some { Path := filepathJoin nd.Path info.name, Info := info,
                            Children := none, Parent := some a, selectedChildIdx := 0 })) ∧
      (∀ e ∈ sliceElems nd.Children, nameAt h e ∉ L.map (fun i => some i.name) → e ∉ cs) ∧
      (∀ p, p < h.length → p ≠ a → h1[p]? = h[p]?) := by
  obtain ⟨ext, cs, hrun, hlen, hidx⟩ := ReadChildren_ok os h a nd L hnd hdir hls hv
  have ha : a < h.length := lt_of_getElem?_some hnd
  have ha1 : a < (h ++ ext).length := by
    rw [List.length_append]; omega
  have hframe : ∀ p, p < h.length → p ≠ a →
      ((h ++ ext).set a { nd with
          Children := some cs
          selectedChildIdx := max (min nd.selectedChildIdx ((L.length : Int) - 1)) 0 })[p]? =
        h[p]? := by
    intro p hp hpa
    rw [List.getElem?_set_ne (Ne.symm hpa), List.getElem?_append_left hp]
  refine ⟨_, _, cs, hrun, List.getElem?_set_self ha1, rfl, hlen, rfl, rfl, rfl, ?_, ?_, hframe⟩
  · intro i info hi
    obtain ⟨h1, h2⟩ := hidx i info hi
    refine ⟨?_, ?_⟩
    · intro e he
      refine ⟨h1 e he, ?_⟩
      have hmem : e ∈ sliceElems nd.Children := List.mem_of_find?_eq_some he
      exact hframe e (hv e hmem) (fun hea => hself (hea ▸ hmem))
    · intro hnone
      obtain ⟨c, hc1, hc2, hc3⟩ := h2 hnone
      refine ⟨c, hc1, hc2, ?_⟩
      rw [List.getElem?_set_ne (by omega), hc3]
      rfl
  · intro e hmem hname hecs
    obtain ⟨i, hilt, hie⟩ := List.getElem_of_mem hecs
    have hiL : i < L.length := hlen ▸ hilt
    have hLi : L[i]? = some L[i] := List.getElem?_eq_getElem hiL
    have hcsi : cs[i]? = some e := by
      rw [List.getElem?_eq_getElem hilt, hie]
    obtain ⟨h1, h2⟩ := hidx i L[i] hLi
    cases hf : firstNamed h (sliceElems nd.Children) L[i].name with
    | some e1 =>
      have := h1 e1 hf
      rw [hcsi] at this
      simp only [Option.some.injEq] at this
      subst this
      have hp := List.find?_some hf
      simp only [decide_eq_true_eq] at hp
      apply hname
      rw [hp]
      exact List.mem_map.mpr ⟨L[i], List.getElem_mem _, rfl⟩
    | none =>
      obtain ⟨c, hc1, hc2, _⟩ := h2 hf
      rw [hcsi] at hc1
      simp only [Option.some.injEq] at hc1
      subst hc1
      have := hv e hmem
      omega

theorem C2_ReadChildren_reconciles_witness :
    (exDirTree.nodes[0]? = some exRoot ∧ exRoot.Info.isDir = true ∧
      allValid exDirTree.nodes (sliceElems exRoot.Children) ∧ 0 ∉ sliceElems exRoot.Children) ∧
    ∃ h1 nd1 cs, ReadChildren (exOS (.ok (exListing.map mkEntry)) none) exDirTree.nodes (some 0)
        = .ok (h1, none) ∧
      h1[0]? = some nd1 ∧ nd1.Children = some cs ∧ cs.length = exListing.length := by
  refine ⟨⟨rfl, rfl, by decide, by decide⟩, ?_⟩
  obtain ⟨h1, nd1, cs, p1, p2, p3, p4, _⟩ :=
    C2_ReadChildren_reconciles (exOS (.ok (exListing.map mkEntry)) none) exDirTree.nodes 0
      exRoot exListing rfl rfl rfl (by decide) (by decide)
  exact ⟨h1, nd1, cs, p1, p2, p3, p4⟩

theorem readLoop_found_all (n : Nat) (path : String) (old : Option (List Nat)) (h : Heap)
    (hv : allValid h (sliceElems old)) :
    ∀ (L : List FileInfo) (cs acc : List Nat), L.length = cs.length →
    (∀ (i : Nat) (info : FileInfo), L[i]? = some info →
      firstNamed h (sliceElems old) info.name = cs[i]?) →
    readLoop n path old h (L.map mkEntry) acc = .ok (h, .ok (acc ++ cs)) := by
  intro L
  induction L with
  | nil =>
    intro cs acc hlen _
    cases cs with
    | nil => simp [readLoop]
    | cons c cs => simp at hlen
  | cons info L ih =>
    intro cs acc hlen hidx
    cases cs with
    | nil => simp at hlen
    | cons c cs =>
      have h0 := hidx 0 info (by simp)
      simp only [List.getElem?_cons_zero] at h0
      rw [List.map_cons, readLoop_cons_found n path old h info _ acc c hv h0]
      rw [ih cs (acc ++ [c]) (by simpa using hlen) (fun i info1 hi => by
        have := hidx (i + 1) info1 (by simpa using hi)
        simpa using this)]
      simp

theorem firstNamed_nodup (H : Heap) : ∀ (cs : List Nat) (names : List String),
    cs.map (nameAt H) = names.map some → names.Nodup →
    ∀ (i : Nat) (nm : String), names[i]? = some nm → firstNamed H cs nm = cs[i]? := by
  intro cs
  induction cs with
  | nil =>
    intro names hmap _ i nm hi
    cases names with
    | nil => simp at hi
    | cons _ _ => simp at hmap
  | cons c cs ih =>
    intro names hmap hnd i nm hi
    cases names with
    | nil => simp at hmap
    | cons nm0 names =>
      simp only [List.map_cons, List.cons.injEq] at hmap
      obtain ⟨hc, hrest⟩ := hmap
      rw [List.nodup_cons] at hnd
      cases i with
      | zero =>
        simp only [List.getElem?_cons_zero, Option.some.injEq] at hi
        subst hi
        simp [firstNamed, hc]
      | succ j =>
        simp only [List.getElem?_cons_succ] at hi ⊢
        have hne : nm0 ≠ nm := by
          intro heq
          subst heq
          exact hnd.1 (List.getElem?_mem hi)
        have := ih names hrest hnd.2 j nm hi
        unfold firstNamed at this ⊢
        rw [List.find?_cons]
        simp only [hc, Option.some.injEq, hne, decide_False]
        exact this

theorem ReadChildren_same (os : OS) (h : Heap) (a : Nat) (nd : Node) (L : List FileInfo)
    (hnd : h[a]? = some nd) (hdir : nd.Info.isDir = true)
    (hls : os.ReadDir nd.Path = .ok (L.map mkEntry))
    (hnodup : (L.map (fun i => i.name)).Nodup)
    (hnames : (sliceElems nd.Children).map (nameAt h) = L.map (fun i => some i.name))
    (hsel : selOk nd) :
    ReadChildren os h (some a) =
      .ok (h.set a { nd with Children := some (sliceElems nd.Children) }, none) := by
  have hv : allValid h (sliceElems nd.Children) := by
    intro c hc
    have hmem : nameAt h c ∈ (sliceElems nd.Children).map (nameAt h) :=
      List.mem_map.mpr ⟨c, hc, rfl⟩
    rw [hnames] at hmem
    obtain ⟨info, _, hinfo⟩ := List.mem_map.mp hmem
    unfold nameAt at hinfo
    cases hh : h[c]? with
    | none => rw [hh] at hinfo; simp at hinfo
    | some x => exact lt_of_getElem?_some hh
  have hlen : L.length = (sliceElems nd.Children).length := by
    have := congrArg List.length hnames
    simpa using this.symm
  have hmap2 : (sliceElems nd.Children).map (nameAt h) = (L.map (fun i => i.name)).map some := by
    rw [hnames, List.map_map]; rfl
  have hrun := readLoop_found_all a nd.Path nd.Children h hv L (sliceElems nd.Children) [] hlen
    (by
      intro i info hi
      apply firstNamed_nodup h _ _ hmap2 hnodup i info.name
      rw [List.getElem?_map, hi]; rfl)
  unfold ReadChildren
  simp only [hnd, hdir, hls, hrun, List.nil_append]
  have hidx : max (min nd.selectedChildIdx (((sliceElems nd.Children).length : Int) - 1)) 0
      = nd.selectedChildIdx := by
    unfold selOk at hsel
    have : sliceLen nd.Children = (sliceElems nd.Children).length := by
      cases nd.Children <;> rfl
    rw [this] at hsel
    omega
  simp [hidx]

theorem nameAt_set_same_info (h : Heap) (a : Nat) (nd nd1 : Node) (hnd : h[a]? = some nd)
    (hinfo : nd1.Info = nd.Info) (c : Nat) : nameAt (h.set a nd1) c = nameAt h c := by
  unfold nameAt
  rw [List.getElem?_set]
  split
  · subst_vars
    rw [if_pos (lt_of_getElem?_some hnd), hnd]
    simp [hinfo]
  · rfl

/-- C3: for a listing with pairwise distinct names, a second `ReadChildren` with the same
listing returns success and leaves the whole store as the first one left it; and when the
children of the node already carry exactly the listed names in listing order and the
selected index is in bounds, `ReadChildren` keeps the same child addresses, the same
selected index and every other node as it was (only a nil children slice becomes the
empty one). -/
theorem C3_ReadChildren_idempotent (os : OS) (h : Heap) (a : Nat) (nd : Node)
    (L : List FileInfo)
    (hnd : h[a]? = some nd) (hdir : nd.Info.isDir = true)
    (hls : os.ReadDir nd.Path = .ok (L.map mkEntry))
    (hnodup : (L.map (fun i => i.name)).Nodup)
    (hv : allValid h (sliceElems nd.Children)) :
    (∃ h1, ReadChildren os h (some a) = .ok (h1, none) ∧
      ReadChildren os h1 (some a) = .ok (h1, none)) ∧
    ((sliceElems nd.Children).map (nameAt h) = L.map (fun i => some i.name) → selOk nd →
      ReadChildren os h (some a) =
        .ok (h.set a { nd with Children := some (sliceElems nd.Children) }, none)) := by
  refine ⟨?_, fun hnames hsel => ReadChildren_same os h a nd L hnd hdir hls hnodup hnames hsel⟩
  obtain ⟨ext, cs, hrun, hlen, hidx⟩ := ReadChildren_ok os h a nd L hnd hdir hls hv
  have ha : a < h.length := lt_of_getElem?_some hnd
  have ha1 : a < (h ++ ext).length := by
    rw [List.length_append]; omega
  have hnd0 : (h ++ ext)[a]? = some nd := by
    rw [List.getElem?_append_left ha]; exact hnd
  obtain ⟨nd1, hnd1⟩ : ∃ nd1 : Node, nd1 = { nd with
      Children := some cs
      selectedChildIdx := max (min nd.selectedChildIdx ((L.length : Int) - 1)) 0 } := ⟨_, rfl⟩
  rw [← hnd1] at hrun
  have hI : nd1.Info = nd.Info := by rw [hnd1]
  have hP : nd1.Path = nd.Path := by rw [hnd1]
  have hC : nd1.Children = some cs := by rw [hnd1]
  have hS : nd1.selectedChildIdx = max (min nd.selectedChildIdx ((L.length : Int) - 1)) 0 := by
    rw [hnd1]
  refine ⟨(h ++ ext).set a nd1, hrun, ?_⟩
  have hnames : ∀ (i : Nat) (info : FileInfo), L[i]? = some info →
      ∃ c, cs[i]? = some c ∧ nameAt (h ++ ext) c = some info.name := by
    intro i info hi
    obtain ⟨h1, h2⟩ := hidx i info hi
    cases hf : firstNamed h (sliceElems nd.Children) info.name with
    | some e =>
      refine ⟨e, h1 e hf, ?_⟩
      have hp := List.find?_some hf
      simp only [decide_eq_true_eq] at hp
      rw [nameAt_append h ext e (hv e (List.mem_of_find?_eq_some hf))]
      exact hp
    | none =>
      obtain ⟨c, hc1, _, hc3⟩ := h2 hf
      refine ⟨c, hc1, ?_⟩
      unfold nameAt
      rw [hc3]
      rfl
  have hmap : (sliceElems nd1.Children).map (nameAt ((h ++ ext).set a nd1))
      = L.map (fun i => some i.name) := by
    rw [hC]
    apply List.ext_getElem?
    intro i
    simp only [sliceElems]
    rw [List.getElem?_map, List.getElem?_map]
    cases hL : L[i]? with
    | none =>
      have : cs.length ≤ i := by
        rw [hlen]; exact List.getElem?_eq_none_iff.mp hL
      rw [List.getElem?_eq_none this]
      rfl
    | some info =>
      obtain ⟨c, hc1, hc2⟩ := hnames i info hL
      rw [hc1]
      simp only [Option.map_some']
      rw [nameAt_set_same_info (h ++ ext) a nd nd1 hnd0 hI c, hc2]
  have hsame := ReadChildren_same os ((h ++ ext).set a nd1) a nd1 L
    (List.getElem?_set_self ha1) (hI ▸ hdir) (hP ▸ hls) hnodup hmap
    (by
      unfold selOk
      rw [hS, hC]
      simp only [sliceLen, hlen]
      omega)
  rw [hsame, hC]
  simp only [sliceElems]
  have hback : ({ nd1 with Children := some cs } : Node) = nd1 := by
    rw [← hC]
  rw [hback, set_same]
  exact List.getElem?_set_self ha1

theorem C3_ReadChildren_idempotent_witness :
    (exDirTree.nodes[0]? = some exRoot ∧ exRoot.Info.isDir = true ∧
      (exSameListing.map (fun i => i.name)).Nodup ∧
      allValid exDirTree.nodes (sliceElems exRoot.Children)) ∧
    ReadChildren (exOS (.ok (exSameListing.map mkEntry)) none) exDirTree.nodes (some 0)
      = .ok (exDirTree.nodes, none) := by
  refine ⟨⟨rfl, rfl, by decide, by decide⟩, ?_⟩
  have h := (C3_ReadChildren_idempotent (exOS (.ok (exSameListing.map mkEntry)) none)
    exDirTree.nodes 0 exRoot exSameListing rfl rfl rfl (by decide) (by decide)).2
    (by decide) (by decide)
  rw [h]
  decide

/-- C4: `ReadChildren` on a directory node with selected index `i ≥ 0` and a successful
listing `L` leaves the selected index at `min(i, len(L)-1)` when `L` is non-empty and at 0
when it is empty; so the index is within the bounds of a non-empty children list, and it
keeps the value `i` whenever `i` is a valid index of the new children. -/
theorem C4_ReadChildren_clamps (os : OS) (h : Heap) (a : Nat) (nd : Node) (L : List FileInfo)
    (hnd : h[a]? = some nd) (hdir : nd.Info.isDir = true)
    (hls : os.ReadDir nd.Path = .ok (L.map mkEntry))
    (hv : allValid h (sliceElems nd.Children)) (hi : 0 ≤ nd.selectedChildIdx) :
    ∃ h1 nd1, ReadChildren os h (some a) = .ok (h1, none) ∧ h1[a]? = some nd1 ∧
      sliceLen nd1.Children = L.length ∧
      nd1.selectedChildIdx =
        (if L.length = 0 then 0 else min nd.selectedChildIdx ((L.length : Int) - 1)) ∧
      (0 < sliceLen nd1.Children →
        0 ≤ nd1.selectedChildIdx ∧ nd1.selectedChildIdx < (sliceLen nd1.Children : Int)) ∧
      (nd.selectedChildIdx < (L.length : Int) → nd1.selectedChildIdx = nd.selectedChildIdx) := by
  obtain ⟨ext, cs, hrun, hlen, _⟩ := ReadChildren_ok os h a nd L hnd hdir hls hv
  have ha : a < h.length := lt_of_getElem?_some hnd
  have ha1 : a < (h ++ ext).length := by
    rw [List.length_append]; omega
  refine ⟨_, _, hrun, List.getElem?_set_self ha1, ?_, ?_, ?_, ?_⟩
  · simp only [sliceLen, hlen]
  · simp only
    split <;> omega
  · simp only [sliceLen, hlen]
    intro hpos
    omega
  · simp only
    intro hlt
    omega

theorem C4_ReadChildren_clamps_witness :
    (exDirTree.nodes[0]? = some exRoot ∧ exRoot.Info.isDir = true ∧
      allValid exDirTree.nodes (sliceElems exRoot.Children) ∧ 0 ≤ exRoot.selectedChildIdx) ∧
    ∃ h1 nd1, ReadChildren (exOS (.ok ((exListing.take 1).map mkEntry)) none) exDirTree.nodes
        (some 0) = .ok (h1, none) ∧
      h1[0]? = some nd1 ∧ nd1.selectedChildIdx = 0 := by
  refine ⟨⟨rfl, rfl, by decide, by decide⟩, ?_⟩
  obtain ⟨h1, nd1, p1, p2, _, p4, _⟩ :=
    C4_ReadChildren_clamps (exOS (.ok ((exListing.take 1).map mkEntry)) none) exDirTree.nodes 0
      exRoot (exListing.take 1) rfl rfl rfl (by decide) (by decide)
  exact ⟨h1, nd1, p1, p2, by rw [p4]; decide⟩

theorem readLoop_fail (n : Nat) (path : String) (old : Option (List Nat)) (e : GoError)
    (post : List DirEntry) :
    ∀ (pre : List FileInfo) (h : Heap) (acc : List Nat), allValid h (sliceElems old) →
    ∃ ext, readLoop n path old h (pre.map mkEntry ++ ⟨.error e⟩ :: post) acc
      = .ok (h ++ ext, .error e) := by
  intro pre
  induction pre with
  | nil =>
    intro h acc _
    refine ⟨[], ?_⟩
    simp [readLoop]
  | cons info pre ih =>
    intro h acc hv
    rw [List.map_cons, List.cons_append]
    cases hf : firstNamed h (sliceElems old) info.name with
    | some c =>
      obtain ⟨ext, hrun⟩ := ih h (acc ++ [c]) hv
      exact ⟨ext, by rw [readLoop_cons_found n path old h info _ acc c hv hf, hrun]⟩
    | none =>
      obtain ⟨ext, hrun⟩ := ih (h ++ [freshNode n path info]) (acc ++ [h.length])
        (allValid_append h _ _ hv)
      refine ⟨freshNode n path info :: ext, ?_⟩
      rw [readLoop_cons_fresh n path old h info _ acc hv hf, hrun]
      simp

/-- C5: `ReadChildren` on a node that is not a directory returns success and changes
nothing; when listing the directory fails it returns that error and changes nothing; when
`Info()` of a listed entry fails after some entries succeeded it returns that error, and
the node (its children and selected index) and every other existing node are exactly as
before the call. -/
theorem C5_ReadChildren_atomic (os : OS) (h : Heap) (a : Nat) (nd : Node)
    (hnd : h[a]? = some nd) :
    (nd.Info.isDir = false → ReadChildren os h (some a) = .ok (h, none)) ∧
    (nd.Info.isDir = true → ∀ e, os.ReadDir nd.Path = .error e →
      ReadChildren os h (some a) = .ok (h, some e)) ∧
    (nd.Info.isDir = true → allValid h (sliceElems nd.Children) →
      ∀ (pre : List FileInfo) (e : GoError) (post : List DirEntry),
        os.ReadDir nd.Path = .ok (pre.map mkEntry ++ ⟨.error e⟩ :: post) →
        ∃ h1, ReadChildren os h (some a) = .ok (h1, some e) ∧ h1[a]? = some nd ∧
          ∀ p, p < h.length → h1[p]? = h[p]?) := by
  refine ⟨?_, ?_, ?_⟩
  · intro hdir
    unfold ReadChildren
    simp [hnd, hdir]
  · intro hdir e hls
    unfold ReadChildren
    simp [hnd, hdir, hls]
  · intro hdir hv pre e post hls
    obtain ⟨ext, hrun⟩ := readLoop_fail a nd.Path nd.Children e post pre h [] hv
    have ha : a < h.length := lt_of_getElem?_some hnd
    refine ⟨h ++ ext, ?_, ?_, ?_⟩
    · unfold ReadChildren
      simp [hnd, hdir, hls, hrun]
    · rw [List.getElem?_append_left ha]; exact hnd
    · intro p hp
      exact List.getElem?_append_left hp

theorem C5_ReadChildren_atomic_witness :
    exDirTree.nodes[0]? = some exRoot ∧
    ∃ h1, ReadChildren (exOS (.ok exFailEntries) none)
        exDirTree.nodes (some 0) = .ok (h1, some ⟨"EIO"⟩) ∧ h1[0]? = some exRoot := by
  refine ⟨rfl, ?_⟩
  obtain ⟨h1, p1, p2, _⟩ :=
    (C5_ReadChildren_atomic (exOS (.ok exFailEntries) none)
      exDirTree.nodes 0 exRoot rfl).2.2 rfl (by decide) exListing ⟨"EIO"⟩ [] rfl
  exact ⟨h1, p1, p2⟩

theorem readLoop_total (n : Nat) (path : String) (old : Option (List Nat)) :
    ∀ (entries : List DirEntry) (h : Heap) (acc : List Nat), allValid h (sliceElems old) →
    ∃ ext r, readLoop n path old h entries acc = .ok (h ++ ext, r) ∧
      (∀ x ∈ ext, ∃ info, x = freshNode n path info) ∧
      (∀ cs, r = .ok cs → ∀ c ∈ cs,
        c ∈ acc ∨ c ∈ sliceElems old ∨ (h.length ≤ c ∧ c < h.length + ext.length)) := by
  intro entries
  induction entries with
  | nil =>
    intro h acc _
    refine ⟨[], .ok acc, by simp [readLoop], by simp, ?_⟩
    intro cs hcs c hc
    cases hcs
    exact Or.inl hc
  | cons ch rest ih =>
    intro h acc hv
    obtain ⟨chinfo⟩ := ch
    cases chinfo with
    | error e =>
      refine ⟨[], .error e, by simp [readLoop], by simp, ?_⟩
      intro cs hcs
      cases hcs
    | ok info =>
      have hch : (⟨.ok info⟩ : DirEntry) = mkEntry info := rfl
      rw [hch]
      cases hf : firstNamed h (sliceElems old) info.name with
      | some e =>
        obtain ⟨ext, r, hrun, hext, hcs⟩ := ih h (acc ++ [e]) hv
        refine ⟨ext, r, by rw [readLoop_cons_found n path old h info _ acc e hv hf, hrun],
          hext, ?_⟩
        intro cs hr c hc
        rcases hcs cs hr c hc with h1 | h1 | h1
        · rcases List.mem_append.mp h1 with h2 | h2
          · exact Or.inl h2
          · simp only [List.mem_singleton] at h2
            subst h2
            exact Or.inr (Or.inl (List.mem_of_find?_eq_some hf))
        · exact Or.inr (Or.inl h1)
        · exact Or.inr (Or.inr h1)
      | none =>
        obtain ⟨ext, r, hrun, hext, hcs⟩ := ih (h ++ [freshNode n path info])
          (acc ++ [h.length]) (allValid_append h _ _ hv)
        refine ⟨freshNode n path info :: ext, r, ?_, ?_, ?_⟩
        · rw [readLoop_cons_fresh n path old h info _ acc hv hf, hrun]
          simp
        · intro x hx
          rcases List.mem_cons.mp hx with h1 | h1
          · exact ⟨info, h1⟩
          · exact hext x h1
        · intro cs hr c hc
          simp only [List.length_append, List.length_singleton, List.length_cons, List.length_nil] at hcs ⊢
          rcases hcs cs hr c hc with h1 | h1 | h1
          · rcases List.mem_append.mp h1 with h2 | h2
            · exact Or.inl h2
            · simp only [List.mem_singleton] at h2
              subst h2
              exact Or.inr (Or.inr (by omega))
          · exact Or.inr (Or.inl h1)
          · exact Or.inr (Or.inr (by omega))

/-- What any returning `ReadChildren` call does to the store: fresh nodes `ext` are appended
and the node itself is replaced by `nd1`, which differs from it at most in `Children` and
`selectedChildIdx`. -/
theorem ReadChildren_general (os : OS) (h : Heap) (a : Nat) (nd : Node)
    (hnd : h[a]? = some nd) (hv : allValid h (sliceElems nd.Children)) :
    ∃ ext nd1 r, ReadChildren os h (some a) = .ok ((h ++ ext).set a nd1, r) ∧
      nd1.Path = nd.Path ∧ nd1.Info = nd.Info ∧ nd1.Parent = nd.Parent ∧
      (∀ x ∈ ext, ∃ info, x = freshNode a nd.Path info) ∧
      (nd1 = nd ∨
        (nd.Info.isDir = true ∧ r = none ∧ ∃ cs, nd1.Children = some cs ∧
          nd1.selectedChildIdx = max (min nd.selectedChildIdx ((cs.length : Int) - 1)) 0 ∧
          ∀ c ∈ cs, c ∈ sliceElems nd.Children ∨ (h.length ≤ c ∧ c < h.length + ext.length))) ∧
      (r = none → nd.Info.isDir = true → nd1.Children ≠ none) := by
  have hset : (h ++ ([] : Heap)).set a nd = h := by
    rw [List.append_nil]; exact set_same h a nd hnd
  cases hdir : nd.Info.isDir with
  | false =>
    refine ⟨[], nd, none, ?_, rfl, rfl, rfl, by simp, Or.inl rfl, ?_⟩
    · rw [hset]
      unfold ReadChildren
      simp [hnd, hdir]
    · intro _ hc
      cases hc
  | true =>
    cases hls : os.ReadDir nd.Path with
    | error e =>
      refine ⟨[], nd, some e, ?_, rfl, rfl, rfl, by simp, Or.inl rfl, ?_⟩
      · rw [hset]
        unfold ReadChildren
        simp [hnd, hdir, hls]
      · intro hc
        cases hc
    | ok entries =>
      obtain ⟨ext, r, hrun, hext, hcs⟩ := readLoop_total a nd.Path nd.Children entries h [] hv
      have ha : a < h.length := lt_of_getElem?_some hnd
      have hnd0 : (h ++ ext)[a]? = some nd := by
        rw [List.getElem?_append_left ha]; exact hnd
      cases r with
      | error e =>
        refine ⟨ext, nd, some e, ?_, rfl, rfl, rfl, hext, Or.inl rfl, ?_⟩
        · rw [set_same _ a nd hnd0]
          unfold ReadChildren
          simp [hnd, hdir, hls, hrun]
        · intro hc
          cases hc
      | ok cs =>
        refine ⟨ext, { nd with
            Children := some cs
            selectedChildIdx := max (min nd.selectedChildIdx ((cs.length : Int) - 1)) 0 },
          none, ?_, rfl, rfl, rfl, hext, Or.inr ⟨rfl, rfl, cs, rfl, rfl, ?_⟩, ?_⟩
        · unfold ReadChildren
          simp [hnd, hdir, hls, hrun]
        · intro c hc
          rcases hcs cs rfl c hc with h1 | h1 | h1
          · simp at h1
          · exact Or.inl h1
          · exact Or.inr h1
        · intro _ _ hc
          cases hc

/-! ### Descending and ascending -/

theorem indexFunc_nodup (H : Heap) : ∀ (cs : List Nat) (names : List String) (k : Nat),
    cs.map (nameAt H) = names.map some → names.Nodup →
    ∀ (i : Nat) (nm : String), names[i]? = some nm →
      indexFunc H nm cs k = .ok ((k + i : Nat) : Int) := by
  intro cs
  induction cs with
  | nil =>
    intro names k hmap _ i nm hi
    cases names with
    | nil => simp at hi
    | cons _ _ => simp at hmap
  | cons c cs ih =>
    intro names k hmap hnd i nm hi
    cases names with
    | nil => simp at hmap
    | cons nm0 names =>
      simp only [List.map_cons, List.cons.injEq] at hmap
      obtain ⟨hc, hrest⟩ := hmap
      rw [List.nodup_cons] at hnd
      unfold nameAt at hc
      cases hH : H[c]? with
      | none => rw [hH] at hc; simp at hc
      | some x =>
        rw [hH] at hc
        simp only [Option.map_some', Option.some.injEq] at hc
        unfold indexFunc
        simp only [hH]
        cases i with
        | zero =>
          simp only [List.getElem?_cons_zero, Option.some.injEq] at hi
          subst hi
          simp [hc]
        | succ j =>
          simp only [List.getElem?_cons_succ] at hi
          have hne : x.Info.name ≠ nm := by
            intro heq
            rw [hc] at heq
            subst heq
            exact hnd.1 (List.getElem?_mem hi)
          rw [if_neg hne, ih names (k + 1) hrest hnd.2 j nm hi]
          congr 2
          omega

theorem getSelected_eq (t : Tree) (a : Nat) (d : Node) (c : Nat)
    (hcur : t.CurrentDir = some a) (hd : t.nodes[a]? = some d)
    (hsel : 0 ≤ d.selectedChildIdx)
    (hc : (sliceElems d.Children)[d.selectedChildIdx.toNat]? = some c) :
    t.GetSelectedChild = .ok (some c) := by
  have hlen : 0 < sliceLen d.Children := by
    have := lt_of_getElem?_some hc
    cases hch : d.Children with
    | none => rw [hch] at this; simp [sliceElems] at this
    | some cs =>
      rw [hch] at this
      simp only [sliceElems] at this
      simp only [sliceLen]
      omega
  unfold Tree.GetSelectedChild deref
  simp only [hcur, hd, hlen, gt_iff_lt, if_true, sliceIndex, hc]
  rw [if_neg (by omega)]

theorem descend_shape (os : OS) (t t1 : Tree) (c : Nat) (cn : Node)
    (hget : t.GetSelectedChild = .ok (some c))
    (hcn : t.nodes[c]? = some cn) (hdir : cn.Info.isDir = true)
    (hexp : t.SetSelectedChildAsCurrent os = .ok (t1, none)) :
    ∃ ext cn1, t1 = { t with nodes := (t.nodes ++ ext).set c cn1, CurrentDir := some c } ∧
      cn1.Path = cn.Path ∧ cn1.Info = cn.Info ∧ cn1.Parent = cn.Parent ∧
      cn1.Children ≠ none ∧ (cn.Children ≠ none → cn1 = cn) := by
  unfold Tree.SetSelectedChildAsCurrent at hexp
  simp only [hget, hcn, hdir, Bool.not_true, Bool.false_eq_true, if_false] at hexp
  cases hch : cn.Children with
  | some cs =>
    simp only [hch, Option.isNone_some, Bool.false_eq_true, if_false, Except.ok.injEq,
      Prod.mk.injEq, and_true] at hexp
    refine ⟨[], cn, ?_, rfl, rfl, rfl, by simp [hch], fun _ => rfl⟩
    rw [List.append_nil, set_same _ _ _ hcn, ← hexp]
  | none =>
    simp only [hch, Option.isNone_none, if_true] at hexp
    obtain ⟨ext, cn1, r, hrun, h1, h2, h3, _, _, h6⟩ :=
      ReadChildren_general os t.nodes c cn hcn (by
        rw [hch]
        intro x hx
        simp [sliceElems] at hx)
    rw [hrun] at hexp
    cases r with
    | some e => simp at hexp
    | none =>
      simp only [Except.ok.injEq, Prod.mk.injEq, and_true] at hexp
      refine ⟨ext, cn1, hexp.symm, h1, h2, h3, h6 rfl hdir, ?_⟩
      intro hne
      exact absurd rfl hne

/-- C6: when the selected child `c` of the current directory `d` is a directory, the names
of `d`'s children are pairwise distinct and `SetSelectedChildAsCurrent` returns success,
then `c` is the current directory and its children are read, `d` is untouched, and a
following `SetParentAsCurrent` makes `d` the current directory again, leaving the store
(in particular `d`'s selected index, which points at `c`) as it was after the descent.
`SetParentAsCurrent` on a current directory without parent changes nothing.  In `Noop`
the key `l` performs that descent (and records the child's path with the watcher) and
the key `h` that ascent. -/
theorem C6_descend_ascend_roundtrip (os : OS) (t t1 : Tree) (a : Nat) (d : Node) (c : Nat)
    (cn : Node) (names : List String)
    (hcur : t.CurrentDir = some a) (hd : t.nodes[a]? = some d)
    (hsel : 0 ≤ d.selectedChildIdx)
    (hc : (sliceElems d.Children)[d.selectedChildIdx.toNat]? = some c)
    (hcn : t.nodes[c]? = some cn) (hdir : cn.Info.isDir = true) (hpar : cn.Parent = some a)
    (hnames : (sliceElems d.Children).map (nameAt t.nodes) = names.map some)
    (hnodup : names.Nodup)
    (hexp : t.SetSelectedChildAsCurrent os = .ok (t1, none)) :
    t1.CurrentDir = some c ∧
    (∃ cn1, t1.nodes[c]? = some cn1 ∧ cn1.Children ≠ none ∧ cn1.Info = cn.Info) ∧
    t1.nodes[a]? = some d ∧
    t1.SetParentAsCurrent = .ok { t1 with CurrentDir := some a } ∧
    (d.Parent = none → t.SetParentAsCurrent = .ok t) ∧
    (∀ (s : State) (l h : KeyMsg) (os2 : OS), s.Tree = t → s.OpBuf = .Noop →
      l.str = "l" → h.str = "h" →
      State.ProcessKey os s l
        = .ok ({ s with Tree := t1, watcher := cn.Path :: s.watcher }, none) ∧
      State.ProcessKey os2 { s with Tree := t1, watcher := cn.Path :: s.watcher } h
        = .ok ({ s with Tree := { t1 with CurrentDir := some a },
                        watcher := cn.Path :: s.watcher }, none)) := by
  have hget := getSelected_eq t a d c hcur hd hsel hc
  obtain ⟨ext, cn1, ht1, _, hI, hP, hC, hsame⟩ := descend_shape os t t1 c cn hget hcn hdir hexp
  have hclt : c < t.nodes.length := lt_of_getElem?_some hcn
  have halt : a < t.nodes.length := lt_of_getElem?_some hd
  have hclt1 : c < (t.nodes ++ ext).length := by
    rw [List.length_append]; omega
  have hcn0 : (t.nodes ++ ext)[c]? = some cn := by
    rw [List.getElem?_append_left hclt]; exact hcn
  have hnodes : t1.nodes = (t.nodes ++ ext).set c cn1 := by rw [ht1]
  have hc1 : t1.nodes[c]? = some cn1 := by
    rw [hnodes]; exact List.getElem?_set_self hclt1
  have ha1 : t1.nodes[a]? = some d := by
    rw [hnodes]
    by_cases hca : c = a
    · subst hca
      rw [List.getElem?_set_self hclt1]
      have hcd : cn = d := by
        rw [hcn] at hd
        exact Option.some.inj hd
      have hne : cn.Children ≠ none := by
        rw [hcd]
        intro hnone
        rw [hnone] at hc
        simp [sliceElems] at hc
      rw [hsame hne, hcd]
    · rw [List.getElem?_set_ne hca, List.getElem?_append_left halt]
      exact hd
  have hvalid : allValid t.nodes (sliceElems d.Children) := by
    intro x hx
    have hmem : nameAt t.nodes x ∈ (sliceElems d.Children).map (nameAt t.nodes) :=
      List.mem_map.mpr ⟨x, hx, rfl⟩
    rw [hnames] at hmem
    obtain ⟨nm, _, hnm⟩ := List.mem_map.mp hmem
    unfold nameAt at hnm
    cases hh : t.nodes[x]? with
    | none => rw [hh] at hnm; simp at hnm
    | some y => exact lt_of_getElem?_some hh
  have hnames1 : (sliceElems d.Children).map (nameAt t1.nodes) = names.map some := by
    rw [← hnames, hnodes]
    apply List.map_congr_left
    intro x hx
    rw [nameAt_set_same_info (t.nodes ++ ext) c cn cn1 hcn0 hI x,
      nameAt_append t.nodes ext x (hvalid x hx)]
  have hname : names[d.selectedChildIdx.toNat]? = some cn1.Info.name := by
    have h1 := congrArg (fun l => l[d.selectedChildIdx.toNat]?) hnames
    simp only [List.getElem?_map, hc, Option.map_some'] at h1
    unfold nameAt at h1
    rw [hcn] at h1
    simp only [Option.map_some'] at h1
    cases hn : names[d.selectedChildIdx.toNat]? with
    | none => rw [hn] at h1; simp at h1
    | some nm =>
      rw [hn] at h1
      simp only [Option.map_some', Option.some.injEq] at h1
      rw [hI, h1]
  have hidx := indexFunc_nodup t1.nodes (sliceElems d.Children) names 0 hnames1 hnodup
    d.selectedChildIdx.toNat cn1.Info.name hname
  have hup : t1.SetParentAsCurrent = .ok { t1 with CurrentDir := some a } := by
    have hcur1 : t1.CurrentDir = some c := by rw [ht1]
    unfold Tree.SetParentAsCurrent deref
    simp only [hcur1, hc1, hP, hpar, ha1, hidx]
    have hback : ({ d with selectedChildIdx := ((0 + d.selectedChildIdx.toNat : Nat) : Int) }
        : Node) = d := by
      have : ((0 + d.selectedChildIdx.toNat : Nat) : Int) = d.selectedChildIdx := by omega
      rw [this]
    rw [hback, set_same _ _ _ ha1]
  refine ⟨by rw [ht1], ⟨cn1, hc1, hC, hI⟩, ha1, hup, ?_, ?_⟩
  · intro hroot
    unfold Tree.SetParentAsCurrent deref
    simp only [hcur, hd, hroot]
  · intro s l h os2 hs hop hl hh
    subst hs
    refine ⟨?_, ?_⟩
    · unfold State.ProcessKey
      rw [hop]
      simp only
      unfold State.processKeyDefault State.orPanic
      simp [hl, hget, hcn, hexp, hop]
    · unfold State.ProcessKey
      simp only [hop]
      unfold State.processKeyDefault
      simp [hh, hup, hop]

theorem C6_descend_ascend_roundtrip_witness :
    exDirTree.SetSelectedChildAsCurrent (exOS (.ok (exListing.map mkEntry)) none)
      = .ok (exDescended, none) ∧
    exDescended.SetParentAsCurrent = .ok { exDescended with CurrentDir := some 0 } :=
  have hexp : exDirTree.SetSelectedChildAsCurrent (exOS (.ok (exListing.map mkEntry)) none)
      = .ok (exDescended, none) := by decide
  ⟨hexp, (C6_descend_ascend_roundtrip (exOS (.ok (exListing.map mkEntry)) none) exDirTree
    exDescended 0 exRoot 2 exB ["a", "b"] rfl rfl (by decide) (by decide) (by decide) rfl rfl
    (by decide) (by decide) hexp).2.2.2.1⟩

/-! ### Expanding and collapsing -/

theorem toggle_collapse (os : OS) (t : Tree) (c : Nat) (cn : Node)
    (hget : t.GetSelectedChild = .ok (some c)) (hcn : t.nodes[c]? = some cn)
    (hread : cn.Children ≠ none) :
    t.CollapseOrExpandSelected os =
      .ok ({ t with nodes := t.nodes.set c { cn with Children := none } }, none) := by
  unfold Tree.CollapseOrExpandSelected orphanChildren
  cases hch : cn.Children with
  | none => exact absurd hch hread
  | some cs => simp [hget, hcn, hch]

theorem toggle_expand (os : OS) (t : Tree) (c : Nat) (cn : Node)
    (hget : t.GetSelectedChild = .ok (some c)) (hcn : t.nodes[c]? = some cn)
    (hunread : cn.Children = none) :
    t.CollapseOrExpandSelected os =
      match ReadChildren os t.nodes (some c) with
      | .error f => .error f
      | .ok (h, e) => .ok ({ t with nodes := h }, e) := by
  unfold Tree.CollapseOrExpandSelected
  simp [hget, hcn, hunread]

/-- C8: `CollapseOrExpandSelected` with nothing selected returns success and changes
nothing.  With a selected directory `c`: if `c`'s children are read (non-nil, possibly
empty) the call sets them to nil and touches nothing else; if they are nil and the listing
succeeds with `L`, the call returns success and leaves them non-nil with `len(L)` elements
(also for an empty `L`); and a second call, whatever the file system then says, returns
success and leaves them nil again. -/
theorem C8_toggle_flips (os : OS) (t : Tree) (a : Nat) (d : Node)
    (hcur : t.CurrentDir = some a) (hd : t.nodes[a]? = some d) :
    (sliceLen d.Children = 0 → t.CollapseOrExpandSelected os = .ok (t, none)) ∧
    (∀ (c : Nat) (cn : Node), 0 ≤ d.selectedChildIdx →
      (sliceElems d.Children)[d.selectedChildIdx.toNat]? = some c →
      t.nodes[c]? = some cn → cn.Info.isDir = true →
      (cn.Children ≠ none →
        t.CollapseOrExpandSelected os =
          .ok ({ t with nodes := t.nodes.set c { cn with Children := none } }, none)) ∧
      (cn.Children = none → ∀ L : List FileInfo, os.ReadDir cn.Path = .ok (L.map mkEntry) →
        ∃ t1 cn1 cs, t.CollapseOrExpandSelected os = .ok (t1, none) ∧
          t1.nodes[c]? = some cn1 ∧ cn1.Children = some cs ∧ cs.length = L.length ∧
          ∀ os2 : OS, ∃ t2 cn2, t1.CollapseOrExpandSelected os2 = .ok (t2, none) ∧
            t2.nodes[c]? = some cn2 ∧ cn2.Children = none)) := by
  refine ⟨?_, ?_⟩
  · intro hlen
    unfold Tree.CollapseOrExpandSelected Tree.GetSelectedChild deref
    simp [hcur, hd, hlen]
  · intro c cn hsel hc hcn hdir
    have hget := getSelected_eq t a d c hcur hd hsel hc
    refine ⟨toggle_collapse os t c cn hget hcn, ?_⟩
    intro hunread L hls
    have hv : allValid t.nodes (sliceElems cn.Children) := by
      rw [hunread]
      intro x hx
      simp [sliceElems] at hx
    obtain ⟨ext, cs, hrun, hlen, _⟩ := ReadChildren_ok os t.nodes c cn L hcn hdir hls hv
    have hclt : c < t.nodes.length := lt_of_getElem?_some hcn
    have halt : a < t.nodes.length := lt_of_getElem?_some hd
    have hclt1 : c < (t.nodes ++ ext).length := by
      rw [List.length_append]; omega
    have hca : c ≠ a := by
      intro hca
      subst hca
      rw [hcn] at hd
      have hcd : cn = d := Option.some.inj hd
      rw [← hcd, hunread] at hc
      simp [sliceElems] at hc
    obtain ⟨cn1, hcn1⟩ : ∃ cn1 : Node, cn1 = { cn with
        Children := some cs
        selectedChildIdx := max (min cn.selectedChildIdx ((L.length : Int) - 1)) 0 } :=
      ⟨_, rfl⟩
    rw [← hcn1] at hrun
    have hC : cn1.Children = some cs := by rw [hcn1]
    have hget1 : Tree.GetSelectedChild { t with nodes := (t.nodes ++ ext).set c cn1 }
        = .ok (some c) := by
      refine getSelected_eq { t with nodes := (t.nodes ++ ext).set c cn1 } a d c hcur ?_ hsel hc
      simp only
      rw [List.getElem?_set_ne hca, List.getElem?_append_left halt]
      exact hd
    refine ⟨{ t with nodes := (t.nodes ++ ext).set c cn1 }, cn1, cs, ?_,
      List.getElem?_set_self hclt1, hC, hlen, ?_⟩
    · rw [toggle_expand os t c cn hget hcn hunread, hrun]
    · intro os2
      refine ⟨_, { cn1 with Children := none },
        toggle_collapse os2 _ c cn1 hget1 (List.getElem?_set_self hclt1) (by simp [hC]),
        ?_, rfl⟩
      simp only
      rw [List.getElem?_set_self]
      rw [List.length_set]
      exact hclt1

theorem C8_toggle_flips_witness :
    (exDirTree.CurrentDir = some 0 ∧ exDirTree.nodes[0]? = some exRoot) ∧
    ∃ t1 cn1 cs, exDirTree.CollapseOrExpandSelected (exOS (.ok ([].map mkEntry)) none)
        = .ok (t1, none) ∧
      t1.nodes[2]? = some cn1 ∧ cn1.Children = some cs ∧ cs.length = 0 ∧
      ∃ t2 cn2, t1.CollapseOrExpandSelected (exOS (.error ⟨"gone"⟩) none) = .ok (t2, none) ∧
        t2.nodes[2]? = some cn2 ∧ cn2.Children = none := by
  refine ⟨⟨rfl, rfl⟩, ?_⟩
  obtain ⟨t1, cn1, cs, p1, p2, p3, p4, p5⟩ :=
    ((C8_toggle_flips (exOS (.ok ([].map mkEntry)) none) exDirTree 0 exRoot rfl rfl).2
      2 exB (by decide) (by decide) rfl rfl).2 rfl [] rfl
  exact ⟨t1, cn1, cs, p1, p2, p3, p4, p5 (exOS (.error ⟨"gone"⟩) none)⟩

/-! ### Marking -/

theorem getSelected_none (t : Tree) (a : Nat) (d : Node)
    (hcur : t.CurrentDir = some a) (hd : t.nodes[a]? = some d)
    (hlen : sliceLen d.Children = 0) : t.GetSelectedChild = .ok none := by
  unfold Tree.GetSelectedChild deref
  simp [hcur, hd, hlen]

/-- C9: on a current directory without children `MarkSelectedChild` reports false and
leaves the tree, `Marked` included, as it was; with children and a valid selected index it
reports true and sets `Marked` to the child at that index (the method of tree.go has the
same effect on the tree, without the report).  Hence in `Noop` on an empty directory the
keys `y`, `d`, `D` and `r` leave the whole state, and so the operation `Noop`, unchanged. -/
theorem C9_mark_selected (t : Tree) (a : Nat) (d : Node)
    (hcur : t.CurrentDir = some a) (hd : t.nodes[a]? = some d) :
    (sliceLen d.Children = 0 →
      InternalTree.MarkSelectedChild t = .ok (t, false) ∧ t.MarkSelectedChild = .ok t ∧
      ∀ (os : OS) (s : State) (msg : KeyMsg), s.Tree = t → s.OpBuf = .Noop →
        msg.str = "y" ∨ msg.str = "d" ∨ msg.str = "D" ∨ msg.str = "r" →
        State.ProcessKey os s msg = .ok (s, none)) ∧
    (∀ c : Nat, 0 ≤ d.selectedChildIdx →
      (sliceElems d.Children)[d.selectedChildIdx.toNat]? = some c →
      InternalTree.MarkSelectedChild t = .ok ({ t with Marked := some c }, true) ∧
      t.MarkSelectedChild = .ok { t with Marked := some c }) := by
  refine ⟨?_, ?_⟩
  · intro hlen
    have hget := getSelected_none t a d hcur hd hlen
    have hmark : InternalTree.MarkSelectedChild t = .ok (t, false) := by
      unfold InternalTree.MarkSelectedChild
      simp [hget]
    refine ⟨hmark, ?_, ?_⟩
    · unfold Tree.MarkSelectedChild
      simp [hget]
    · intro os s msg hs hop hkey
      subst hs
      unfold State.ProcessKey
      rw [hop]
      simp only
      unfold State.processKeyDefault State.markThen
      rcases hkey with hk | hk | hk | hk <;> simp [hk, hmark]
  · intro c hsel hc
    have hget := getSelected_eq t a d c hcur hd hsel hc
    refine ⟨?_, ?_⟩
    · unfold InternalTree.MarkSelectedChild
      simp [hget]
    · unfold Tree.MarkSelectedChild
      simp [hget]

theorem C9_mark_selected_witness :
    (exEmptyTree.CurrentDir = some 1 ∧
      exEmptyTree.nodes[1]? = some { exB with Children := some [] }) ∧
    State.ProcessKey (exOS (.ok []) none) exEmptyState ⟨"D", [Char.ofNat 68]⟩
      = .ok (exEmptyState, none) ∧
    InternalTree.MarkSelectedChild exEmptyTree = .ok (exEmptyTree, false) := by
  have h := (C9_mark_selected exEmptyTree 1 { exB with Children := some [] } rfl rfl).1 rfl
  exact ⟨⟨rfl, rfl⟩, h.2.2 (exOS (.ok []) none) exEmptyState ⟨"D", [Char.ofNat 68]⟩ rfl rfl
    (by decide), h.1⟩

/-! ### Copying and moving the marked node -/

theorem ReadChildren_frame (os : OS) (h : Heap) (a : Nat) (nd : Node)
    (hnd : h[a]? = some nd) (hv : allValid h (sliceElems nd.Children)) :
    ∃ h1 r nd1, ReadChildren os h (some a) = .ok (h1, r) ∧ h.length ≤ h1.length ∧
      (∀ p, p < h.length → p ≠ a → h1[p]? = h[p]?) ∧
      h1[a]? = some nd1 ∧ nd1.Path = nd.Path ∧ nd1.Info = nd.Info ∧ nd1.Parent = nd.Parent ∧
      allValid h1 (sliceElems nd1.Children) := by
  obtain ⟨ext, nd1, r, hrun, h1, h2, h3, _, h5, _⟩ := ReadChildren_general os h a nd hnd hv
  have ha : a < h.length := lt_of_getElem?_some hnd
  have hlen : ((h ++ ext).set a nd1).length = h.length + ext.length := by
    rw [List.length_set, List.length_append]
  refine ⟨_, r, nd1, hrun, by omega, ?_, ?_, h1, h2, h3, ?_⟩
  · intro p hp hpa
    rw [List.getElem?_set_ne (Ne.symm hpa), List.getElem?_append_left hp]
  · apply List.getElem?_set_self
    rw [List.length_append]; omega
  · intro c hc
    rw [hlen]
    rcases h5 with h5 | ⟨_, _, cs, hcs, _, hmem⟩
    · rw [h5] at hc
      have := hv c hc
      omega
    · rw [hcs] at hc
      simp only [sliceElems] at hc
      rcases hmem c hc with h6 | h6
      · have := hv c h6
        omega
      · omega

/-- C10: with a node marked, `CopyMarkedToCurrentDir` and `MoveMarkedToCurrentDir` return,
and `Marked` is nil afterwards exactly when the returned error is nil.  On success the
store is the one left by `ReadChildren` on the current directory (for move: followed by
`ReadChildren` on the marked node's parent).  When the `cp` / `mv` command fails, its
error is returned and the tree, the mark and the whole store are unchanged. -/
theorem C10_copy_move_mark (os : OS) (t : Tree) (m a p : Nat) (mn d pn : Node)
    (hm : t.Marked = some m) (hmn : t.nodes[m]? = some mn)
    (hcur : t.CurrentDir = some a) (hd : t.nodes[a]? = some d)
    (hvd : allValid t.nodes (sliceElems d.Children))
    (hpar : mn.Parent = some p) (hpn : t.nodes[p]? = some pn)
    (hvp : allValid t.nodes (sliceElems pn.Children)) :
    (∃ t1 r, t.CopyMarkedToCurrentDir os = .ok (t1, r) ∧ (t1.Marked = none ↔ r = none) ∧
      (r = none → ∃ h1, ReadChildren os t.nodes (some a) = .ok (h1, none) ∧
        t1 = { t with nodes := h1, Marked := none }) ∧
      (∀ e, os.Run "cp" [mn.Path, d.Path] = some e → t1 = t ∧ r = some e)) ∧
    (∃ t1 r, t.MoveMarkedToCurrentDir os = .ok (t1, r) ∧ (t1.Marked = none ↔ r = none) ∧
      (r = none → ∃ h1 h2, ReadChildren os t.nodes (some a) = .ok (h1, none) ∧
        ReadChildren os h1 (some p) = .ok (h2, none) ∧
        t1 = { t with nodes := h2, Marked := none }) ∧
      (∀ e, os.Run "mv" [mn.Path, d.Path] = some e → t1 = t ∧ r = some e)) := by
  obtain ⟨h1, r1, d1, hrun1, hlen1, hframe1, hd1, _, _, hdP, hvd1⟩ :=
    ReadChildren_frame os t.nodes a d hd hvd
  have hmlt : m < t.nodes.length := lt_of_getElem?_some hmn
  have hplt : p < t.nodes.length := lt_of_getElem?_some hpn
  refine ⟨?_, ?_⟩
  · unfold Tree.CopyMarkedToCurrentDir deref
    simp only [hm, hcur, hd, hmn]
    cases hcmd : os.Run "cp" [mn.Path, d.Path] with
    | some e =>
      refine ⟨t, some e, rfl, by simp [hm], by simp, ?_⟩
      intro e1 he1
      cases he1
      exact ⟨rfl, rfl⟩
    | none =>
      simp only [hrun1]
      cases r1 with
      | some e => exact ⟨_, some e, rfl, by simp [hm], by simp, by simp⟩
      | none => exact ⟨_, none, rfl, by simp, fun _ => ⟨h1, rfl, rfl⟩, by simp⟩
  · unfold Tree.MoveMarkedToCurrentDir deref
    simp only [hm, hcur, hd, hmn]
    cases hcmd : os.Run "mv" [mn.Path, d.Path] with
    | some e =>
      refine ⟨t, some e, rfl, by simp [hm], by simp, ?_⟩
      intro e1 he1
      cases he1
      exact ⟨rfl, rfl⟩
    | none =>
      simp only [hrun1]
      cases r1 with
      | some e => exact ⟨_, some e, rfl, by simp [hm], by simp, by simp⟩
      | none =>
        have hm1 : ∃ mn1, h1[m]? = some mn1 ∧ mn1.Parent = some p := by
          by_cases hma : m = a
          · subst hma
            rw [hmn] at hd
            have hmd : mn = d := Option.some.inj hd
            exact ⟨d1, hd1, by rw [hdP, ← hmd, hpar]⟩
          · exact ⟨mn, by rw [hframe1 m hmlt hma, hmn], hpar⟩
        obtain ⟨mn1, hmn1, hmp1⟩ := hm1
        have hp1 : ∃ pn1, h1[p]? = some pn1 ∧ allValid h1 (sliceElems pn1.Children) := by
          by_cases hpa : p = a
          · subst hpa
            exact ⟨d1, hd1, hvd1⟩
          · refine ⟨pn, by rw [hframe1 p hplt hpa, hpn], ?_⟩
            intro c hc
            have := hvp c hc
            omega
        obtain ⟨pn1, hpn1, hvp1⟩ := hp1
        obtain ⟨h2, r2, _, hrun2, _⟩ := ReadChildren_frame os h1 p pn1 hpn1 hvp1
        simp only [hmn1, hmp1, hrun2]
        cases r2 with
        | some e => exact ⟨_, some e, rfl, by simp [hm], by simp, by simp⟩
        | none => exact ⟨_, none, rfl, by simp, fun _ => ⟨h1, h2, rfl, hrun2, rfl⟩, by simp⟩

theorem C10_copy_move_mark_witness :
    (exMarkedTree.Marked = some 1 ∧ exMarkedTree.CurrentDir = some 2) ∧
    (∃ t1 r, exMarkedTree.MoveMarkedToCurrentDir (exOS (.ok []) (some ⟨"exit status 1"⟩))
        = .ok (t1, r) ∧ (t1.Marked = none ↔ r = none) ∧ t1 = exMarkedTree) := by
  refine ⟨⟨rfl, rfl⟩, ?_⟩
  obtain ⟨t1, r, p1, p2, _, p4⟩ :=
    (C10_copy_move_mark (exOS (.ok []) (some ⟨"exit status 1"⟩)) exMarkedTree 1 2 0
      _ _ exRoot rfl rfl rfl rfl (by decide) rfl rfl (by decide)).2
  exact ⟨t1, r, p1, p2, (p4 _ rfl).1⟩

/-! ### The invariant of reachable trees -/

theorem Anc_le (h : Heap) (hinv : HInv h) : ∀ x b, Anc h x b → x ≤ b := by
  intro x b hanc
  induction hanc with
  | self => exact Nat.le_refl _
  | up b p nd hb hp _ ih =>
    have := (hinv b nd hb).2 p hp
    omega

theorem Anc_back (h h1 : Heap) (hinv : HInv h)
    (hpar : ∀ (p : Nat) (y : Node) (q : Nat), p < h.length → h1[p]? = some y →
      y.Parent = some q → ∃ z, h[p]? = some z ∧ z.Parent = some q) :
    ∀ x b, Anc h1 x b → b < h.length → Anc h x b := by
  intro x b hanc
  induction hanc with
  | self => intro _; exact Anc.self
  | up b p nd hb hp _ ih =>
    intro hlt
    obtain ⟨z, hz, hzp⟩ := hpar b nd p hlt hb hp
    have hq := (hinv b z hz).2 p hzp
    exact Anc.up b p z hz hzp (ih (by omega))

theorem HInv_set (h : Heap) (x : Nat) (nd nd1 : Node) (hinv : HInv h)
    (hx : h[x]? = some nd) (hP : nd1.Parent = nd.Parent)
    (hch : ∀ c ∈ sliceElems nd1.Children, x < c ∧ ∃ cn, h[c]? = some cn ∧ cn.Parent = some x) :
    HInv (h.set x nd1) := by
  have hxlt : x < h.length := lt_of_getElem?_some hx
  intro p y hy
  by_cases hpx : p = x
  · subst hpx
    rw [List.getElem?_set_self hxlt] at hy
    cases hy
    refine ⟨?_, ?_⟩
    · intro c hc
      obtain ⟨h1, cn, h2, h3⟩ := hch c hc
      refine ⟨h1, cn, ?_, h3⟩
      rw [List.getElem?_set_ne (by omega)]
      exact h2
    · intro q hq
      rw [hP] at hq
      exact (hinv p nd hx).2 q hq
  · rw [List.getElem?_set_ne (Ne.symm hpx)] at hy
    obtain ⟨h1, h2⟩ := hinv p y hy
    refine ⟨?_, h2⟩
    intro c hc
    obtain ⟨h3, cn, h4, h5⟩ := h1 c hc
    by_cases hcx : c = x
    · subst hcx
      refine ⟨h3, nd1, List.getElem?_set_self hxlt, ?_⟩
      rw [hx] at h4
      cases h4
      rw [hP]
      exact h5
    · refine ⟨h3, cn, ?_, h5⟩
      rw [List.getElem?_set_ne (Ne.symm hcx)]
      exact h4

theorem HInv_append (h ext : Heap) (hinv : HInv h)
    (hext : ∀ y ∈ ext, y.Children = none ∧ ∃ q, y.Parent = some q ∧ q < h.length) :
    HInv (h ++ ext) := by
  intro p y hy
  by_cases hp : p < h.length
  · rw [List.getElem?_append_left hp] at hy
    obtain ⟨h1, h2⟩ := hinv p y hy
    refine ⟨?_, h2⟩
    intro c hc
    obtain ⟨h3, cn, h4, h5⟩ := h1 c hc
    refine ⟨h3, cn, ?_, h5⟩
    rw [List.getElem?_append_left (lt_of_getElem?_some h4)]
    exact h4
  · rw [List.getElem?_append_right (by omega)] at hy
    obtain ⟨h1, q, h2, h3⟩ := hext y (List.getElem?_mem hy)
    refine ⟨?_, ?_⟩
    · intro c hc
      rw [h1] at hc
      simp [sliceElems] at hc
    · intro q1 hq1
      rw [h2] at hq1
      cases hq1
      omega

theorem PInv_set (h : Heap) (x b : Nat) (nd nd1 : Node) (hinv : HInv h)
    (hx : h[x]? = some nd) (hP : nd1.Parent = nd.Parent) (hI : nd1.Info = nd.Info)
    (hC : (nd.Children ≠ none → nd1.Children ≠ none) ∨ b < x)
    (hb : PInv h b) : PInv (h.set x nd1) b := by
  have hxlt : x < h.length := lt_of_getElem?_some hx
  obtain ⟨bn, hbn, _, _⟩ := hb b Anc.self
  have hblt : b < h.length := lt_of_getElem?_some hbn
  intro y hy
  have hanc : Anc h y b := by
    refine Anc_back h (h.set x nd1) hinv ?_ y b hy hblt
    intro p z q _ hz hzq
    by_cases hpx : p = x
    · subst hpx
      rw [List.getElem?_set_self hxlt] at hz
      cases hz
      exact ⟨nd, hx, by rw [← hP]; exact hzq⟩
    · rw [List.getElem?_set_ne (Ne.symm hpx)] at hz
      exact ⟨z, hz, hzq⟩
  obtain ⟨yn, hyn, hdir, hch⟩ := hb y hanc
  by_cases hyx : y = x
  · subst hyx
    rw [hx] at hyn
    cases hyn
    refine ⟨nd1, List.getElem?_set_self hxlt, by rw [hI]; exact hdir, ?_⟩
    rcases hC with hC | hC
    · exact hC hch
    · have := Anc_le h hinv y b hanc
      omega
  · refine ⟨yn, ?_, hdir, hch⟩
    rw [List.getElem?_set_ne (Ne.symm hyx)]
    exact hyn

theorem PInv_append (h ext : Heap) (b : Nat) (hinv : HInv h) (hb : PInv h b) :
    PInv (h ++ ext) b := by
  obtain ⟨bn, hbn, _, _⟩ := hb b Anc.self
  have hblt : b < h.length := lt_of_getElem?_some hbn
  intro y hy
  have hanc : Anc h y b := by
    refine Anc_back h (h ++ ext) hinv ?_ y b hy hblt
    intro p z q hp hz hzq
    rw [List.getElem?_append_left hp] at hz
    exact ⟨z, hz, hzq⟩
  obtain ⟨yn, hyn, hdir, hch⟩ := hb y hanc
  refine ⟨yn, ?_, hdir, hch⟩
  rw [List.getElem?_append_left (lt_of_getElem?_some hyn)]
  exact hyn

theorem ReadChildren_node (os : OS) (h h1 : Heap) (a : Option Nat) (r : Option GoError)
    (hrun : ReadChildren os h a = .ok (h1, r)) : ∃ x nd, a = some x ∧ h[x]? = some nd := by
  unfold ReadChildren at hrun
  cases a with
  | none => simp at hrun
  | some x =>
    cases hx : h[x]? with
    | none => simp [hx] at hrun
    | some nd => exact ⟨x, nd, rfl, hx⟩

theorem HInv_valid (h : Heap) (hinv : HInv h) (p : Nat) (nd : Node) (hp : h[p]? = some nd) :
    allValid h (sliceElems nd.Children) := by
  intro c hc
  obtain ⟨_, cn, hcn, _⟩ := (hinv p nd hp).1 c hc
  exact lt_of_getElem?_some hcn

theorem ReadChildren_inv (os : OS) (h h1 : Heap) (a : Nat) (nd : Node) (r : Option GoError)
    (hinv : HInv h) (hnd : h[a]? = some nd)
    (hrun : ReadChildren os h (some a) = .ok (h1, r)) :
    HInv h1 ∧ (∀ b, PInv h b → PInv h1 b) ∧
    (∀ (p : Nat) (y : Node), h[p]? = some y → ∃ y1, h1[p]? = some y1 ∧ y1.Parent = y.Parent ∧
      y1.Info = y.Info ∧ (y.Children ≠ none → y1.Children ≠ none)) ∧
    (r = none → nd.Info.isDir = true → ∃ nd1, h1[a]? = some nd1 ∧ nd1.Children ≠ none) := by
  have hv := HInv_valid h hinv a nd hnd
  obtain ⟨ext, nd1, r1, hrun1, hPath, hI, hP, hext, hcases, hread⟩ :=
    ReadChildren_general os h a nd hnd hv
  rw [hrun1] at hrun
  simp only [Except.ok.injEq, Prod.mk.injEq] at hrun
  obtain ⟨hh, hr⟩ := hrun
  subst hh
  subst hr
  have halt : a < h.length := lt_of_getElem?_some hnd
  have halt1 : a < (h ++ ext).length := by
    rw [List.length_append]; omega
  have hnd0 : (h ++ ext)[a]? = some nd := by
    rw [List.getElem?_append_left halt]; exact hnd
  have hinv0 : HInv (h ++ ext) := by
    apply HInv_append h ext hinv
    intro y hy
    obtain ⟨info, hinfo⟩ := hext y hy
    subst hinfo
    exact ⟨rfl, a, rfl, halt⟩
  have hkeep : nd.Children ≠ none → nd1.Children ≠ none := by
    intro hne
    rcases hcases with hc | ⟨_, _, cs, hcs, _⟩
    · rw [hc]; exact hne
    · rw [hcs]; simp
  refine ⟨?_, ?_, ?_, ?_⟩
  · apply HInv_set (h ++ ext) a nd nd1 hinv0 hnd0 hP
    intro c hc
    have hold : c ∈ sliceElems nd.Children →
        a < c ∧ ∃ cn, (h ++ ext)[c]? = some cn ∧ cn.Parent = some a := by
      intro hmem
      obtain ⟨h1, cn, h2, h3⟩ := (hinv a nd hnd).1 c hmem
      refine ⟨h1, cn, ?_, h3⟩
      rw [List.getElem?_append_left (lt_of_getElem?_some h2)]
      exact h2
    rcases hcases with hc1 | ⟨_, _, cs, hcs, _, hmem⟩
    · rw [hc1] at hc
      exact hold hc
    · rw [hcs] at hc
      simp only [sliceElems] at hc
      rcases hmem c hc with h1 | ⟨h1, h2⟩
      · exact hold h1
      · refine ⟨by omega, ?_⟩
        have hlt : c - h.length < ext.length := by omega
        have hget : (h ++ ext)[c]? = some ext[c - h.length] := by
          rw [List.getElem?_append_right h1, List.getElem?_eq_getElem hlt]
        obtain ⟨info, hinfo⟩ := hext _ (List.getElem_mem hlt)
        refine ⟨_, hget, ?_⟩
        rw [hinfo]
        rfl
  · intro b hb
    exact PInv_set (h ++ ext) a b nd nd1 hinv0 hnd0 hP hI (Or.inl hkeep)
      (PInv_append h ext b hinv hb)
  · intro p y hy
    have hplt : p < h.length := lt_of_getElem?_some hy
    by_cases hpa : p = a
    · subst hpa
      rw [hnd] at hy
      cases hy
      exact ⟨nd1, List.getElem?_set_self halt1, hP, hI, hkeep⟩
    · refine ⟨y, ?_, rfl, rfl, fun hne => hne⟩
      rw [List.getElem?_set_ne (Ne.symm hpa), List.getElem?_append_left hplt]
      exact hy
  · intro hr hdir
    exact ⟨nd1, List.getElem?_set_self halt1, hread hr hdir⟩

theorem PInv_child (h : Heap) (a c : Nat) (cn : Node) (hc : h[c]? = some cn)
    (hpar : cn.Parent = some a) (hdir : cn.Info.isDir = true) (hch : cn.Children ≠ none)
    (ha : PInv h a) : PInv h c := by
  intro x hx
  cases hx with
  | self => exact ⟨cn, hc, hdir, hch⟩
  | up b p nd hnd hp hanc =>
    rw [hc] at hnd
    cases hnd
    rw [hpar] at hp
    cases hp
    exact ha x hanc

theorem PInv_parent (h : Heap) (a p : Nat) (d : Node) (hd : h[a]? = some d)
    (hpar : d.Parent = some p) (ha : PInv h a) : PInv h p := by
  intro x hx
  exact ha x (Anc.up a p d hd hpar hx)

theorem getSelected_mem (t : Tree) (c : Nat) (hget : t.GetSelectedChild = .ok (some c)) :
    ∃ a d, t.CurrentDir = some a ∧ t.nodes[a]? = some d ∧ c ∈ sliceElems d.Children := by
  unfold Tree.GetSelectedChild deref at hget
  cases hcur : t.CurrentDir with
  | none => simp [hcur] at hget
  | some a =>
    cases hd : t.nodes[a]? with
    | none => simp [hcur, hd] at hget
    | some d =>
      refine ⟨a, d, rfl, hd, ?_⟩
      simp only [hcur, hd] at hget
      by_cases hlen : sliceLen d.Children > 0
      · rw [if_pos hlen] at hget
        unfold sliceIndex at hget
        by_cases hneg : d.selectedChildIdx < 0
        · rw [if_pos hneg] at hget
          simp at hget
        · rw [if_neg hneg] at hget
          cases hidx : (sliceElems d.Children)[d.selectedChildIdx.toNat]? with
          | none =>
            rw [hidx] at hget
            simp at hget
          | some x =>
            rw [hidx] at hget
            simp only [Except.ok.injEq, Option.some.injEq] at hget
            subst hget
            exact List.getElem?_mem hidx
      · rw [if_neg hlen] at hget
        simp at hget

theorem inv_setIdx (h : Heap) (x : Nat) (nd : Node) (i : Int) (hinv : HInv h)
    (hx : h[x]? = some nd) :
    HInv (h.set x { nd with selectedChildIdx := i }) ∧
    ∀ b, PInv h b → PInv (h.set x { nd with selectedChildIdx := i }) b :=
  ⟨HInv_set h x nd _ hinv hx rfl (fun c hc => (hinv x nd hx).1 c hc),
   fun b hb => PInv_set h x b nd _ hinv hx rfl rfl (Or.inl (fun hne => hne)) hb⟩

theorem inv_selectNext (t t1 : Tree) (hinv : TreeInv t) (hstep : t.SelectNextChild = .ok t1) :
    TreeInv t1 := by
  obtain ⟨hh, a, hcur, hp⟩ := hinv
  obtain ⟨d, hd, _, _⟩ := hp a Anc.self
  rw [selectNext_eq t a d hcur hd] at hstep
  cases hstep
  obtain ⟨h1, h2⟩ := inv_setIdx t.nodes a d _ hh hd
  exact ⟨h1, a, hcur, h2 a hp⟩

theorem inv_selectPrev (t t1 : Tree) (hinv : TreeInv t)
    (hstep : t.SelectPreviousChild = .ok t1) : TreeInv t1 := by
  obtain ⟨hh, a, hcur, hp⟩ := hinv
  obtain ⟨d, hd, _, _⟩ := hp a Anc.self
  rw [selectPrev_eq t a d hcur hd] at hstep
  cases hstep
  obtain ⟨h1, h2⟩ := inv_setIdx t.nodes a d _ hh hd
  exact ⟨h1, a, hcur, h2 a hp⟩

theorem inv_mark (t t1 : Tree) (hinv : TreeInv t) (hstep : t.MarkSelectedChild = .ok t1) :
    TreeInv t1 := by
  unfold Tree.MarkSelectedChild at hstep
  cases hget : t.GetSelectedChild with
  | error f => simp [hget] at hstep
  | ok sel =>
    cases sel with
    | none =>
      simp only [hget, Except.ok.injEq] at hstep
      subst hstep
      exact hinv
    | some c =>
      simp only [hget, Except.ok.injEq] at hstep
      subst hstep
      exact hinv

theorem inv_ascend (t t1 : Tree) (hinv : TreeInv t) (hstep : t.SetParentAsCurrent = .ok t1) :
    TreeInv t1 := by
  obtain ⟨hh, a, hcur, hp⟩ := hinv
  obtain ⟨d, hd, _, _⟩ := hp a Anc.self
  unfold Tree.SetParentAsCurrent deref at hstep
  simp only [hcur, hd] at hstep
  cases hpar : d.Parent with
  | none =>
    simp only [hpar, Except.ok.injEq] at hstep
    subst hstep
    exact ⟨hh, a, hcur, hp⟩
  | some p =>
    simp only [hpar] at hstep
    cases hpn : t.nodes[p]? with
    | none => simp [hpn] at hstep
    | some pn =>
      simp only [hpn] at hstep
      cases hidx : indexFunc t.nodes d.Info.name (sliceElems pn.Children) 0 with
      | error f => simp [hidx] at hstep
      | ok i =>
        simp only [hidx, Except.ok.injEq] at hstep
        subst hstep
        obtain ⟨h1, h2⟩ := inv_setIdx t.nodes p pn i hh hpn
        exact ⟨h1, p, rfl, h2 p (PInv_parent t.nodes a p d hd hpar hp)⟩

theorem inv_readAt (os : OS) (t : Tree) (x : Option Nat) (h1 : Heap) (r : Option GoError)
    (hinv : TreeInv t) (hrun : ReadChildren os t.nodes x = .ok (h1, r)) :
    TreeInv { t with nodes := h1 } := by
  obtain ⟨hh, a, hcur, hp⟩ := hinv
  obtain ⟨y, nd, hy, hnd⟩ := ReadChildren_node os t.nodes h1 x r hrun
  subst hy
  obtain ⟨i1, i2, _, _⟩ := ReadChildren_inv os t.nodes h1 y nd r hh hnd hrun
  exact ⟨i1, a, hcur, i2 a hp⟩

theorem inv_copy (os : OS) (t t1 : Tree) (r : Option GoError) (hinv : TreeInv t)
    (hstep : t.CopyMarkedToCurrentDir os = .ok (t1, r)) : TreeInv t1 := by
  unfold Tree.CopyMarkedToCurrentDir at hstep
  cases hm : t.Marked with
  | none =>
    simp only [hm, Except.ok.injEq, Prod.mk.injEq] at hstep
    rw [← hstep.1]
    exact hinv
  | some m =>
    simp only [hm] at hstep
    cases hd : deref t.nodes t.CurrentDir with
    | error f => simp [hd] at hstep
    | ok d =>
      simp only [hd] at hstep
      cases hmn : t.nodes[m]? with
      | none => simp [hmn] at hstep
      | some mn =>
        simp only [hmn] at hstep
        cases hcmd : os.Run "cp" [mn.Path, d.Path] with
        | some e =>
          simp only [hcmd, Except.ok.injEq, Prod.mk.injEq] at hstep
          rw [← hstep.1]
          exact hinv
        | none =>
          simp only [hcmd] at hstep
          cases hrc : ReadChildren os t.nodes t.CurrentDir with
          | error f => simp [hrc] at hstep
          | ok res =>
            obtain ⟨h1, e⟩ := res
            have hi := inv_readAt os t t.CurrentDir h1 e hinv hrc
            cases e with
            | some e1 =>
              simp only [hrc, Except.ok.injEq, Prod.mk.injEq] at hstep
              rw [← hstep.1]
              exact hi
            | none =>
              simp only [hrc, Except.ok.injEq, Prod.mk.injEq] at hstep
              rw [← hstep.1]
              exact hi

theorem inv_move (os : OS) (t t1 : Tree) (r : Option GoError) (hinv : TreeInv t)
    (hstep : t.MoveMarkedToCurrentDir os = .ok (t1, r)) : TreeInv t1 := by
  unfold Tree.MoveMarkedToCurrentDir at hstep
  cases hm : t.Marked with
  | none =>
    simp only [hm, Except.ok.injEq, Prod.mk.injEq] at hstep
    rw [← hstep.1]
    exact hinv
  | some m =>
    simp only [hm] at hstep
    cases hd : deref t.nodes t.CurrentDir with
    | error f => simp [hd] at hstep
    | ok d =>
      simp only [hd] at hstep
      cases hmn : t.nodes[m]? with
      | none => simp [hmn] at hstep
      | some mn =>
        simp only [hmn] at hstep
        cases hcmd : os.Run "mv" [mn.Path, d.Path] with
        | some e =>
          simp only [hcmd, Except.ok.injEq, Prod.mk.injEq] at hstep
          rw [← hstep.1]
          exact hinv
        | none =>
          simp only [hcmd] at hstep
          cases hrc : ReadChildren os t.nodes t.CurrentDir with
          | error f => simp [hrc] at hstep
          | ok res =>
            obtain ⟨h1, e⟩ := res
            have hi := inv_readAt os t t.CurrentDir h1 e hinv hrc
            cases e with
            | some e1 =>
              simp only [hrc, Except.ok.injEq, Prod.mk.injEq] at hstep
              rw [← hstep.1]
              exact hi
            | none =>
              simp only [hrc] at hstep
              cases hmn1 : h1[m]? with
              | none => simp [hmn1] at hstep
              | some mn1 =>
                simp only [hmn1] at hstep
                cases hrc2 : ReadChildren os h1 mn1.Parent with
                | error f => simp [hrc2] at hstep
                | ok res2 =>
                  obtain ⟨h2, e2⟩ := res2
                  have hi2 := inv_readAt os { t with nodes := h1 } mn1.Parent h2 e2 hi hrc2
                  cases e2 with
                  | some e3 =>
                    simp only [hrc2, Except.ok.injEq, Prod.mk.injEq] at hstep
                    rw [← hstep.1]
                    exact hi2
                  | none =>
                    simp only [hrc2, Except.ok.injEq, Prod.mk.injEq] at hstep
                    rw [← hstep.1]
                    exact hi2

theorem inv_toggle (os : OS) (t t1 : Tree) (r : Option GoError) (hinv : TreeInv t)
    (hstep : t.CollapseOrExpandSelected os = .ok (t1, r)) : TreeInv t1 := by
  unfold Tree.CollapseOrExpandSelected at hstep
  cases hget : t.GetSelectedChild with
  | error f => simp [hget] at hstep
  | ok sel =>
    cases sel with
    | none =>
      simp only [hget, Except.ok.injEq, Prod.mk.injEq] at hstep
      rw [← hstep.1]
      exact hinv
    | some c =>
      simp only [hget] at hstep
      cases hcn : t.nodes[c]? with
      | none => simp [hcn] at hstep
      | some cn =>
        simp only [hcn] at hstep
        cases hch : cn.Children with
        | some cs =>
          simp only [hch, Option.isSome_some, if_true, orphanChildren, hcn, Except.ok.injEq,
            Prod.mk.injEq] at hstep
          rw [← hstep.1]
          obtain ⟨hh, a, hcur, hp⟩ := hinv
          obtain ⟨a1, d, hcur1, hd, hmem⟩ := getSelected_mem t c hget
          rw [hcur] at hcur1
          cases hcur1
          have hac : a < c := ((hh a d hd).1 c hmem).1
          refine ⟨?_, a, hcur, ?_⟩
          · exact HInv_set t.nodes c cn _ hh hcn rfl (by
              intro x hx
              simp [sliceElems] at hx)
          · exact PInv_set t.nodes c a cn _ hh hcn rfl rfl (Or.inr hac) hp
        | none =>
          simp only [hch, Option.isSome_none, Bool.false_eq_true, if_false] at hstep
          cases hrc : ReadChildren os t.nodes (some c) with
          | error f => simp [hrc] at hstep
          | ok res =>
            obtain ⟨h1, e⟩ := res
            have hi := inv_readAt os t (some c) h1 e hinv hrc
            simp only [hrc, Except.ok.injEq, Prod.mk.injEq] at hstep
            rw [← hstep.1]
            exact hi

theorem inv_descend (os : OS) (t t1 : Tree) (r : Option GoError) (hinv : TreeInv t)
    (hstep : t.SetSelectedChildAsCurrent os = .ok (t1, r)) : TreeInv t1 := by
  unfold Tree.SetSelectedChildAsCurrent at hstep
  cases hget : t.GetSelectedChild with
  | error f => simp [hget] at hstep
  | ok sel =>
    cases sel with
    | none =>
      simp only [hget, Except.ok.injEq, Prod.mk.injEq] at hstep
      rw [← hstep.1]
      exact hinv
    | some c =>
      simp only [hget] at hstep
      cases hcn : t.nodes[c]? with
      | none => simp [hcn] at hstep
      | some cn =>
        simp only [hcn] at hstep
        cases hdir : cn.Info.isDir with
        | false =>
          simp only [hdir, Bool.not_false, if_true, Except.ok.injEq, Prod.mk.injEq] at hstep
          rw [← hstep.1]
          exact hinv
        | true =>
          simp only [hdir, Bool.not_true, Bool.false_eq_true, if_false] at hstep
          have hinv0 := hinv
          obtain ⟨hh, a, hcur, hp⟩ := hinv
          obtain ⟨a1, d, hcur1, hd, hmem⟩ := getSelected_mem t c hget
          rw [hcur] at hcur1
          cases hcur1
          obtain ⟨_, cn0, hcn0, hpar⟩ := (hh a d hd).1 c hmem
          rw [hcn] at hcn0
          cases hcn0
          cases hch : cn.Children with
          | some cs =>
            simp only [hch, Option.isNone_some, Bool.false_eq_true, if_false, Except.ok.injEq,
              Prod.mk.injEq] at hstep
            rw [← hstep.1]
            exact ⟨hh, c, rfl, PInv_child t.nodes a c cn hcn hpar hdir (by simp [hch]) hp⟩
          | none =>
            simp only [hch, Option.isNone_none, if_true] at hstep
            cases hrc : ReadChildren os t.nodes (some c) with
            | error f => simp [hrc] at hstep
            | ok res =>
              obtain ⟨h1, e⟩ := res
              have hi := inv_readAt os t (some c) h1 e hinv0 hrc
              cases e with
              | some e1 =>
                simp only [hrc, Except.ok.injEq, Prod.mk.injEq] at hstep
                rw [← hstep.1]
                exact hi
              | none =>
                simp only [hrc, Except.ok.injEq, Prod.mk.injEq] at hstep
                rw [← hstep.1]
                obtain ⟨i1, i2, i3, i4⟩ := ReadChildren_inv os t.nodes h1 c cn none hh hcn hrc
                obtain ⟨y1, hy1, hy2, hy3, _⟩ := i3 c cn hcn
                obtain ⟨y2, hy4, hy5⟩ := i4 rfl hdir
                rw [hy1] at hy4
                cases hy4
                exact ⟨i1, c, rfl, PInv_child h1 a c y1 hy1 (by rw [hy2]; exact hpar)
                  (by rw [hy3]; exact hdir) hy5 (i2 a hp)⟩

theorem inv_init (os : OS) (dir : String) (t : Tree) (hinit : InitTree os dir = .ok (t, none)) :
    TreeInv t := by
  unfold InitTree at hinit
  cases hls : os.Lstat dir with
  | error e => simp [hls] at hinit
  | ok rootInfo =>
    simp only [hls] at hinit
    cases hdir : rootInfo.isDir with
    | false => simp [hdir] at hinit
    | true =>
      simp only [hdir, Bool.not_true, Bool.false_eq_true, if_false] at hinit
      obtain ⟨root, hroot⟩ : ∃ root : Node,
          root = ⟨dir, rootInfo, some [], none, 0⟩ := ⟨_, rfl⟩
      rw [← hroot] at hinit
      have hh0 : HInv [root] := by
        intro p nd hp
        cases p with
        | zero =>
          simp only [List.getElem?_cons_zero, Option.some.injEq] at hp
          subst hp
          rw [hroot]
          simp [sliceElems]
        | succ k => simp at hp
      have hp0 : PInv [root] 0 := by
        intro x hx
        cases hx with
        | self => exact ⟨root, rfl, by rw [hroot]; exact hdir, by rw [hroot]; simp⟩
        | up b p nd hnd hpar _ =>
          simp only [List.getElem?_cons_zero, Option.some.injEq] at hnd
          subst hnd
          rw [hroot] at hpar
          simp at hpar
      cases hrc : ReadChildren os [root] (some 0) with
      | error f => simp [hrc] at hinit
      | ok res =>
        obtain ⟨h1, e⟩ := res
        obtain ⟨i1, i2, _, _⟩ := ReadChildren_inv os [root] h1 0 root e hh0 rfl hrc
        cases e with
        | some e1 => simp [hrc] at hinit
        | none =>
          simp only [hrc] at hinit
          cases h0 : h1[0]? with
          | none => simp [h0] at hinit
          | some r0 =>
            simp only [h0] at hinit
            split at hinit
            · simp at hinit
            · simp only [Except.ok.injEq, Prod.mk.injEq, and_true] at hinit
              rw [← hinit]
              exact ⟨i1, 0, rfl, i2 0 hp0⟩

theorem reachable_inv (t : Tree) (hr : Reachable t) : TreeInv t := by
  induction hr with
  | init os dir t hinit => exact inv_init os dir t hinit
  | step t t1 op _ hstep ih =>
    cases op with
    | selectNext => exact inv_selectNext t t1 ih hstep
    | selectPrev => exact inv_selectPrev t t1 ih hstep
    | ascend => exact inv_ascend t t1 ih hstep
    | mark => exact inv_mark t t1 ih hstep
    | descend os =>
      simp only [applyOp, afterCall] at hstep
      cases hres : t.SetSelectedChildAsCurrent os with
      | error f => simp [hres] at hstep
      | ok res =>
        obtain ⟨t2, r⟩ := res
        simp only [hres, Except.ok.injEq] at hstep
        subst hstep
        exact inv_descend os t t2 r ih hres
    | copy os =>
      simp only [applyOp, afterCall] at hstep
      cases hres : t.CopyMarkedToCurrentDir os with
      | error f => simp [hres] at hstep
      | ok res =>
        obtain ⟨t2, r⟩ := res
        simp only [hres, Except.ok.injEq] at hstep
        subst hstep
        exact inv_copy os t t2 r ih hres
    | move os =>
      simp only [applyOp, afterCall] at hstep
      cases hres : t.MoveMarkedToCurrentDir os with
      | error f => simp [hres] at hstep
      | ok res =>
        obtain ⟨t2, r⟩ := res
        simp only [hres, Except.ok.injEq] at hstep
        subst hstep
        exact inv_move os t t2 r ih hres
    | toggle os =>
      simp only [applyOp, afterCall] at hstep
      cases hres : t.CollapseOrExpandSelected os with
      | error f => simp [hres] at hstep
      | ok res =>
        obtain ⟨t2, r⟩ := res
        simp only [hres, Except.ok.injEq] at hstep
        subst hstep
        exact inv_toggle os t t2 r ih hres

theorem descend_effect (os : OS) (t t1 : Tree) (r : Option GoError)
    (hstep : t.SetSelectedChildAsCurrent os = .ok (t1, r)) :
    (t.GetSelectedChild = .ok none → t1 = t ∧ r = none) ∧
    (∀ (c : Nat) (cn : Node), t.GetSelectedChild = .ok (some c) → t.nodes[c]? = some cn →
      cn.Info.isDir = false → t1 = t ∧ r = none) ∧
    (r ≠ none → t1.CurrentDir = t.CurrentDir) ∧
    (t1.CurrentDir ≠ t.CurrentDir → ∃ c cn, t.GetSelectedChild = .ok (some c) ∧
      t1.CurrentDir = some c ∧ t1.nodes[c]? = some cn ∧ cn.Info.isDir = true ∧
      cn.Children ≠ none) := by
  unfold Tree.SetSelectedChildAsCurrent at hstep
  cases hget : t.GetSelectedChild with
  | error f => simp [hget] at hstep
  | ok sel =>
    cases sel with
    | none =>
      simp only [hget, Except.ok.injEq, Prod.mk.injEq] at hstep
      obtain ⟨h1, h2⟩ := hstep
      subst h1
      subst h2
      simp
    | some c =>
      simp only [hget] at hstep
      cases hcn : t.nodes[c]? with
      | none => simp [hcn] at hstep
      | some cn =>
        simp only [hcn] at hstep
        cases hdir : cn.Info.isDir with
        | false =>
          simp only [hdir, Bool.not_false, if_true, Except.ok.injEq, Prod.mk.injEq] at hstep
          obtain ⟨h1, h2⟩ := hstep
          subst h1
          subst h2
          simp
        | true =>
          simp only [hdir, Bool.not_true, Bool.false_eq_true, if_false] at hstep
          cases hch : cn.Children with
          | some cs =>
            simp only [hch, Option.isNone_some, Bool.false_eq_true, if_false, Except.ok.injEq,
              Prod.mk.injEq] at hstep
            obtain ⟨h1, h2⟩ := hstep
            subst h1
            subst h2
            refine ⟨by simp, ?_, by simp, ?_⟩
            · intro c1 cn1 hc1 hcn1 hd1
              simp only [Except.ok.injEq, Option.some.injEq] at hc1
              subst hc1
              rw [hcn] at hcn1
              cases hcn1
              rw [hdir] at hd1
              cases hd1
            · intro _
              exact ⟨c, cn, rfl, rfl, hcn, hdir, by simp [hch]⟩
          | none =>
            simp only [hch, Option.isNone_none, if_true] at hstep
            obtain ⟨ext, cn1, r1, hrun, _, hI, _, _, _, hread⟩ :=
              ReadChildren_general os t.nodes c cn hcn (by
                rw [hch]
                intro x hx
                simp [sliceElems] at hx)
            have hclt : c < (t.nodes ++ ext).length := by
              have := lt_of_getElem?_some hcn
              rw [List.length_append]; omega
            rw [hrun] at hstep
            cases r1 with
            | some e =>
              simp only [Except.ok.injEq, Prod.mk.injEq] at hstep
              obtain ⟨h1, h2⟩ := hstep
              subst h1
              subst h2
              refine ⟨by simp, ?_, by simp, by simp⟩
              intro c1 cn2 hc1 hcn1 hd1
              simp only [Except.ok.injEq, Option.some.injEq] at hc1
              subst hc1
              rw [hcn] at hcn1
              cases hcn1
              rw [hdir] at hd1
              cases hd1
            | none =>
              simp only [Except.ok.injEq, Prod.mk.injEq] at hstep
              obtain ⟨h1, h2⟩ := hstep
              subst h1
              subst h2
              refine ⟨by simp, ?_, by simp, ?_⟩
              · intro c1 cn2 hc1 hcn1 hd1
                simp only [Except.ok.injEq, Option.some.injEq] at hc1
                subst hc1
                rw [hcn] at hcn1
                cases hcn1
                rw [hdir] at hd1
                cases hd1
              · intro _
                exact ⟨c, cn1, rfl, rfl, List.getElem?_set_self hclt, by rw [hI]; exact hdir,
                  hread rfl hdir⟩

/-- C7: in every tree reachable from a successful `InitTree` by the `Tree` operations,
whatever the operating system answers, `CurrentDir` is a directory node whose children are
read (non-nil).  And any returning `SetSelectedChildAsCurrent` leaves the tree unchanged
when nothing is selected or the selected child is a file, leaves `CurrentDir` unchanged
when it returns an error, and when it changes `CurrentDir` the new one is the selected
child, a directory whose children are read. -/
theorem C7_currentDir_read_directory :
    (∀ t : Tree, Reachable t → ∃ a d, t.CurrentDir = some a ∧ t.nodes[a]? = some d ∧
      d.Info.isDir = true ∧ d.Children ≠ none) ∧
    (∀ (os : OS) (t t1 : Tree) (r : Option GoError),
      t.SetSelectedChildAsCurrent os = .ok (t1, r) →
      (t.GetSelectedChild = .ok none → t1 = t ∧ r = none) ∧
      (∀ (c : Nat) (cn : Node), t.GetSelectedChild = .ok (some c) → t.nodes[c]? = some cn →
        cn.Info.isDir = false → t1 = t ∧ r = none) ∧
      (r ≠ none → t1.CurrentDir = t.CurrentDir) ∧
      (t1.CurrentDir ≠ t.CurrentDir → ∃ c cn, t.GetSelectedChild = .ok (some c) ∧
        t1.CurrentDir = some c ∧ t1.nodes[c]? = some cn ∧ cn.Info.isDir = true ∧
        cn.Children ≠ none)) := by
  refine ⟨?_, descend_effect⟩
  intro t hr
  obtain ⟨_, a, hcur, hp⟩ := reachable_inv t hr
  obtain ⟨d, hd, hdir, hch⟩ := hp a Anc.self
  exact ⟨a, d, hcur, hd, hdir, hch⟩

theorem C7_currentDir_read_directory_witness :
    Reachable exDescended ∧
    ∃ a d, exDescended.CurrentDir = some a ∧ exDescended.nodes[a]? = some d ∧
      d.Info.isDir = true ∧ d.Children ≠ none :=
  have hr : Reachable exDescended :=
    Reachable.step exDirTree exDescended (.descend (exOS (.ok (exListing.map mkEntry)) none))
      (Reachable.step exInitTree exDirTree .selectNext
        (Reachable.init exInitOS "/r" exInitTree (by decide)) (by decide))
      (by decide)
  ⟨hr, C7_currentDir_read_directory.1 exDescended hr⟩

/-! ### The key machine -/

/-- C11: without a mark, `CopyMarkedToCurrentDir` and `MoveMarkedToCurrentDir` return
success and the very same tree (root, current directory, mark and the whole store),
whatever the operating system would answer: no command and no listing has any influence. -/
theorem C11_no_mark_noop (t : Tree) (hm : t.Marked = none) :
    ∀ os : OS, t.CopyMarkedToCurrentDir os = .ok (t, none) ∧
      t.MoveMarkedToCurrentDir os = .ok (t, none) := by
  intro os
  unfold Tree.CopyMarkedToCurrentDir Tree.MoveMarkedToCurrentDir
  simp [hm]

theorem C11_no_mark_noop_witness :
    exDirTree.Marked = none ∧
    exDirTree.CopyMarkedToCurrentDir exFailOS = .ok (exDirTree, none) ∧
    exDirTree.MoveMarkedToCurrentDir exFailOS = .ok (exDirTree, none) :=
  ⟨rfl, C11_no_mark_noop exDirTree rfl exFailOS⟩

theorem processKey_noop (os : OS) (s : State) (msg : KeyMsg) (hop : s.OpBuf = .Noop) :
    State.ProcessKey os s msg = State.processKeyDefault os s msg := by
  unfold State.ProcessKey
  rw [hop]

theorem processKey_delete_other (os : OS) (s : State) (msg : KeyMsg) (hop : s.OpBuf = .Delete)
    (hkey : msg.str ≠ "y") :
    State.ProcessKey os s msg =
      State.processKeyDefault os
        { s with OpBuf := .Noop, Tree := InternalTree.DropMark s.Tree } msg := by
  unfold State.ProcessKey
  rw [hop]
  simp only
  unfold State.processKeyDelete
  rw [if_neg hkey]

/-- C12: in `Delete`, a key other than `y` is handled exactly as the same key in `Noop`
on the state with the mark dropped, and the delete primitive has no influence on the
outcome.  In particular `j`, with the selected index `i` of the current directory within
a children list of length `n`, returns the state with operation `Noop`, no mark and
selected index `min(i+1, n-1)`, everything else unchanged. -/
theorem C12_delete_cancel (os : OS) (s : State) (msg : KeyMsg) (hop : s.OpBuf = .Delete)
    (hkey : msg.str ≠ "y") :
    State.ProcessKey os s msg =
      State.ProcessKey os { s with OpBuf := .Noop, Tree := InternalTree.DropMark s.Tree } msg ∧
    (∀ rm : String → Option GoError,
      State.ProcessKey { os with Remove := rm } s msg = State.ProcessKey os s msg) ∧
    (∀ (a : Nat) (d : Node), msg.str = "j" → s.Tree.CurrentDir = some a →
      s.Tree.nodes[a]? = some d → selInRange d →
      State.ProcessKey os s msg =
        .ok ({ s with
                OpBuf := .Noop
                Tree := { s.Tree with
                  Marked := none
                  nodes := s.Tree.nodes.set a
                    { d with selectedChildIdx := min (d.selectedChildIdx + 1) (sliceLen d.Children - 1) } } },
             none)) := by
  refine ⟨?_, ?_, ?_⟩
  · rw [processKey_delete_other os s msg hop hkey, processKey_noop os _ msg rfl]
  · intro rm
    rw [processKey_delete_other os s msg hop hkey, processKey_delete_other _ s msg hop hkey]
    rfl
  · intro a d hj hcur hd hr
    rw [processKey_delete_other os s msg hop hkey]
    unfold State.processKeyDefault
    have hsel := selectNext_eq (InternalTree.DropMark s.Tree) a d hcur hd
    have hmin : (if d.selectedChildIdx < (sliceLen d.Children : Int) - 1
        then d.selectedChildIdx + 1 else d.selectedChildIdx)
        = min (d.selectedChildIdx + 1) ((sliceLen d.Children : Int) - 1) := by
      unfold selInRange at hr
      split <;> omega
    rw [hmin] at hsel
    simp only [InternalTree.DropMark] at hsel ⊢
    simp [hj, hsel]

theorem C12_delete_cancel_witness :
    exDeleteState.OpBuf = .Delete ∧
    State.ProcessKey exFailOS exDeleteState ⟨"j", ['j']⟩ =
      .ok ({ exNoopState with InputBuf := [] }, none) := by
  refine ⟨rfl, ?_⟩
  rw [(C12_delete_cancel exFailOS exDeleteState ⟨"j", ['j']⟩ rfl (by decide)).2.2 0
    { exRoot with selectedChildIdx := 0 } rfl rfl rfl (by decide)]
  decide

/-- C13: in `Noop`, with the selected index of the current directory pointing at the
child `c`, the key `r` returns the state with operation `Rename`, `Marked = c` and the
input buffer equal to the runes of `c`'s name, whatever the buffer held; with no children
in the current directory `r` returns the state unchanged. -/
theorem C13_rename_seeds_buffer (os : OS) (s : State) (msg : KeyMsg) (a : Nat) (d : Node)
    (hop : s.OpBuf = .Noop) (hkey : msg.str = "r")
    (hcur : s.Tree.CurrentDir = some a) (hd : s.Tree.nodes[a]? = some d) :
    (∀ (c : Nat) (cn : Node), 0 ≤ d.selectedChildIdx →
      (sliceElems d.Children)[d.selectedChildIdx.toNat]? = some c →
      s.Tree.nodes[c]? = some cn →
      State.ProcessKey os s msg =
        .ok ({ s with Tree := { s.Tree with Marked := some c }
                      InputBuf := cn.Info.name.toList
                      OpBuf := .Rename }, none)) ∧
    (sliceLen d.Children = 0 → State.ProcessKey os s msg = .ok (s, none)) := by
  refine ⟨?_, ?_⟩
  · intro c cn hsel hc hcn
    have hget := getSelected_eq s.Tree a d c hcur hd hsel hc
    rw [processKey_noop os s msg hop]
    unfold State.processKeyDefault InternalTree.MarkSelectedChild deref
    simp [hkey, hget, hcn]
  · intro hlen
    have hget := getSelected_none s.Tree a d hcur hd hlen
    rw [processKey_noop os s msg hop]
    unfold State.processKeyDefault InternalTree.MarkSelectedChild
    simp [hkey, hget]

theorem C13_rename_seeds_buffer_witness :
    (exNoopState.OpBuf = .Noop ∧ exNoopState.InputBuf = ['x']) ∧
    State.ProcessKey exFailOS exNoopState ⟨"r", ['r']⟩ =
      .ok ({ exNoopState with Tree := { exDirTree with Marked := some 2 }
                              InputBuf := ['b']
                              OpBuf := .Rename }, none) :=
  ⟨⟨rfl, rfl⟩, (C13_rename_seeds_buffer exFailOS exNoopState ⟨"r", ['r']⟩ 0 exRoot rfl rfl
    rfl rfl).1 2 exB (by decide) (by decide) rfl⟩

/-- C14, as stated, fails: in `Copy` the key `j` moves the selected index, the key `esc`
drops the mark and sets `Noop`, the key `l` on the directory `b` makes it the current
directory, and the key `i` drops the mark and sets `Insert`. -/
theorem C14_counterexample :
    exCopyState.OpBuf = .Copy ∧
    State.ProcessKey exFailOS exCopyState ⟨"j", ['j']⟩ =
      .ok ({ exCopyState with Tree := { exDirTree with Marked := some 1 } }, none) ∧
    ({ exDirTree with Marked := some 1 } : Tree) ≠ exCopyState.Tree ∧
    State.ProcessKey exFailOS exCopyState ⟨"esc", []⟩ =
      .ok ({ exCopyState with OpBuf := .Noop, Tree := exInitTree }, none) ∧
    exInitTree.Marked ≠ exCopyState.Tree.Marked ∧
    State.ProcessKey (exOS (.ok (exListing.map mkEntry)) none)
        { exCopyState with Tree := { exDirTree with Marked := some 1 } } ⟨"l", ['l']⟩ =
      .ok ({ exCopyState with Tree := { exDescended with Marked := some 1 }
                              watcher := ["/r/b"] }, none) ∧
    exDescended.CurrentDir ≠ exDirTree.CurrentDir ∧
    State.ProcessKey exFailOS exCopyState ⟨"i", ['i']⟩ =
      .ok ({ exCopyState with OpBuf := .Insert, Tree := exInitTree }, none) := by
  decide

/-- C14, amended: in `Copy` or `Move` a key other than `p` and `g` is handled by the
`Noop` table (`processKeyDefault`) on the state as it is, the pending operation not being
reset first.  A key that the table does not list leaves the whole state unchanged;
`j`/`down` and `k`/`up` move the selected index of the current directory as in `Noop` and
change nothing else, so the pending operation and the mark stay; `esc` drops the mark and
sets `Noop`.  Nothing is said about the key `g`. -/
theorem C14_copy_move_fallthrough (os : OS) (s : State) (msg : KeyMsg)
    (hop : s.OpBuf = .Copy ∨ s.OpBuf = .Move) (hkey : msg.str ≠ "p") :
    (msg.str ≠ "g" → State.ProcessKey os s msg = State.processKeyDefault os s msg) ∧
    (msg.str ∉ defaultKeys → State.ProcessKey os s msg = .ok (s, none)) ∧
    (msg.str = "esc" →
      State.ProcessKey os s msg =
        .ok ({ s with Tree := { s.Tree with Marked := none }, OpBuf := .Noop }, none)) ∧
    (∀ (a : Nat) (d : Node), s.Tree.CurrentDir = some a → s.Tree.nodes[a]? = some d →
      (msg.str = "j" ∨ msg.str = "down" →
        State.ProcessKey os s msg =
          .ok ({ s with
                  Tree := { s.Tree with
                    nodes := s.Tree.nodes.set a
                      { d with selectedChildIdx := if d.selectedChildIdx < (sliceLen d.Children : Int) - 1 then d.selectedChildIdx + 1 else d.selectedChildIdx } } },
               none)) ∧
      (msg.str = "k" ∨ msg.str = "up" →
        State.ProcessKey os s msg =
          .ok ({ s with
                  Tree := { s.Tree with
                    nodes := s.Tree.nodes.set a
                      { d with selectedChildIdx := if d.selectedChildIdx > 0 then d.selectedChildIdx - 1 else d.selectedChildIdx } } },
               none))) := by
  have hdef : State.ProcessKey os s msg = State.processKeyDefault os s msg := by
    unfold State.ProcessKey
    rcases hop with h | h <;> rw [h] <;> simp only
    · unfold State.processKeyCopy
      rw [if_neg hkey]
    · unfold State.processKeyMove
      rw [if_neg hkey]
  refine ⟨fun _ => hdef, ?_, ?_, ?_⟩
  · intro hnot
    rw [hdef]
    unfold State.processKeyDefault
    simp only [defaultKeys, List.mem_cons, List.mem_singleton, not_or, List.not_mem_nil,
      or_false] at hnot
    simp [hnot]
  · intro hesc
    rw [hdef]
    unfold State.processKeyDefault InternalTree.DropMark
    simp [hesc]
  · intro a d hcur hd
    refine ⟨?_, ?_⟩
    · intro hj
      rw [hdef]
      unfold State.processKeyDefault
      have hsel := selectNext_eq s.Tree a d hcur hd
      rcases hj with hj | hj <;> simp [hj, hsel]
    · intro hk
      rw [hdef]
      unfold State.processKeyDefault
      have hsel := selectPrev_eq s.Tree a d hcur hd
      rcases hk with hk | hk <;> simp [hk, hsel]

theorem C14_copy_move_fallthrough_witness :
    (exCopyState.OpBuf = .Copy ∨ exCopyState.OpBuf = .Move) ∧
    State.ProcessKey exFailOS exCopyState ⟨"x", ['x']⟩ = .ok (exCopyState, none) ∧
    State.ProcessKey exFailOS exCopyState ⟨"esc", []⟩ =
      .ok ({ exCopyState with OpBuf := .Noop, Tree := exInitTree }, none) :=
  ⟨Or.inl rfl,
    (C14_copy_move_fallthrough exFailOS exCopyState ⟨"x", ['x']⟩ (Or.inl rfl)
      (by decide)).2.1 (by decide),
    (C14_copy_move_fallthrough exFailOS exCopyState ⟨"esc", []⟩ (Or.inl rfl)
      (by decide)).2.2.1 rfl⟩

/-- C15, the code at failing inputs: when the `cp` command fails, `p` in `Copy` does not
return to the caller with the operation reset to `Noop` but panics with the error; the
same happens for `y` in `Delete` when the delete primitive fails and for `l` in `Noop`
when the listing of the selected directory fails. -/
theorem C15_io_error_panics :
    exCopyState.Tree.CopyMarkedToCurrentDir exFailOS
      = .ok (exCopyState.Tree, some ⟨"exit status 1"⟩) ∧
    State.ProcessKey exFailOS exCopyState ⟨"p", ['p']⟩
      = .error (.panicErr ⟨"exit status 1"⟩) ∧
    State.ProcessKey exFailOS exDeleteState ⟨"y", ['y']⟩
      = .error (.panicErr ⟨"exit status 1"⟩) ∧
    State.ProcessKey exFailOS exNoopState ⟨"l", ['l']⟩
      = .error (.panicErr ⟨"permission denied"⟩) := by
  decide

theorem processKey_input (os : OS) (s : State) (msg : KeyMsg)
    (hop : s.OpBuf = .InsertFile ∨ s.OpBuf = .InsertDir ∨ s.OpBuf = .Rename)
    (hkey : msg.str ≠ "enter") :
    State.ProcessKey os s msg = State.processKeyAnyInput s msg := by
  unfold State.ProcessKey
  rcases hop with h | h | h <;> rw [h] <;> simp only
  · unfold State.processKeyInsertFile
    rw [if_neg hkey]
  · unfold State.processKeyInsertDir
    rw [if_neg hkey]
  · unfold State.processKeyRename
    rw [if_neg hkey]

theorem take_length_pred {α : Type} (b : List α) (c : α) :
    (b ++ [c]).take ((b ++ [c]).length - 1) = b := by
  simp

/-- C16, as stated, fails: in `InsertFile` with buffer `ab`, the key carrying the runes
`e`, `s`, `c`, whose `String()` is `esc`, does not leave the buffer `abesc` but cancels
(`Noop`, empty buffer), as does the key carrying the runes of `ctrl+c`; the key carrying
the runes of `backspace` removes the `b`; and the key carrying the runes of `enter`
commits the name `ab` (`Noop`, empty buffer). -/
theorem C16_counterexample :
    exInsertState.OpBuf = .InsertFile ∧ exInsertState.InputBuf = ['a', 'b'] ∧
    State.ProcessKey exFailOS exInsertState ⟨"esc", ['e', 's', 'c']⟩ =
      .ok ({ exInsertState with OpBuf := .Noop, InputBuf := [] }, none) ∧
    exInsertState.InputBuf ++ ['e', 's', 'c'] ≠ [] ∧
    State.ProcessKey exFailOS exInsertState ⟨"backspace", "backspace".toList⟩ =
      .ok ({ exInsertState with InputBuf := ['a'] }, none) ∧
    exInsertState.InputBuf ++ "backspace".toList ≠ ['a'] ∧
    State.ProcessKey exFailOS exInsertState ⟨"ctrl+c", "ctrl+c".toList⟩ =
      .ok ({ exInsertState with OpBuf := .Noop, InputBuf := [] }, none) ∧
    State.ProcessKey (exOS (.ok (exSameListing.map mkEntry)) none) exInsertState
        ⟨"enter", "enter".toList⟩ =
      .ok ({ exInsertState with OpBuf := .Noop, InputBuf := [] }, none) := by
  decide

/-- C16, amended: in `InsertFile`, `InsertDir` or `Rename`, a key whose `String()` is none
of `enter`, `esc`, `ctrl+c`, `backspace` appends its runes to the input buffer (a key of
runes whose text is one of these four is handled as that named key); `backspace` removes the last
rune of the buffer and leaves an empty buffer empty; both change nothing else (operation,
mark, tree).  So one rune typed and then `backspace` gives back the state.  `esc` and
`ctrl+c` give `Noop` with an empty buffer and no mark, the tree's nodes untouched,
whatever the operating system would answer. -/
theorem C16_input_editing (os : OS) (s : State) (msg : KeyMsg)
    (hop : s.OpBuf = .InsertFile ∨ s.OpBuf = .InsertDir ∨ s.OpBuf = .Rename) :
    (msg.str ∉ inputControlKeys →
      State.ProcessKey os s msg = .ok ({ s with InputBuf := s.InputBuf ++ msg.Runes }, none)) ∧
    (msg.str = "backspace" →
      State.ProcessKey os s msg = .ok ({ s with InputBuf := s.InputBuf.dropLast }, none)) ∧
    (msg.str ∉ inputControlKeys → ∀ (c : Char) (bs : KeyMsg) (os2 : OS),
      msg.Runes = [c] → bs.str = "backspace" →
      ∃ s1, State.ProcessKey os s msg = .ok (s1, none) ∧
        State.ProcessKey os2 s1 bs = .ok (s, none)) ∧
    (msg.str = "esc" ∨ msg.str = "ctrl+c" →
      State.ProcessKey os s msg =
        .ok ({ s with OpBuf := .Noop, InputBuf := [],
                      Tree := { s.Tree with Marked := none } }, none)) := by
  have happend : ∀ (o : OS) (x : State) (m : KeyMsg),
      (x.OpBuf = .InsertFile ∨ x.OpBuf = .InsertDir ∨ x.OpBuf = .Rename) →
      m.str ∉ inputControlKeys →
      State.ProcessKey o x m = .ok ({ x with InputBuf := x.InputBuf ++ m.Runes }, none) := by
    intro o x m hx hm
    simp only [inputControlKeys, List.mem_cons, List.mem_singleton, not_or, List.not_mem_nil,
      or_false] at hm
    rw [processKey_input o x m hx hm.1]
    unfold State.processKeyAnyInput
    simp [hm]
  have hback : ∀ (o : OS) (x : State) (m : KeyMsg),
      (x.OpBuf = .InsertFile ∨ x.OpBuf = .InsertDir ∨ x.OpBuf = .Rename) →
      m.str = "backspace" →
      State.ProcessKey o x m = .ok ({ x with InputBuf := x.InputBuf.dropLast }, none) := by
    intro o x m hx hm
    rw [processKey_input o x m hx (by rw [hm]; decide)]
    unfold State.processKeyAnyInput
    have h1 : ¬ (m.str = "ctrl+c" ∨ m.str = "esc") := by rw [hm]; decide
    rw [if_neg h1, if_pos hm]
    by_cases hlen : x.InputBuf.length > 0
    · rw [if_pos hlen, List.dropLast_eq_take]
    · rw [if_neg hlen]
      have hnil : x.InputBuf = [] := by
        cases hb : x.InputBuf with
        | nil => rfl
        | cons y ys => rw [hb] at hlen; simp at hlen
      rw [hnil]
      have : ({ x with InputBuf := ([] : List Char).dropLast } : State) = x := by
        cases x
        simp only at hnil
        rw [hnil]
        rfl
      rw [this]
  refine ⟨happend os s msg hop, hback os s msg hop, ?_, ?_⟩
  · intro hm c bs os2 hr hbs
    refine ⟨_, happend os s msg hop hm, ?_⟩
    rw [hback os2 { s with InputBuf := s.InputBuf ++ msg.Runes } bs hop hbs, hr]
    simp
  · intro hm
    rw [processKey_input os s msg hop (by rcases hm with h | h <;> rw [h] <;> decide)]
    unfold State.processKeyAnyInput InternalTree.DropMark
    rcases hm with h | h <;> simp [h]

theorem C16_input_editing_witness :
    (exInsertState.OpBuf = .InsertFile ∨ exInsertState.OpBuf = .InsertDir ∨
      exInsertState.OpBuf = .Rename) ∧
    State.ProcessKey exFailOS exInsertState ⟨"c", ['c']⟩
      = .ok ({ exInsertState with InputBuf := ['a', 'b', 'c'] }, none) ∧
    State.ProcessKey exFailOS exInsertState ⟨"backspace", []⟩
      = .ok ({ exInsertState with InputBuf := ['a'] }, none) :=
  have h := C16_input_editing exFailOS exInsertState
  ⟨Or.inl rfl, (h ⟨"c", ['c']⟩ (Or.inl rfl)).1 (by decide),
    (h ⟨"backspace", []⟩ (Or.inl rfl)).2.1 rfl⟩

/-- C17, the code at a failing input: from the initial state (`Noop`, no mark, empty
buffer) the keys `y`, `g`, `g`, none of whose tree operations fails, lead to `Noop` with
the node `a` still marked. -/
theorem C17_mark_survives_go :
    (exInitState.OpBuf = .Noop ∧ exInitState.Tree.Marked = none ∧ exInitState.InputBuf = []) ∧
    runKeys [(exInitOS, ⟨"y", ['y']⟩)] exInitState
      = .ok { exInitState with Tree := { exInitTree with Marked := some 1 }, OpBuf := .Copy } ∧
    runKeys [(exInitOS, ⟨"y", ['y']⟩), (exInitOS, ⟨"g", ['g']⟩)] exInitState
      = .ok { exInitState with Tree := { exInitTree with Marked := some 1 }, OpBuf := .Go } ∧
    runKeys [(exInitOS, ⟨"y", ['y']⟩), (exInitOS, ⟨"g", ['g']⟩), (exInitOS, ⟨"g", ['g']⟩)]
        exInitState
      = .ok { exInitState with Tree := { exInitTree with Marked := some 1 }, OpBuf := .Noop } := by
  decide

/-- C18, as stated, fails: refreshing `/r` with a listing in which `a` has become a
directory and `b` has another size and time leaves the store exactly as it was; the
reused children keep their old metadata. -/
theorem C18_counterexample :
    ReadChildren (exOS (.ok (exChangedListing.map mkEntry)) none) exDirTree.nodes (some 0)
      = .ok (exDirTree.nodes, none) ∧
    (exDirTree.nodes[1]?).map (fun n => n.Info) = some ⟨"a", false, 0, 0, 0⟩ ∧
    exChangedListing[0]? = some ⟨"a", true, 4096, 1, 5⟩ ∧
    (exDirTree.nodes[2]?).map (fun n => n.Info) = some ⟨"b", true, 0, 0, 0⟩ ∧
    exChangedListing[1]? = some ⟨"b", true, 7, 0, 9⟩ := by
  decide

/-- C18, amended: after `ReadChildren` on a directory node with a successful listing `L`,
the child at each position has the name of the entry of `L` at that position; a child
created by this refresh carries exactly that entry's metadata, and a child reused from the
previous children list carries the metadata it had before the call. -/
theorem C18_metadata_of_children (os : OS) (h : Heap) (a : Nat) (nd : Node)
    (L : List FileInfo)
    (hnd : h[a]? = some nd) (hdir : nd.Info.isDir = true)
    (hls : os.ReadDir nd.Path = .ok (L.map mkEntry))
    (hv : allValid h (sliceElems nd.Children)) :
    ∃ h1 nd1 cs, ReadChildren os h (some a) = .ok (h1, none) ∧
      h1[a]? = some nd1 ∧ nd1.Children = some cs ∧ cs.length = L.length ∧
      ∀ (i : Nat) (info : FileInfo), L[i]? = some info →
        ∃ c cn, cs[i]? = some c ∧ h1[c]? = some cn ∧ cn.Info.name = info.name ∧
          (firstNamed h (sliceElems nd.Children) info.name = none → cn.Info = info) ∧
          (∀ e, firstNamed h (sliceElems nd.Children) info.name = some e →
            c = e ∧ ∃ en, h[e]? = some en ∧ cn.Info = en.Info) := by
  obtain ⟨ext, cs, hrun, hlen, hidx⟩ := ReadChildren_ok os h a nd L hnd hdir hls hv
  have ha : a < h.length := lt_of_getElem?_some hnd
  have ha1 : a < (h ++ ext).length := by
    rw [List.length_append]; omega
  obtain ⟨nd1, hnd1⟩ : ∃ nd1 : Node, nd1 = { nd with
      Children := some cs
      selectedChildIdx := max (min nd.selectedChildIdx ((L.length : Int) - 1)) 0 } := ⟨_, rfl⟩
  rw [← hnd1] at hrun
  have hI : nd1.Info = nd.Info := by rw [hnd1]
  have hC : nd1.Children = some cs := by rw [hnd1]
  refine ⟨(h ++ ext).set a nd1, nd1, cs, hrun, List.getElem?_set_self ha1, hC, hlen, ?_⟩
  intro i info hi
  obtain ⟨h1, h2⟩ := hidx i info hi
  cases hf : firstNamed h (sliceElems nd.Children) info.name with
  | some e =>
    have hmem : e ∈ sliceElems nd.Children := List.mem_of_find?_eq_some hf
    have hp := List.find?_some hf
    simp only [decide_eq_true_eq] at hp
    have helt : e < h.length := hv e hmem
    have hen : h[e]? = some h[e] := List.getElem?_eq_getElem helt
    have hname : h[e].Info.name = info.name := by
      unfold nameAt at hp
      rw [hen] at hp
      simpa using hp
    by_cases hea : e = a
    · subst hea
      have hnde : h[e] = nd := by
        rw [hen] at hnd
        exact Option.some.inj hnd
      refine ⟨e, nd1, h1 e hf, List.getElem?_set_self ha1, ?_, ?_, ?_⟩
      · rw [hI, ← hnde]; exact hname
      · intro hnone; cases hnone
      · intro e1 he1
        cases he1
        exact ⟨rfl, h[e], hen, by rw [hI, hnde]⟩
    · refine ⟨e, h[e], h1 e hf, ?_, hname, ?_, ?_⟩
      · rw [List.getElem?_set_ne (Ne.symm hea), List.getElem?_append_left helt]
        exact hen
      · intro hnone; cases hnone
      · intro e1 he1
        cases he1
        exact ⟨rfl, h[e], hen, rfl⟩
  | none =>
    obtain ⟨c, hc1, hc2, hc3⟩ := h2 hf
    refine ⟨c, freshNode a nd.Path info, hc1, ?_, rfl, fun _ => rfl, ?_⟩
    · rw [List.getElem?_set_ne (by omega)]
      exact hc3
    · intro e he
      cases he

theorem C18_metadata_of_children_witness :
    (exDirTree.nodes[0]? = some exRoot ∧ exRoot.Info.isDir = true ∧
      allValid exDirTree.nodes (sliceElems exRoot.Children)) ∧
    ∃ h1 nd1 cs, ReadChildren (exOS (.ok (exListing.map mkEntry)) none) exDirTree.nodes (some 0)
        = .ok (h1, none) ∧
      h1[0]? = some nd1 ∧ nd1.Children = some cs ∧ cs.length = exListing.length := by
  refine ⟨⟨rfl, rfl, by decide⟩, ?_⟩
  obtain ⟨h1, nd1, cs, p1, p2, p3, p4, _⟩ :=
    C18_metadata_of_children (exOS (.ok (exListing.map mkEntry)) none) exDirTree.nodes 0
      exRoot exListing rfl rfl rfl (by decide)
  exact ⟨h1, nd1, cs, p1, p2, p3, p4⟩

theorem reachable_runOps (ops : List TreeOp) : ∀ (t t1 : Tree), Reachable t →
    runOps ops t = .ok t1 → Reachable t1 := by
  induction ops with
  | nil =>
    intro t t1 hr hrun
    simp only [runOps, Except.ok.injEq] at hrun
    rw [← hrun]
    exact hr
  | cons op ops ih =>
    intro t t1 hr hrun
    unfold runOps at hrun
    cases hop : applyOp op t with
    | error f => simp [hop] at hrun
    | ok t2 =>
      simp only [hop] at hrun
      exact ih t2 t1 (Reachable.step t t2 op hr hop) hrun

/-- C19, the code at a failing input: the tree built by `InitTree` on `/r` (entries `a`
and `b/`), after marking `a`, selecting and entering `b`, moving `a` there while `/r`
stops listing `b`, and `SetParentAsCurrent`, is a reachable tree in which the current
directory has one child and selected index -1, and `GetSelectedChild` panics with an
index out of range. -/
theorem C19_ascend_index_out_of_range :
    InitTree exInitOS "/r" = .ok (exInitTree, none) ∧
    runOps [.mark, .selectNext, .descend (exOS (.ok []) none), .move exLostOS, .ascend]
      exInitTree = .ok exLostTree ∧
    Reachable exLostTree ∧
    exLostTree.nodes[0]? = some { exRoot with Children := some [4], selectedChildIdx := -1 } ∧
    exLostTree.CurrentDir = some 0 ∧
    exLostTree.GetSelectedChild = .error .indexOutOfRange := by
  have hinit : InitTree exInitOS "/r" = .ok (exInitTree, none) := by decide
  have hrun : runOps [.mark, .selectNext, .descend (exOS (.ok []) none), .move exLostOS,
      .ascend] exInitTree = .ok exLostTree := by decide
  exact ⟨hinit, hrun,
    reachable_runOps _ exInitTree exLostTree (Reachable.init exInitOS "/r" exInitTree hinit) hrun,
    by decide, rfl, by decide⟩

theorem default_effect (os : OS) (s s1 : State) (msg : KeyMsg) (c : Option Cmd)
    (h : State.processKeyDefault os s msg = .ok (s1, c)) :
    s1.OpBuf = .Rename ∨
    (s1.InputBuf = s.InputBuf ∧
      (s1.OpBuf = s.OpBuf ∨ s1.OpBuf = .Noop ∨ s1.OpBuf = .Copy ∨ s1.OpBuf = .Move ∨
        s1.OpBuf = .Delete ∨ s1.OpBuf = .Go ∨ s1.OpBuf = .Insert)) := by
  unfold State.processKeyDefault State.markThen State.orPanic at h
  by_cases k0 : msg.str = "esc"
  · rw [if_pos k0] at h
    simp only [Except.ok.injEq, Prod.mk.injEq] at h
    obtain ⟨h1, _⟩ := h
    subst h1
    simp
  rw [if_neg k0] at h
  by_cases k1 : msg.str = "ctrl+c" ∨ msg.str = "q"
  · rw [if_pos k1] at h
    simp only [Except.ok.injEq, Prod.mk.injEq] at h
    obtain ⟨h1, _⟩ := h
    subst h1
    simp
  rw [if_neg k1] at h
  by_cases k2 : msg.str = "j" ∨ msg.str = "down"
  · rw [if_pos k2] at h
    split at h
    all_goals (try simp only [Except.ok.injEq, Prod.mk.injEq, reduceCtorEq] at h)
    all_goals (try (obtain ⟨h1, _⟩ := h; subst h1; simp))
  rw [if_neg k2] at h
  by_cases k3 : msg.str = "k" ∨ msg.str = "up"
  · rw [if_pos k3] at h
    split at h
    all_goals (try simp only [Except.ok.injEq, Prod.mk.injEq, reduceCtorEq] at h)
    all_goals (try (obtain ⟨h1, _⟩ := h; subst h1; simp))
  rw [if_neg k3] at h
  by_cases k4 : msg.str = "l" ∨ msg.str = "right"
  · rw [if_pos k4] at h
    split at h
    all_goals (try split at h)
    all_goals (try split at h)
    all_goals (try simp only [Except.ok.injEq, Prod.mk.injEq, reduceCtorEq] at h)
    all_goals (try (obtain ⟨h1, _⟩ := h; subst h1; simp))
  rw [if_neg k4] at h
  by_cases k5 : msg.str = "h" ∨ msg.str = "left"
  · rw [if_pos k5] at h
    split at h
    all_goals (try simp only [Except.ok.injEq, Prod.mk.injEq, reduceCtorEq] at h)
    all_goals (try (obtain ⟨h1, _⟩ := h; subst h1; simp))
  rw [if_neg k5] at h
  by_cases k6 : msg.str = "y"
  · rw [if_pos k6] at h
    split at h
    all_goals (try simp only [Except.ok.injEq, Prod.mk.injEq, reduceCtorEq] at h)
    all_goals (try (obtain ⟨h1, _⟩ := h; subst h1; simp))
  rw [if_neg k6] at h
  by_cases k7 : msg.str = "d"
  · rw [if_pos k7] at h
    split at h
    all_goals (try simp only [Except.ok.injEq, Prod.mk.injEq, reduceCtorEq] at h)
    all_goals (try (obtain ⟨h1, _⟩ := h; subst h1; simp))
  rw [if_neg k7] at h
  by_cases k8 : msg.str = "D"
  · rw [if_pos k8] at h
    split at h
    all_goals (try simp only [Except.ok.injEq, Prod.mk.injEq, reduceCtorEq] at h)
    all_goals (try (obtain ⟨h1, _⟩ := h; subst h1; simp))
  rw [if_neg k8] at h
  by_cases k9 : msg.str = "g"
  · rw [if_pos k9] at h
    simp only [Except.ok.injEq, Prod.mk.injEq] at h
    obtain ⟨h1, _⟩ := h
    subst h1
    simp
  rw [if_neg k9] at h
  by_cases k10 : msg.str = "G"
  · rw [if_pos k10] at h
    split at h
    all_goals (try simp only [Except.ok.injEq, Prod.mk.injEq, reduceCtorEq] at h)
    all_goals (try (obtain ⟨h1, _⟩ := h; subst h1; simp))
  rw [if_neg k10] at h
  by_cases k11 : msg.str = "i"
  · rw [if_pos k11] at h
    simp only [Except.ok.injEq, Prod.mk.injEq] at h
    obtain ⟨h1, _⟩ := h
    subst h1
    simp
  rw [if_neg k11] at h
  by_cases k12 : msg.str = "r"
  · rw [if_pos k12] at h
    split at h
    all_goals (try split at h)
    all_goals (try simp only [Except.ok.injEq, Prod.mk.injEq, reduceCtorEq] at h)
    all_goals (try (obtain ⟨h1, _⟩ := h; subst h1; simp))
  rw [if_neg k12] at h
  by_cases k13 : msg.str = "enter"
  · rw [if_pos k13] at h
    split at h
    all_goals (try simp only [Except.ok.injEq, Prod.mk.injEq, reduceCtorEq] at h)
    all_goals (try (obtain ⟨h1, _⟩ := h; subst h1; simp))
  rw [if_neg k13] at h
  simp only [Except.ok.injEq, Prod.mk.injEq] at h
  obtain ⟨h1, _⟩ := h
  subst h1
  simp

theorem orPanic_effect (r : Except Fault (Tree × Option GoError))
    (k : Tree → Except Fault (State × Option Cmd)) (s1 : State) (c : Option Cmd)
    (h : State.orPanic r k = .ok (s1, c)) : ∃ t, r = .ok (t, none) ∧ k t = .ok (s1, c) := by
  unfold State.orPanic at h
  split at h
  · cases h
  · cases h
  · exact ⟨_, rfl, h⟩

theorem anyInput_effect (s s1 : State) (msg : KeyMsg) (c : Option Cmd)
    (h : State.processKeyAnyInput s msg = .ok (s1, c)) :
    (s1.OpBuf = .Noop ∧ s1.InputBuf = []) ∨ s1.OpBuf = s.OpBuf := by
  unfold State.processKeyAnyInput at h
  split_ifs at h <;> simp only [Except.ok.injEq, Prod.mk.injEq] at h <;>
    obtain ⟨h1, _⟩ := h <;> subst h1 <;> simp

theorem commit_effect (r : Except Fault (Tree × Option GoError)) (s s1 : State)
    (c : Option Cmd)
    (h : State.orPanic r
      (fun t => .ok ({ s with Tree := t, OpBuf := .Noop, InputBuf := [] }, none)) = .ok (s1, c)) :
    s1.OpBuf = .Noop ∧ s1.InputBuf = [] := by
  obtain ⟨t, _, hk⟩ := orPanic_effect r _ s1 c h
  simp only [Except.ok.injEq, Prod.mk.injEq] at hk
  obtain ⟨h1, _⟩ := hk
  subst h1
  exact ⟨rfl, rfl⟩

theorem act_effect (r : Except Fault (Tree × Option GoError)) (s s1 : State)
    (c : Option Cmd)
    (h : State.orPanic r
      (fun t => .ok ({ s with Tree := t, OpBuf := .Noop }, none)) = .ok (s1, c)) :
    s1.OpBuf = .Noop ∧ s1.InputBuf = s.InputBuf := by
  obtain ⟨t, _, hk⟩ := orPanic_effect r _ s1 c h
  simp only [Except.ok.injEq, Prod.mk.injEq] at hk
  obtain ⟨h1, _⟩ := hk
  subst h1
  exact ⟨rfl, rfl⟩

/-- What one handled key press does to the pending operation and the input buffer: either
the machine is afterwards in an input operation it was already in, or in `Rename`, or the
buffer is what it was (and the operation either `InsertFile`/`InsertDir` entered from
`Insert`, or not an input operation), or the buffer is empty in `Noop`. -/
theorem step_effect (os : OS) (s s1 : State) (msg : KeyMsg) (c : Option Cmd)
    (h : State.ProcessKey os s msg = .ok (s1, c)) :
    (s1.OpBuf = s.OpBuf ∧ s.OpBuf.IsInput = true) ∨
    (s1.OpBuf = .Rename ∧ s.OpBuf.IsInput = false) ∨
    (s1.OpBuf = .Noop ∧ s1.InputBuf = []) ∨
    (s1.InputBuf = s.InputBuf ∧ s.OpBuf.IsInput = false ∧
      (s1.OpBuf.IsInput = false ∨ s.OpBuf = .Insert)) := by
  have hdef : ∀ x : State, x.InputBuf = s.InputBuf → x.OpBuf.IsInput = false →
      s.OpBuf.IsInput = false → State.processKeyDefault os x msg = .ok (s1, c) →
      (s1.OpBuf = s.OpBuf ∧ s.OpBuf.IsInput = true) ∨
      (s1.OpBuf = .Rename ∧ s.OpBuf.IsInput = false) ∨
      (s1.OpBuf = .Noop ∧ s1.InputBuf = []) ∨
      (s1.InputBuf = s.InputBuf ∧ s.OpBuf.IsInput = false ∧
        (s1.OpBuf.IsInput = false ∨ s.OpBuf = .Insert)) := by
    intro x hbuf hx hs hrun
    rcases default_effect os x s1 msg c hrun with h1 | ⟨h1, h2⟩
    · exact Or.inr (Or.inl ⟨h1, hs⟩)
    · refine Or.inr (Or.inr (Or.inr ⟨by rw [h1, hbuf], hs, Or.inl ?_⟩))
      rcases h2 with h2 | h2 | h2 | h2 | h2 | h2 | h2 <;> rw [h2]
      · exact hx
      all_goals rfl
  have hcases : s.OpBuf = .Noop ∨ s.OpBuf = .Move ∨ s.OpBuf = .Copy ∨ s.OpBuf = .Delete ∨
      s.OpBuf = .Go ∨ s.OpBuf = .Insert ∨ s.OpBuf = .InsertFile ∨ s.OpBuf = .InsertDir ∨
      s.OpBuf = .Rename := by
    cases s.OpBuf <;> simp
  unfold State.ProcessKey at h
  rcases hcases with hop | hop | hop | hop | hop | hop | hop | hop | hop <;>
    rw [hop] at h <;> simp only at h
  · exact hdef s rfl (by rw [hop]; rfl) (by rw [hop]; rfl) h
  · unfold State.processKeyMove at h
    split_ifs at h
    · obtain ⟨h1, h2⟩ := act_effect _ s s1 c h
      exact Or.inr (Or.inr (Or.inr ⟨h2, by rw [hop]; rfl, Or.inl (by rw [h1]; rfl)⟩))
    · exact hdef s rfl (by rw [hop]; rfl) (by rw [hop]; rfl) h
  · unfold State.processKeyCopy at h
    split_ifs at h
    · obtain ⟨h1, h2⟩ := act_effect _ s s1 c h
      exact Or.inr (Or.inr (Or.inr ⟨h2, by rw [hop]; rfl, Or.inl (by rw [h1]; rfl)⟩))
    · exact hdef s rfl (by rw [hop]; rfl) (by rw [hop]; rfl) h
  · unfold State.processKeyDelete at h
    split_ifs at h
    · obtain ⟨h1, h2⟩ := act_effect _ s s1 c h
      exact Or.inr (Or.inr (Or.inr ⟨h2, by rw [hop]; rfl, Or.inl (by rw [h1]; rfl)⟩))
    · exact hdef { s with OpBuf := .Noop, Tree := InternalTree.DropMark s.Tree } rfl rfl
        (by rw [hop]; rfl) h
  · unfold State.processKeyGo at h
    split_ifs at h
    · split at h
      · cases h
      · simp only [Except.ok.injEq, Prod.mk.injEq] at h
        obtain ⟨h1, _⟩ := h
        subst h1
        exact Or.inr (Or.inr (Or.inr ⟨rfl, by rw [hop]; rfl, Or.inl rfl⟩))
    · exact hdef { s with OpBuf := .Noop } rfl rfl (by rw [hop]; rfl) h
  · unfold State.processKeyInsert at h
    split_ifs at h
    · simp only [Except.ok.injEq, Prod.mk.injEq] at h
      obtain ⟨h1, _⟩ := h
      subst h1
      exact Or.inr (Or.inr (Or.inr ⟨rfl, by rw [hop]; rfl, Or.inr hop⟩))
    · simp only [Except.ok.injEq, Prod.mk.injEq] at h
      obtain ⟨h1, _⟩ := h
      subst h1
      exact Or.inr (Or.inr (Or.inr ⟨rfl, by rw [hop]; rfl, Or.inr hop⟩))
    · exact hdef { s with OpBuf := .Noop } rfl rfl (by rw [hop]; rfl) h
  · unfold State.processKeyInsertFile at h
    split_ifs at h
    · exact Or.inr (Or.inr (Or.inl (commit_effect _ s s1 c h)))
    · rcases anyInput_effect s s1 msg c h with h1 | h1
      · exact Or.inr (Or.inr (Or.inl h1))
      · exact Or.inl ⟨h1, by rw [hop]; rfl⟩
  · unfold State.processKeyInsertDir at h
    split_ifs at h
    · exact Or.inr (Or.inr (Or.inl (commit_effect _ s s1 c h)))
    · rcases anyInput_effect s s1 msg c h with h1 | h1
      · exact Or.inr (Or.inr (Or.inl h1))
      · exact Or.inl ⟨h1, by rw [hop]; rfl⟩
  · unfold State.processKeyRename at h
    split_ifs at h
    · exact Or.inr (Or.inr (Or.inl (commit_effect _ s s1 c h)))
    · rcases anyInput_effect s s1 msg c h with h1 | h1
      · exact Or.inr (Or.inr (Or.inl h1))
      · exact Or.inl ⟨h1, by rw [hop]; rfl⟩

theorem reachable_bufInv (s : State) (hr : KeyReachable s) : BufInv s := by
  induction hr with
  | init s _ hbuf => exact fun _ => hbuf
  | step s s1 os msg c _ hstep ih =>
    intro hs1
    rcases step_effect os s s1 msg c hstep with ⟨h1, h2⟩ | ⟨h1, _⟩ | ⟨_, h2⟩ | ⟨h1, h2, _⟩
    · rw [h1, h2] at hs1
      cases hs1
    · rw [h1] at hs1
      cases hs1
    · exact h2
    · rw [h1]
      exact ih h2

theorem processKey_append (os : OS) (s : State) (msg : KeyMsg)
    (hop : s.OpBuf = .InsertFile ∨ s.OpBuf = .InsertDir ∨ s.OpBuf = .Rename)
    (hm : msg.str ∉ inputControlKeys) :
    State.ProcessKey os s msg = .ok ({ s with InputBuf := s.InputBuf ++ msg.Runes }, none) := by
  simp only [inputControlKeys, List.mem_cons, List.mem_singleton, not_or, List.not_mem_nil,
    or_false] at hm
  rw [processKey_input os s msg hop hm.1]
  unfold State.processKeyAnyInput
  simp [hm]

theorem typeKeys_append (os : OS) : ∀ (ks : List KeyMsg) (s : State),
    (s.OpBuf = .InsertFile ∨ s.OpBuf = .InsertDir ∨ s.OpBuf = .Rename) →
    (∀ m ∈ ks, m.str ∉ inputControlKeys) →
    typeKeys os ks s
      = .ok { s with InputBuf := s.InputBuf ++ (ks.map (fun k => k.Runes)).flatten } := by
  intro ks
  induction ks with
  | nil =>
    intro s _ _
    simp [typeKeys, runKeys]
  | cons k ks ih =>
    intro s hop hall
    have hk := processKey_append os s k hop (hall k (List.mem_cons_self _ _))
    have hrest := ih { s with InputBuf := s.InputBuf ++ k.Runes } hop
      (fun m hm => hall m (List.mem_cons_of_mem _ hm))
    unfold typeKeys at hrest ⊢
    simp only [List.map_cons, runKeys, hk, hrest, List.flatten_cons, List.append_assoc]

/-- C20: in every state reachable from an initial state (`Noop`, empty buffer) by handled
key presses, the input buffer is empty whenever the pending operation is not `InsertFile`,
`InsertDir` or `Rename`.  Hence a key press that enters `InsertFile` or `InsertDir` leaves
the buffer empty; typing `f` or `d` in `Insert` and then keys other than `enter`, `esc`,
`ctrl+c`, `backspace` gives a buffer that is exactly the runes of those keys, in order; and
`enter` commits the buffer as the name. -/
theorem C20_buffer_empty_outside_input :
    (∀ s : State, KeyReachable s → s.OpBuf.IsInput = false → s.InputBuf = []) ∧
    (∀ (s s1 : State) (os : OS) (msg : KeyMsg) (c : Option Cmd), KeyReachable s →
      State.ProcessKey os s msg = .ok (s1, c) →
      s1.OpBuf = .InsertFile ∨ s1.OpBuf = .InsertDir → s1.OpBuf ≠ s.OpBuf →
      s1.InputBuf = []) ∧
    (∀ (s : State) (os : OS) (k : KeyMsg) (ks : List KeyMsg), KeyReachable s →
      s.OpBuf = .Insert → k.str = "f" ∨ k.str = "d" →
      (∀ m ∈ ks, m.str ∉ inputControlKeys) →
      typeKeys os (k :: ks) s
        = .ok { s with OpBuf := if k.str = "f" then .InsertFile else .InsertDir
                       InputBuf := (ks.map (fun m => m.Runes)).flatten }) ∧
    (∀ (s : State) (os : OS) (e : KeyMsg), e.str = "enter" →
      (s.OpBuf = .InsertFile →
        State.ProcessKey os s e =
          State.orPanic (InternalTree.CreateFileInCurrent os s.Tree (String.mk s.InputBuf))
            (fun t => .ok ({ s with Tree := t, OpBuf := .Noop, InputBuf := [] }, none))) ∧
      (s.OpBuf = .InsertDir →
        State.ProcessKey os s e =
          State.orPanic (InternalTree.CreateDirectoryInCurrent os s.Tree (String.mk s.InputBuf))
            (fun t => .ok ({ s with Tree := t, OpBuf := .Noop, InputBuf := [] }, none)))) := by
  refine ⟨fun s hr => reachable_bufInv s hr, ?_, ?_, ?_⟩
  · intro s s1 os msg c hr hstep hin hne
    rcases step_effect os s s1 msg c hstep with ⟨h1, _⟩ | ⟨h1, _⟩ | ⟨h1, _⟩ | ⟨h1, h2, _⟩
    · exact absurd h1 hne
    · rcases hin with h | h <;> rw [h] at h1 <;> cases h1
    · rcases hin with h | h <;> rw [h] at h1 <;> cases h1
    · rw [h1]
      exact reachable_bufInv s hr h2
  · intro s os k ks hr hop hk hall
    have hbuf : s.InputBuf = [] := reachable_bufInv s hr (by rw [hop]; rfl)
    have hfirst : State.ProcessKey os s k
        = .ok ({ s with OpBuf := if k.str = "f" then .InsertFile else .InsertDir }, none) := by
      unfold State.ProcessKey
      rw [hop]
      simp only
      unfold State.processKeyInsert
      rcases hk with h | h
      · simp [h]
      · simp [h]
    have hop1 : ({ s with OpBuf := if k.str = "f" then Operation.InsertFile
        else Operation.InsertDir } : State).OpBuf = .InsertFile ∨
        ({ s with OpBuf := if k.str = "f" then Operation.InsertFile
          else Operation.InsertDir } : State).OpBuf = .InsertDir ∨
        ({ s with OpBuf := if k.str = "f" then Operation.InsertFile
          else Operation.InsertDir } : State).OpBuf = .Rename := by
      simp only
      split
      · exact Or.inl rfl
      · exact Or.inr (Or.inl rfl)
    have hrest := typeKeys_append os ks _ hop1 hall
    unfold typeKeys at hrest ⊢
    simp only [hbuf, List.nil_append] at hrest
    simp only [List.map_cons, runKeys, hfirst, hbuf]
    exact hrest
  · intro s os e he
    refine ⟨?_, ?_⟩
    · intro hop
      unfold State.ProcessKey
      rw [hop]
      simp only
      unfold State.processKeyInsertFile
      rw [if_pos he]
    · intro hop
      unfold State.ProcessKey
      rw [hop]
      simp only
      unfold State.processKeyInsertDir
      rw [if_pos he]

theorem C20_buffer_empty_outside_input_witness :
    KeyReachable exInsertMenuState ∧ exInsertMenuState.OpBuf = .Insert ∧
    typeKeys exFailOS [⟨"f", ['f']⟩, ⟨"x", ['x']⟩, ⟨"y", ['y']⟩] exInsertMenuState
      = .ok { exInsertMenuState with OpBuf := .InsertFile, InputBuf := ['x', 'y'] } := by
  have hr : KeyReachable exInsertMenuState :=
    KeyReachable.step exInitState exInsertMenuState exFailOS ⟨"i", ['i']⟩ none
      (KeyReachable.init exInitState rfl rfl) (by decide)
  refine ⟨hr, rfl, ?_⟩
  rw [C20_buffer_empty_outside_input.2.2.1 exInsertMenuState exFailOS ⟨"f", ['f']⟩
    [⟨"x", ['x']⟩, ⟨"y", ['y']⟩] hr rfl (Or.inl rfl) (by decide)]
  decide

end Bt
